import Mathlib

/-!
# 7zx: a verification development for the extraction driver `7zx.c`

Shallow embedding of the text codec, the formatters and the three drivers
(list, extract and test mode) of `src/src/7zx.c` (the build without `_WIN32`),
followed by the properties proved about them.

Conventions of the embedding

* C bytes (`char`, `Byte`) are natural numbers, reduced `% 256` where the
  code casts to `char`; 16-bit code units are natural numbers below `65536`.
* `size_t` counters (`destPos`, `listIt`, ...) are unbounded naturals: every
  one of them is bounded by three times the length of an in-memory array
  (see `Utf16_To_Utf8_destLen_le`), so none can wrap.
* A store through a pointer is recorded with its index; a region of memory
  is a `List Nat` and an access outside the region is `none`.
* The archive parser, the block decoder, the allocator and the filesystem are
  parameters: the file table is given, and the outcome of every call to them
  is taken from an oracle; the extract and test drivers log their calls.
-/

namespace SevenZx

/-! ## Text codec: `Utf16_To_Utf8` (lines 40-89) -/

/-- The table `kUtf8Limits` (line 40). -/
def kUtf8Limits : List Nat := [0xC0, 0xE0, 0xF0, 0xF8, 0xFC]

/-- Result of one run of `Utf16_To_Utf8`: the returned flag, the value left
in `*destLen`, and the stores `dest[index] = byte` it made, in program order
(none at all when `dest` is the null pointer). -/
structure Utf8Run where
  ok : Bool
  destLen : Nat
  stores : List (Nat × Nat)
  deriving DecidableEq

/-- The bytes stored by a run, in program order. -/
def Utf8Run.bytes (r : Utf8Run) : List Nat := r.stores.map Prod.snd

/-- The guarded store `if (dest) dest[destPos] = b;`: `dest` tells whether the
destination pointer is non-null. -/
def put (dest : Bool) (destPos b : Nat) : List (Nat × Nat) :=
  if dest then [(destPos, b)] else []

/-- The loop of lines 72-74,
`for (numAdds = 1; numAdds < 5; numAdds++) if (value < 1 << (numAdds * 5 + 6)) break;`
entered at `numAdds` with `fuel = 5 - numAdds` tests of `numAdds < 5` still
able to succeed. -/
def numAddsLoop (value : Nat) : Nat → Nat → Nat
  | 0, numAdds => numAdds
  | fuel + 1, numAdds =>
    if value < (1 <<< (numAdds * 5 + 6)) % 2 ^ 32 then numAdds
    else numAddsLoop value fuel (numAdds + 1)

/-- The `do ... while (numAdds != 0)` loop of lines 78-85, entered with
`numAdds` (always at least 1 there) and `destPos`: the stores it makes. -/
def tailLoop (dest : Bool) (value : Nat) : Nat → Nat → List (Nat × Nat)
  | 0, _ => []
  | numAdds + 1, destPos =>
    put dest destPos ((0x80 + ((value >>> (6 * numAdds)) &&& 0x3F)) % 256)
      ++ tailLoop dest value numAdds (destPos + 1)

/-- Lines 72-85 for one code point `value`: lead byte, then the trailing
bytes. Gives the number of trailing bytes and the stores. -/
def emitMulti (dest : Bool) (value destPos : Nat) : Nat × List (Nat × Nat) :=
  let numAdds := numAddsLoop value 4 1
  (numAdds,
   put dest destPos ((kUtf8Limits.getD (numAdds - 1) 0 + (value >>> (6 * numAdds))) % 256)
     ++ tailLoop dest value numAdds (destPos + 1))

/-- The `for (;;)` loop of `Utf16_To_Utf8` (lines 45-88). The first argument
is the part of `src` from `srcPos` on; `destPos` and the stores made so far
are carried along. -/
def Utf16_To_Utf8_loop (dest : Bool) : List Nat → Nat → List (Nat × Nat) → Utf8Run
  | [], destPos, st => ⟨true, destPos, st⟩
  | value :: rest, destPos, st =>
    if value < 0x80 then
      Utf16_To_Utf8_loop dest rest (destPos + 1) (st ++ put dest destPos (value % 256))
    else if 0xD800 ≤ value ∧ value < 0xE000 then
      if 0xDC00 ≤ value then ⟨false, destPos, st⟩
      else
        match rest with
        | [] => ⟨false, destPos, st⟩
        | c2 :: rest2 =>
          if c2 < 0xDC00 ∨ 0xE000 ≤ c2 then ⟨false, destPos, st⟩
          else
            let value2 := ((((value - 0xD800) <<< 10) ||| (c2 - 0xDC00)) + 0x10000) % 2 ^ 32
            let e := emitMulti dest value2 destPos
            Utf16_To_Utf8_loop dest rest2 (destPos + 1 + e.1) (st ++ e.2)
    else
      let e := emitMulti dest value destPos
      Utf16_To_Utf8_loop dest rest (destPos + 1 + e.1) (st ++ e.2)

/-- The function `Utf16_To_Utf8(dest, destLen, src, srcLen)`: `dest` tells
whether the destination is non-null, `src` is the array of `srcLen` units. -/
def Utf16_To_Utf8 (dest : Bool) (src : List Nat) : Utf8Run :=
  Utf16_To_Utf8_loop dest src 0 []

/-! ### Reference UTF-16 and UTF-8 (RFC 2781, RFC 3629), written without
shifts or masks and independently of the code above -/

/-- High (leading) surrogates, 0xD800-0xDBFF. -/
abbrev isHighSurrogate (u : Nat) : Prop := 0xD800 ≤ u ∧ u ≤ 0xDBFF

/-- Low (trailing) surrogates, 0xDC00-0xDFFF. -/
abbrev isLowSurrogate (u : Nat) : Prop := 0xDC00 ≤ u ∧ u ≤ 0xDFFF

/-- Unicode scalar values: code points up to 0x10FFFF that are not surrogates. -/
abbrev isScalar (c : Nat) : Prop := c < 0x110000 ∧ ¬ (0xD800 ≤ c ∧ c < 0xE000)

/-- A sequence of 16-bit code units. -/
abbrev Units16 (src : List Nat) : Prop := ∀ u ∈ src, u < 65536

/-- The unit at index `i` is a malformed surrogate: a low surrogate not
preceded by a high surrogate, a high surrogate followed by a unit that is
not a low surrogate, or a high surrogate as the last unit. -/
abbrev MalformedAt (src : List Nat) (i : Nat) : Prop :=
  (isLowSurrogate (src.getD i 0) ∧ ¬ (0 < i ∧ isHighSurrogate (src.getD (i - 1) 0))) ∨
  (isHighSurrogate (src.getD i 0) ∧ i + 1 < src.length ∧ ¬ isLowSurrogate (src.getD (i + 1) 0)) ∨
  (isHighSurrogate (src.getD i 0) ∧ i + 1 = src.length)

/-- Well-formed UTF-16: 16-bit units in which every high surrogate is
immediately followed by a low surrogate and no low surrogate occurs
elsewhere. -/
abbrev WellFormedUtf16 (src : List Nat) : Prop :=
  Units16 src ∧
  ∀ i < src.length,
    (isHighSurrogate (src.getD i 0) → i + 1 < src.length ∧ isLowSurrogate (src.getD (i + 1) 0)) ∧
    (isLowSurrogate (src.getD i 0) → 0 < i ∧ isHighSurrogate (src.getD (i - 1) 0))

/-- Reference UTF-16 encoder: one unit for the basic plane, a surrogate pair
above it. -/
def utf16Encode : List Nat → List Nat
  | [] => []
  | c :: cs =>
    if c < 0x10000 then c :: utf16Encode cs
    else (0xD800 + (c - 0x10000) / 1024) :: (0xDC00 + (c - 0x10000) % 1024) :: utf16Encode cs

/-- Reference UTF-16 decoder (strict): `none` on an unpaired surrogate. -/
def utf16Decode : List Nat → Option (List Nat)
  | [] => some []
  | u :: rest =>
    if u < 0xD800 ∨ 0xE000 ≤ u then (utf16Decode rest).map (u :: ·)
    else if u < 0xDC00 then
      match rest with
      | [] => none
      | l :: rest2 =>
        if 0xDC00 ≤ l ∧ l < 0xE000 then
          (utf16Decode rest2).map ((0x10000 + (u - 0xD800) * 1024 + (l - 0xDC00)) :: ·)
        else none
    else none

/-- Reference UTF-8 encoding of one code point (RFC 3629, section 3). -/
def utf8EncodeOne (c : Nat) : List Nat :=
  if c < 0x80 then [c]
  else if c < 0x800 then [0xC0 + c / 64, 0x80 + c % 64]
  else if c < 0x10000 then [0xE0 + c / 4096, 0x80 + c / 64 % 64, 0x80 + c % 64]
  else [0xF0 + c / 262144, 0x80 + c / 4096 % 64, 0x80 + c / 64 % 64, 0x80 + c % 64]

/-- Reference UTF-8 encoder. -/
def utf8Encode : List Nat → List Nat
  | [] => []
  | c :: cs => utf8EncodeOne c ++ utf8Encode cs

/-- A UTF-8 continuation byte, 0x80-0xBF. -/
abbrev isCont (b : Nat) : Prop := 0x80 ≤ b ∧ b < 0xC0

/-- Reference UTF-8 decoder (strict): shortest form only, no surrogates, no
code point above 0x10FFFF; `none` on any ill-formed input. -/
def utf8Decode : List Nat → Option (List Nat)
  | [] => some []
  | b0 :: bs =>
    if b0 < 0x80 then (utf8Decode bs).map (b0 :: ·)
    else
      match bs with
      | [] => none
      | b1 :: bs1 =>
        if 0xC0 ≤ b0 ∧ b0 < 0xE0 then
          let c := (b0 - 0xC0) * 64 + (b1 - 0x80)
          if isCont b1 ∧ 0x80 ≤ c then (utf8Decode bs1).map (c :: ·) else none
        else
          match bs1 with
          | [] => none
          | b2 :: bs2 =>
            if 0xE0 ≤ b0 ∧ b0 < 0xF0 then
              let c := (b0 - 0xE0) * 4096 + (b1 - 0x80) * 64 + (b2 - 0x80)
              if isCont b1 ∧ isCont b2 ∧ 0x800 ≤ c ∧ ¬ (0xD800 ≤ c ∧ c < 0xE000) then
                (utf8Decode bs2).map (c :: ·)
              else none
            else
              match bs2 with
              | [] => none
              | b3 :: bs3 =>
                if 0xF0 ≤ b0 ∧ b0 < 0xF8 then
                  let c := (b0 - 0xF0) * 262144 + (b1 - 0x80) * 4096 + (b2 - 0x80) * 64 + (b3 - 0x80)
                  if isCont b1 ∧ isCont b2 ∧ isCont b3 ∧ 0x10000 ≤ c ∧ c < 0x110000 then
                    (utf8Decode bs3).map (c :: ·)
                  else none
                else none

/-! ### Consecutive stores, and devices for the proofs about the scan -/

/-- The stores `dest[p] = b0, dest[p+1] = b1, ...` (none when `dest` is null). -/
def storesAt (dest : Bool) : Nat → List Nat → List (Nat × Nat)
  | _, [] => []
  | p, b :: bs => put dest p b ++ storesAt dest (p + 1) bs

/-- Number of units at the front of `src` that the scan consumes before it
meets a malformed surrogate (all of them when there is none). -/
def goodLen : List Nat → Nat
  | [] => 0
  | u :: rest =>
    if u < 0xD800 ∨ 0xE000 ≤ u then 1 + goodLen rest
    else if u < 0xDC00 then
      match rest with
      | [] => 0
      | l :: rest2 => if 0xDC00 ≤ l ∧ l < 0xE000 then 2 + goodLen rest2 else 0
    else 0

/-- The code points of the first `goodLen src` units of `src`. -/
def scanned : List Nat → List Nat
  | [] => []
  | u :: rest =>
    if u < 0xD800 ∨ 0xE000 ≤ u then u :: scanned rest
    else if u < 0xDC00 then
      match rest with
      | [] => []
      | l :: rest2 =>
        if 0xDC00 ≤ l ∧ l < 0xE000 then
          (0x10000 + (u - 0xD800) * 1024 + (l - 0xDC00)) :: scanned rest2
        else []
    else []


/-! ## Buffers and `Utf16_To_Utf8Buf`, `Utf16_To_Char` (lines 30-36, 91-138) -/

/-- Status codes `SRes` of 7zTypes.h that this file produces, and `other n`
for any further code handed back by the archive library. -/
inductive SRes where
  | SZ_OK
  | SZ_ERROR_MEM
  | SZ_ERROR_FAIL
  | other (code : Nat)
  deriving DecidableEq

/-- A `CBuf` (7zBuf.h): the bytes of the block at `data`; the field `size` is
the length of the list, and the buffer after `Buf_Init` or `Buf_Free` is the
empty list. -/
abbrev CBuf := List Nat

/-- The allocator behind `Buf_Create` (7zBuf.c and 7zAlloc.c are not part of
this repository): `alloc n` is `none` when the allocation fails, and
otherwise gives the initial, arbitrary, contents of the fresh block of `n`
bytes. -/
abbrev Allocator := Nat → Option (Nat → Nat)

/-- The library call `Buf_Create(dest, size, &g_Alloc)`: the flag it returns
and the buffer it leaves. -/
def Buf_Create (alloc : Allocator) (size : Nat) : Bool × CBuf :=
  match alloc size with
  | none => (false, [])
  | some fill => (true, (List.range size).map fill)

/-- The function `Buf_EnsureSize` (lines 30-36). -/
def Buf_EnsureSize (alloc : Allocator) (dest : CBuf) (size : Nat) : Bool × CBuf :=
  if dest.length ≥ size then (true, dest)
  else Buf_Create alloc size

/-- The store `mem[i] = v` into a block of memory: `none` when `i` lies
outside the block. -/
def poke (mem : List Nat) (i v : Nat) : Option (List Nat) :=
  if i < mem.length then some (mem.set i v) else none

/-- Performs a sequence of recorded stores on a block, in order. -/
def pokeAll : List Nat → List (Nat × Nat) → Option (List Nat)
  | mem, [] => some mem
  | mem, (i, v) :: rest =>
    match poke mem i v with
    | none => none
    | some mem2 => pokeAll mem2 rest

/-- The function `Utf16_To_Utf8Buf` (lines 91-102). The result is `none` when
a store falls outside `dest->data`; otherwise the status returned and the
buffer left in `*dest`. -/
def Utf16_To_Utf8Buf (alloc : Allocator) (dest : CBuf) (src : List Nat) : Option (SRes × CBuf) :=
  let destLen := (Utf16_To_Utf8 false src).destLen
  let destLen := destLen + 1
  let ens := Buf_EnsureSize alloc dest destLen
  if ¬ ens.1 then some (SRes.SZ_ERROR_MEM, ens.2)
  else
    let run := Utf16_To_Utf8 true src
    match pokeAll ens.2 run.stores with
    | none => none
    | some data =>
      match poke data run.destLen 0 with
      | none => none
      | some data2 => some (if run.ok then SRes.SZ_OK else SRes.SZ_ERROR_FAIL, data2)

/-- The C idiom `for (len = 0; s[len] != 0; len++);` over the block at `s`:
`none` when no zero is found inside the block. -/
def strlen (s : List Nat) : Option Nat :=
  if s.findIdx (· == 0) < s.length then some (s.findIdx (· == 0)) else none

/-- The function `Utf16_To_Char` (lines 106-138), build without `_WIN32`:
`s` is the block holding the zero-terminated name. -/
def Utf16_To_Char (alloc : Allocator) (buf : CBuf) (s : List Nat) : Option (SRes × CBuf) :=
  match strlen s with
  | none => none
  | some len => Utf16_To_Utf8Buf alloc buf (s.take len)

/-! ## Formatters (lines 190-268) -/

/-- The first `do ... while` loop of `UInt64ToStr` and `UIntToStr`
(lines 194-199, 210-212): one decimal digit of `value` is pushed on `temp`
per turn. `room` is the number of free entries left in the local array
`temp`; the result is `none` when a digit would be stored past its end. -/
def digitsLoop : Nat → Nat → List Nat → Option (List Nat)
  | 0, _, _ => none
  | room + 1, value, temp =>
    let temp := temp ++ [(48 + value % 10) % 256]
    let value := value / 10
    if value ≠ 0 then digitsLoop room value temp else some temp

/-- The function `UInt64ToStr(value, s)` (lines 190-204): the bytes stored at
`s[0], s[1], ...`, the terminating NUL included. The second loop copies
`temp[pos-1] .. temp[0]`, the reverse of `temp`. -/
def UInt64ToStr (value : Nat) : Option (List Nat) :=
  match digitsLoop 32 value [] with
  | none => none
  | some temp => some (temp.reverse ++ [0])

/-- The padding loop `for (numDigits -= pos; numDigits > 0; numDigits--) *s++ = '0';`
(line 213), entered with the already reduced `numDigits`. -/
def padLoop : Nat → List Nat
  | 0 => []
  | numDigits + 1 => 48 :: padLoop numDigits

/-- The function `UIntToStr(s, value, numDigits)` (lines 206-220): the bytes
stored at `s[0], s[1], ...`, the terminating NUL included, and the offset
from `s` of the pointer returned. `numDigits` is a C `int`. -/
def UIntToStr (value : Nat) (numDigits : Int) : Option (List Nat × Nat) :=
  match digitsLoop 16 value [] with
  | none => none
  | some temp =>
    let pos : Int := temp.length
    let out := padLoop (numDigits - pos).toNat ++ temp.reverse
    some (out ++ [0], out.length)

/-- The function `UIntToStr_2(s, value)` (lines 222-226): the bytes stored at
`s[0]` and `s[1]`. -/
def UIntToStr_2 (value : Nat) : List Nat :=
  [(48 + value / 10) % 256, (48 + value % 10) % 256]

/-- The struct `CNtfsFileTime` (7zTypes.h): two 32-bit halves. -/
structure CNtfsFileTime where
  Low : Nat
  High : Nat
  deriving DecidableEq

/-- The `CNtfsFileTime` that holds the 64-bit tick count `t`. -/
def CNtfsFileTime.ofTicks (t : Nat) : CNtfsFileTime := ⟨t % 2 ^ 32, t / 2 ^ 32⟩

/-- The constant `PERIOD_4` (line 228). -/
def PERIOD_4 : Nat := 4 * 365 + 1
/-- The constant `PERIOD_100` (line 229). -/
def PERIOD_100 : Nat := PERIOD_4 * 25 - 1
/-- The constant `PERIOD_400` (line 230). -/
def PERIOD_400 : Nat := PERIOD_100 * 4 + 1

/-- The values of `year`, `v`, `hour`, `min`, `sec` after line 251 of
`ConvertFileTimeToString`. -/
structure YearDay where
  year : Nat
  v : Nat
  hour : Nat
  min : Nat
  sec : Nat
  deriving DecidableEq

/-- Lines 238-251 of `ConvertFileTimeToString`: seconds, minutes, hours, and
the 400/100/4/1-year decomposition of the day count. -/
def splitFileTime (nt : CNtfsFileTime) : YearDay :=
  let v64 := (nt.Low ||| ((nt.High <<< 32) % 2 ^ 64))
  let v64 := v64 / 10000000
  let sec := (v64 % 60) % 2 ^ 32
  let v64 := v64 / 60
  let min := (v64 % 60) % 2 ^ 32
  let v64 := v64 / 60
  let hour := (v64 % 24) % 2 ^ 32
  let v64 := v64 / 24
  let v := v64 % 2 ^ 32
  let year := (1601 + v / PERIOD_400 * 400) % 2 ^ 32
  let v := v % PERIOD_400
  let t := v / PERIOD_100
  let t := if t = 4 then 3 else t
  let year := (year + t * 100) % 2 ^ 32
  let v := v - t * PERIOD_100
  let t := v / PERIOD_4
  let t := if t = 25 then 24 else t
  let year := (year + t * 4) % 2 ^ 32
  let v := v - t * PERIOD_4
  let t := v / 365
  let t := if t = 4 then 3 else t
  let year := (year + t) % 2 ^ 32
  let v := v - t * 365
  ⟨year, v, hour, min, sec⟩

/-- The month scan of lines 255-261,
`for (mon = 0;; mon++) { s = ms[mon]; if (v < s) break; v -= s; }`: the first
argument is the part of the table `ms` from index `mon` on; the result is
`none` when the scan would read past the end of the table. -/
def monthLoop : List Nat → Nat → Nat → Option (Nat × Nat)
  | [], _, _ => none
  | s :: rest, mon, v => if v < s then some (mon, v) else monthLoop rest (mon + 1) (v - s)

/-- The function `ConvertFileTimeToString(nt, s)` (lines 232-268): the bytes
left at `s[0], s[1], ...`, the terminating NUL included. The separators are
`'-'` (45), `' '` (32) and `':'` (58); each is stored over the NUL that
`UIntToStr` left, or right after the two bytes of `UIntToStr_2`. -/
def ConvertFileTimeToString (nt : CNtfsFileTime) : Option (List Nat) :=
  let f := splitFileTime nt
  let ms := [31, if f.year % 4 = 0 ∧ (f.year % 100 ≠ 0 ∨ f.year % 400 = 0) then 29 else 28,
    31, 30, 31, 30, 31, 31, 30, 31, 30, 31]
  match monthLoop ms 0 f.v with
  | none => none
  | some (mon, v) =>
    match UIntToStr f.year 4 with
    | none => none
    | some (y, len) =>
      some (y.take len ++ [45]
        ++ UIntToStr_2 ((mon + 1) % 2 ^ 32) ++ [45]
        ++ UIntToStr_2 ((v + 1) % 2 ^ 32) ++ [32]
        ++ UIntToStr_2 f.hour ++ [58]
        ++ UIntToStr_2 f.min ++ [58]
        ++ UIntToStr_2 f.sec ++ [0])

/-- The function `GetAttribString` of the build without `USE_WINDOWS_FILE`
(lines 281-284): it stores the single byte `s[0] = 0`. -/
def GetAttribString (_wa : Nat) (_isDir : Bool) : List Nat := [0]

/-! ## List mode: `SzxList` (lines 448-608) -/

/-- One record of the file table `db`, as the accessors of 7z.h present it:
`name` holds the units that `SzArEx_GetFileNameUtf16` writes before the
terminating zero, `size` is `SzArEx_GetFileSize`, and `attrib`, `mtime` are
present when `SzBitWithVals_Check` says so. -/
structure Entry where
  name : List Nat
  isDir : Bool
  size : Nat
  attrib : Option Nat
  mtime : Option CNtfsFileTime

/-- Outcomes of the allocation calls made while walking the table: whether
`SzAlloc` for `temp` succeeds at entry `i`, and the allocator state met by
`Buf_Create` at entry `i`. -/
structure Heap where
  tempOk : Nat → Bool
  bufAlloc : Nat → Allocator

/-- The variables of `SzxList` that the loop carries: `res`, `tempSize`,
`listIt`, the memory at the caller's pointer `list`, and the indices of
`list` stored to so far, in program order. -/
structure ListState where
  res : SRes
  tempSize : Nat
  listIt : Nat
  list : List Nat
  stores : List Nat

/-- An explicit store `list[i] = v`. -/
def storeList (st : ListState) (i v : Nat) : Option ListState :=
  match poke st.list i v with
  | none => none
  | some m => some { st with list := m, stores := st.stores ++ [i] }

/-- Number of bytes `strncat` copies from `src` when given the bound `n`: up
to the first NUL of `src`, at most `n`; `none` when that reads past the block
`src`. -/
def strnlen (src : List Nat) (n : Nat) : Option Nat :=
  if src.findIdx (· == 0) < src.length then some (min (src.findIdx (· == 0)) n)
  else if n ≤ src.length then some n
  else none

/-- The library call `strncat(list, src, n)`: the copied bytes and a
terminating NUL are stored from the first NUL of `list` on. -/
def strncat (st : ListState) (src : List Nat) (n : Nat) : Option ListState :=
  match strlen st.list, strnlen src n with
  | some start, some k =>
    match pokeAll st.list (storesAt true start (src.take k ++ [0])) with
    | none => none
    | some m => some { st with list := m, stores := st.stores ++ List.range' start (k + 1) }
  | _, _ => none

/-- The update `listIt += n`. -/
def advance (st : ListState) (n : Nat) : ListState := { st with listIt := st.listIt + n }

/-- The two stores `list[listIt] = '\t'; list[listIt + 1] = '\0';`. -/
def putTab (st : ListState) : Option ListState :=
  (storeList st st.listIt 9).bind fun st2 => storeList st2 (st2.listIt + 1) 0

/-- Lines 572-591: the stores that append one line. `t`, `attr`, `s` and
`data` are the blocks holding the four zero-terminated columns, `bufSize` is
`buf.size`. -/
def appendLine (st : ListState) (t attr s data : List Nat) (bufSize : Nat) : Option ListState :=
  match strlen t, strlen attr, strlen s, strlen data with
  | some lt, some la, some ls, some ld =>
    (strncat st t 32).bind fun st1 =>
    (putTab (advance st1 lt)).bind fun st2 =>
    (strncat st2 attr 8).bind fun st3 =>
    (putTab (advance st3 (la + 1))).bind fun st4 =>
    (strncat st4 s 32).bind fun st5 =>
    (putTab (advance st5 (ls + 1))).bind fun st6 =>
    (strncat st6 data bufSize).bind fun st7 =>
    (storeList (advance st7 (ld + 1)) (advance st7 (ld + 1)).listIt 10).bind fun st8 =>
    some (advance st8 1)
  | _, _, _, _ => none

/-- The 19 blanks and the NUL of lines 549-552. -/
def blankTime : List Nat := List.replicate 19 32 ++ [0]

/-- Lines 545-553: the timestamp column. -/
def timeColumn (mtime : Option CNtfsFileTime) : Option (List Nat) :=
  match mtime with
  | some nt => ConvertFileTimeToString nt
  | none => some blankTime

/-- Lines 566-593: the test of line 570 and the append, for the columns `t`,
`attr`, `s` and the transcoded name in `buf`. -/
def tryAppend (size : Nat) (st : ListState) (t attr s buf : List Nat) : Option ListState :=
  match strlen t, strlen attr, strlen s, strlen buf with
  | some lt, some la, some ls, some ld =>
    if st.listIt + (lt + la + ls + ld + 3) < size then appendLine st t attr s buf buf.length
    else some st
  | _, _, _, _ => none

/-- The body of the loop of `SzxList` from line 538 on, for the entry `e` at
index `i` (the name is already in `temp`): the four columns are formatted
and, when the name transcodes and the line passes the test of line 570,
appended. `size` is the capacity `*size`. -/
def listEntry (h : Heap) (size : Nat) (i : Nat) (e : Entry) (st : ListState) :
    Option ListState :=
  match UInt64ToStr e.size, timeColumn e.mtime,
      Utf16_To_Char (h.bufAlloc i) [] (e.name ++ [0]) with
  | some s, some t, some (res, buf) =>
    if res = SRes.SZ_OK then
      tryAppend size { st with res := res } t (GetAttribString (e.attrib.getD 0) e.isDir) s buf
    else some { st with res := res }
  | _, _, _ => none

/-- The loop `for (i = 0; i < db.NumFiles; i++)` of `SzxList` (lines 509-596);
the first argument is the part of the table from index `i` on. The length
`len` that `SzArEx_GetFileNameUtf16` reports counts the terminating zero. -/
def SzxList_loop (h : Heap) (size : Nat) : List Entry → Nat → ListState → Option ListState
  | [], _, st => some st
  | e :: rest, i, st =>
    let len := e.name.length + 1
    if len > st.tempSize ∧ h.tempOk i = false then
      some { st with tempSize := len, res := SRes.SZ_ERROR_MEM }
    else
      let st := if len > st.tempSize then { st with tempSize := len } else st
      match listEntry h size i e st with
      | none => none
      | some st2 => SzxList_loop h size rest (i + 1) st2

/-- What a call of `SzxList` leaves: the status returned, the memory at
`list`, the value of `*size`, and the indices of `list` stored to. -/
structure ListResult where
  res : SRes
  list : List Nat
  size : Nat
  stores : List Nat

/-- The function `SzxList(filename, list, size)` (lines 448-608). `fileOpen`
tells whether `InFile_Open` succeeds, and `opened` is what `SzArEx_Open`
gives: the file table, or its error code. `list` is the memory at the
caller's pointer, of which the first `size` bytes are the report buffer. The
result is `none` when the call leaves the memory it may touch. -/
def SzxList (h : Heap) (fileOpen : Bool) (opened : Except SRes (List Entry))
    (list : List Nat) (size : Nat) : Option ListResult :=
  if ¬ fileOpen then some ⟨SRes.SZ_ERROR_FAIL, list, size, []⟩
  else
    match opened with
    | Except.error res => some ⟨res, list, size, []⟩
    | Except.ok db =>
      match SzxList_loop h size db 0 ⟨SRes.SZ_OK, 0, 0, list, []⟩ with
      | none => none
      | some st => some ⟨st.res, st.list, st.listIt, st.stores⟩

/-! ## Extraction and test modes: `SzxExtract`, `SzxTest` (lines 149-188, 289-446, 610-724)

The two drivers are modelled together with a log of the calls they make to
their collaborators: the block decoder `SzArEx_Extract`, and the filesystem
through `MyCreateDir`, `OutFile_OpenUtf16`, `File_Write` and `File_Close`.
Each logged call carries its arguments and what it gave back. -/

/-- The three cache variables `blockIndex`, `outBuffer`, `outBufferSize` that
the drivers hand to `SzArEx_Extract` by address; `outBuffer = none` is the
null pointer. -/
structure Cursor where
  blockIndex : Nat
  outBuffer : Option (List Nat)
  outBufferSize : Nat
  deriving DecidableEq

/-- What one call of `SzArEx_Extract` gives back: the status it returns, the
cache variables as it leaves them, and the values it leaves in `offset` and
`outSizeProcessed`. -/
structure Decoded where
  res : SRes
  cursor : Cursor
  offset : Nat
  outSizeProcessed : Nat
  deriving DecidableEq

/-- One call that leaves the program, with its arguments and its outcome.
`extract i c d`: `SzArEx_Extract` for entry `i` with the cache variables `c`,
giving `d`. `createDir path r`: the call `mkdir((const char *)buf.data, 0777)`
of line 166 inside `MyCreateDir`, `path` being the bytes of the C string
handed over and `r` the status made of its result (0, or `errno`).
`openOut path r`: the call `OutFile_Open(p, (const char *)buf.data)` of
line 184 inside `OutFile_OpenUtf16`, returning `r`.
`write buf off n r k`: `File_Write(&outFile, outBuffer + offset,
&processedSize)` with `processedSize = n` on entry, returning `r` and leaving
`processedSize = k`. `close r`: `File_Close(&outFile)`. -/
inductive Event where
  | extract (i : Nat) (cursor : Cursor) (out : Decoded)
  | createDir (path : List Nat) (wres : Nat)
  | openOut (path : List Nat) (wres : Nat)
  | write (outBuffer : Option (List Nat)) (offset size : Nat) (wres processed : Nat)
  | close (wres : Nat)
  deriving DecidableEq

/-- The collaborators of the drivers. Every outcome may depend on the moment
of the call, given as the number of calls logged before it. `tempOk i` tells
whether `SzAlloc` for `temp` succeeds at entry `i`; `bufAlloc` is the
allocator state met by `Buf_Create`; `decode` is `SzArEx_Extract`; `mkdir`,
`outOpen`, `fileWrite` and `fileClose` are the C library behind `mkdir`,
`OutFile_Open`, `File_Write` (status and bytes written) and `File_Close`, each
status being 0 on success; `pathSep` is the constant `CHAR_PATH_SEPARATOR` of
7zTypes.h. -/
structure Collaborators where
  tempOk : Nat → Bool
  bufAlloc : Nat → Allocator
  decode : Nat → Nat → Cursor → Decoded
  mkdir : Nat → List Nat → Nat
  outOpen : Nat → List Nat → Nat
  fileWrite : Nat → Option (List Nat) → Nat → Nat → Nat × Nat
  fileClose : Nat → Nat
  pathSep : Nat

/-- The numeric value of a status code (7zTypes.h). -/
def SRes.code : SRes → Nat
  | SRes.SZ_OK => 0
  | SRes.SZ_ERROR_MEM => 2
  | SRes.SZ_ERROR_FAIL => 11
  | SRes.other n => n

/-- The function `MyCreateDir(name)` (lines 149-173), build without
`USE_WINDOWS_FILE`, called with the calls logged so far: `name` is the block
holding the zero-terminated UTF-16 name. When the transcoding fails, `RINOK`
(line 160) hands back its status and `mkdir` is not called. Otherwise `mkdir`
is called on the C string in `buf.data`, the call is logged, and the result is
0 when it succeeds and `errno` when it does not, which is what the oracle
`mkdir` gives. The value is the status returned and the log; `none` when the
transcoding leaves its memory. -/
def MyCreateDir (w : Collaborators) (log : List Event) (name : List Nat) :
    Option (Nat × List Event) :=
  match Utf16_To_Char (w.bufAlloc log.length) [] name with
  | none => none
  | some (res, buf) =>
    if res ≠ SRes.SZ_OK then some (res.code, log)
    else
      let path := buf.takeWhile (· ≠ 0)
      let r := w.mkdir log.length path
      some (r, log ++ [Event.createDir path r])

/-- The function `OutFile_OpenUtf16(p, name)` (lines 175-188), build without
`USE_WINDOWS_FILE`: as `MyCreateDir`, with `OutFile_Open` in place of
`mkdir`. -/
def OutFile_OpenUtf16 (w : Collaborators) (log : List Event) (name : List Nat) :
    Option (Nat × List Event) :=
  match Utf16_To_Char (w.bufAlloc log.length) [] name with
  | none => none
  | some (res, buf) =>
    if res ≠ SRes.SZ_OK then some (res.code, log)
    else
      let path := buf.takeWhile (· ≠ 0)
      let r := w.outOpen log.length path
      some (r, log ++ [Event.openOut path r])

/-- The loop of lines 398-410 over the block `name`,
`for (j = 0; name[j] != 0; j++) if (name[j] == '/') { ... }`: `done` is
`name[0 .. j-1]` as the loop has left it, the second argument is the block from
index `j` on, `destPath` is the offset of the pointer `destPath` inside
`name`. The result is the block, the offset and the log at the end of the
loop; `none` when the loop leaves the block or a callee leaves its memory. -/
def pathLoop (w : Collaborators) (fullPaths : Bool) :
    List Nat → List Nat → Nat → List Event → Option (List Nat × Nat × List Event)
  | _, [], _, _ => none
  | done, c :: rest, destPath, log =>
    if c = 0 then some (done ++ c :: rest, destPath, log)
    else if c = 47 then
      if fullPaths then
        match MyCreateDir w log (done ++ 0 :: rest) with
        | none => none
        | some (_, log2) => pathLoop w fullPaths (done ++ [w.pathSep]) rest destPath log2
      else pathLoop w fullPaths (done ++ [c]) rest (done.length + 1) log
    else pathLoop w fullPaths (done ++ [c]) rest destPath log

/-- The variables of `SzxExtract` and `SzxTest` that the loop carries: `res`,
`tempSize`, the cache variables, and the log of calls so far. -/
structure DriverState where
  res : SRes
  tempSize : Nat
  cursor : Cursor
  log : List Event

/-- Lines 417-432 of `SzxExtract`, after a successful open: the write of
`outSizeProcessed` bytes from `outBuffer + offset`, and the close. The flag is
`true` when the loop goes on and `false` when it is left by `break`. -/
def writeOut (w : Collaborators) (d : Decoded) (st : DriverState) : Bool × DriverState :=
  let wr := w.fileWrite st.log.length d.cursor.outBuffer d.offset d.outSizeProcessed
  let log := st.log ++ [Event.write d.cursor.outBuffer d.offset d.outSizeProcessed wr.1 wr.2]
  if wr.1 ≠ 0 ∨ wr.2 ≠ d.outSizeProcessed then
    (false, { st with res := SRes.SZ_ERROR_FAIL, log := log })
  else
    let cl := w.fileClose log.length
    if cl ≠ 0 then (false, { st with res := SRes.SZ_ERROR_FAIL, log := log ++ [Event.close cl] })
    else (true, { st with log := log ++ [Event.close cl] })

/-- Lines 394-432 of `SzxExtract`: the path loop over `temp`, then the
directory creation for a directory entry, or the open, write and close for a
file entry decoded as `d`. -/
def placeEntry (w : Collaborators) (fullPaths : Bool) (e : Entry) (d : Decoded)
    (st : DriverState) : Option (Bool × DriverState) :=
  match pathLoop w fullPaths [] (e.name ++ [0]) 0 st.log with
  | none => none
  | some (name, destPath, log) =>
    if e.isDir then
      match MyCreateDir w log (name.drop destPath) with
      | none => none
      | some (_, log2) => some (true, { st with log := log2 })
    else
      match OutFile_OpenUtf16 w log (name.drop destPath) with
      | none => none
      | some (r, log2) =>
        if r ≠ 0 then some (false, { st with res := SRes.SZ_ERROR_FAIL, log := log2 })
        else some (writeOut w d { st with log := log2 })

/-- The body of the loop of `SzxExtract` (lines 353-436) for the entry `e` at
index `i`. The flag is `true` when the loop goes on to the next entry
(`continue` or the end of the body) and `false` when it is left by `break`. -/
def extractEntry (w : Collaborators) (fullPaths : Bool) (i : Nat) (e : Entry)
    (st : DriverState) : Option (Bool × DriverState) :=
  if e.isDir = true ∧ fullPaths = false then some (true, st)
  else
    let len := e.name.length + 1
    if len > st.tempSize ∧ w.tempOk i = false then
      some (false, { st with tempSize := len, res := SRes.SZ_ERROR_MEM })
    else
      let st := if len > st.tempSize then { st with tempSize := len } else st
      if e.isDir then placeEntry w fullPaths e ⟨st.res, st.cursor, 0, 0⟩ st
      else
        let d := w.decode st.log.length i st.cursor
        let log2 := st.log ++ [Event.extract i st.cursor d]
        let st := { st with res := d.res, cursor := d.cursor, log := log2 }
        if d.res ≠ SRes.SZ_OK then some (false, st)
        else placeEntry w fullPaths e d st

/-- The loop `for (i = 0; i < db.NumFiles; i++)` of `SzxExtract`
(lines 353-436); the first list is the part of the table from index `i` on. -/
def SzxExtract_loop (w : Collaborators) (fullPaths : Bool) :
    List Entry → Nat → DriverState → Option DriverState
  | [], _, st => some st
  | e :: rest, i, st =>
    match extractEntry w fullPaths i e st with
    | none => none
    | some (true, st2) => SzxExtract_loop w fullPaths rest (i + 1) st2
    | some (false, st2) => some st2

/-- What a call of `SzxExtract` or `SzxTest` leaves: the status returned and
the log of the calls made. -/
structure RunResult where
  res : SRes
  log : List Event

/-- The function `SzxExtract(filename, fullPaths)` (lines 289-446).
`fileOpen` tells whether `InFile_Open` succeeds, and `opened` is what
`SzArEx_Open` gives: the file table, or its error code. The result is `none`
when the call leaves the memory it may touch. -/
def SzxExtract (w : Collaborators) (fileOpen : Bool) (opened : Except SRes (List Entry))
    (fullPaths : Bool) : Option RunResult :=
  if ¬ fileOpen then some ⟨SRes.SZ_ERROR_FAIL, []⟩
  else
    match opened with
    | Except.error res => some ⟨res, []⟩
    | Except.ok db =>
      match SzxExtract_loop w fullPaths db 0 ⟨SRes.SZ_OK, 0, ⟨0xFFFFFFFF, none, 0⟩, []⟩ with
      | none => none
      | some st => some ⟨st.res, st.log⟩

/-- The body of the loop of `SzxTest` (lines 668-715) for the entry `e` at
index `i`; the flag is as in `extractEntry`. -/
def testEntry (w : Collaborators) (i : Nat) (e : Entry) (st : DriverState) :
    Bool × DriverState :=
  if e.isDir then (true, st)
  else
    let len := e.name.length + 1
    if len > st.tempSize ∧ w.tempOk i = false then
      (false, { st with tempSize := len, res := SRes.SZ_ERROR_MEM })
    else
      let st := if len > st.tempSize then { st with tempSize := len } else st
      let d := w.decode st.log.length i st.cursor
      let log2 := st.log ++ [Event.extract i st.cursor d]
      let st := { st with res := d.res, cursor := d.cursor, log := log2 }
      if d.res ≠ SRes.SZ_OK then (false, st) else (true, st)

/-- The loop `for (i = 0; i < db.NumFiles; i++)` of `SzxTest` (lines 668-715). -/
def SzxTest_loop (w : Collaborators) : List Entry → Nat → DriverState → DriverState
  | [], _, st => st
  | e :: rest, i, st =>
    match testEntry w i e st with
    | (true, st2) => SzxTest_loop w rest (i + 1) st2
    | (false, st2) => st2

/-- The function `SzxTest(filename)` (lines 610-724); `fileOpen` and `opened`
are as for `SzxExtract`. -/
def SzxTest (w : Collaborators) (fileOpen : Bool) (opened : Except SRes (List Entry)) :
    RunResult :=
  if ¬ fileOpen then ⟨SRes.SZ_ERROR_FAIL, []⟩
  else
    match opened with
    | Except.error res => ⟨res, []⟩
    | Except.ok db =>
      let st := SzxTest_loop w db 0 ⟨SRes.SZ_OK, 0, ⟨0xFFFFFFFF, none, 0⟩, []⟩
      ⟨st.res, st.log⟩

/-! ### Reference decimal strings and reference calendar -/

/-- Canonical decimal string of `n` as ASCII bytes, most significant digit
first: the digits of `Nat.digits 10 n`, and `"0"` for zero. -/
def decimal (n : Nat) : List Nat :=
  if n = 0 then [48] else ((Nat.digits 10 n).map (48 + ·)).reverse

/-- Left-pads `ds` with `'0'` up to width `w`; a longer `ds` is kept whole. -/
def zeroPad (w : Nat) (ds : List Nat) : List Nat :=
  List.replicate (w - ds.length) 48 ++ ds

/-- Reads a string of ASCII digits as a decimal number. -/
def readDecimal (ds : List Nat) : Nat :=
  ds.foldl (fun a c => 10 * a + (c - 48)) 0

/-- The bytes of a string literal. -/
def ascii (s : String) : List Nat := s.toList.map Char.toNat

/-- A calendar date and time of day. -/
structure DateTime where
  year : Nat
  month : Nat
  day : Nat
  hour : Nat
  minute : Nat
  second : Nat
  deriving DecidableEq

/-- The Gregorian leap-year rule. -/
abbrev isLeapYear (y : Nat) : Prop := y % 4 = 0 ∧ (y % 100 ≠ 0 ∨ y % 400 = 0)

/-- Number of days of month `m` (1 to 12) of year `y`. -/
def daysInMonth (y m : Nat) : Nat :=
  if m = 2 then (if isLeapYear y then 29 else 28)
  else if m = 4 ∨ m = 6 ∨ m = 9 ∨ m = 11 then 30
  else 31

/-- Reference calendar: the date-time one second after `d`. -/
def nextSecond (d : DateTime) : DateTime :=
  if d.second < 59 then { d with second := d.second + 1 }
  else if d.minute < 59 then { d with minute := d.minute + 1, second := 0 }
  else if d.hour < 23 then { d with hour := d.hour + 1, minute := 0, second := 0 }
  else if d.day < daysInMonth d.year d.month then
    { d with day := d.day + 1, hour := 0, minute := 0, second := 0 }
  else if d.month < 12 then
    { d with month := d.month + 1, day := 1, hour := 0, minute := 0, second := 0 }
  else ⟨d.year + 1, 1, 1, 0, 0, 0⟩

/-- Reference calendar: the date-time `n` seconds after `d`. -/
def addSeconds : Nat → DateTime → DateTime
  | 0, d => d
  | n + 1, d => nextSecond (addSeconds n d)

/-- The epoch of the tick count, 1601-01-01 00:00:00. -/
def epoch1601 : DateTime := ⟨1601, 1, 1, 0, 0, 0⟩

/-- The reference rendering `YYYY-MM-DD HH:MM:SS` of a date-time, NUL
included: every field in decimal, the year zero-padded to at least four
digits and the other fields to at least two. -/
def renderDateTime (d : DateTime) : List Nat :=
  zeroPad 4 (decimal d.year) ++ [45] ++ zeroPad 2 (decimal d.month) ++ [45]
    ++ zeroPad 2 (decimal d.day) ++ [32] ++ zeroPad 2 (decimal d.hour) ++ [58]
    ++ zeroPad 2 (decimal d.minute) ++ [58] ++ zeroPad 2 (decimal d.second) ++ [0]

/-! ### Devices for the calendar proofs -/

/-- Days from 1601-01-01 to the first day of year `y` (for `y` from 1601 on). -/
def daysBeforeYear (y : Nat) : Nat :=
  365 * (y - 1601) + (y - 1601) / 4 - (y - 1601) / 100 + (y - 1601) / 400

/-- Days from the first day of year `y` to the first day of its month `m`. -/
def daysBeforeMonth (y m : Nat) : Nat :=
  ((List.range (m - 1)).map (fun k => daysInMonth y (k + 1))).sum

/-- Seconds from the epoch to the date-time `d`. -/
def secondsOf (d : DateTime) : Nat :=
  (((daysBeforeYear d.year + daysBeforeMonth d.year d.month + (d.day - 1)) * 24 + d.hour) * 60
    + d.minute) * 60 + d.second

/-- A date-time of the calendar, from 1601 on. -/
def ValidDateTime (d : DateTime) : Prop :=
  1601 ≤ d.year ∧ 1 ≤ d.month ∧ d.month ≤ 12 ∧ 1 ≤ d.day ∧ d.day ≤ daysInMonth d.year d.month ∧
  d.hour < 24 ∧ d.minute < 60 ∧ d.second < 60

/-! ### The report that list mode is meant to build -/

/-- The bytes of a zero-terminated string held in the block `s`: those
before its first zero. -/
def cstr (s : List Nat) : List Nat := s.takeWhile (· ≠ 0)

/-- The complete line of an entry: timestamp (or blanks), tab, attribute
string, tab, decimal size, tab, transcoded name, newline, each column as the
formatter of the code produces it; `none` when the name does not transcode. -/
def entryLine (e : Entry) : Option (List Nat) :=
  match timeColumn e.mtime, UInt64ToStr e.size with
  | some t, some s =>
    if (Utf16_To_Utf8 true (cstr e.name)).ok then
      some (cstr t ++ [9] ++ cstr (GetAttribString (e.attrib.getD 0) e.isDir) ++ [9] ++ cstr s
        ++ [9] ++ (Utf16_To_Utf8 true (cstr e.name)).bytes ++ [10])
    else none
  | _, _ => none

/-- The line of the entry at index `i` under the heap `h`: as `entryLine`,
and `none` also when the transcoding buffer cannot be allocated. -/
def lineOf (h : Heap) (i : Nat) (e : Entry) : Option (List Nat) :=
  match timeColumn e.mtime, UInt64ToStr e.size,
      Utf16_To_Char (h.bufAlloc i) [] (e.name ++ [0]) with
  | some t, some s, some (res, buf) =>
    if res = SRes.SZ_OK then
      some (cstr t ++ [9] ++ cstr (GetAttribString (e.attrib.getD 0) e.isDir) ++ [9] ++ cstr s
        ++ [9] ++ cstr buf ++ [10])
    else none
  | _, _, _ => none

/-- The lines of the entries that the loop reaches, from index `i` on with
`tempSize` as given: the walk ends at the first entry whose name array
cannot be allocated. -/
def loopLines (h : Heap) : List Entry → Nat → Nat → List (Option (List Nat))
  | [], _, _ => []
  | e :: rest, i, tempSize =>
    if e.name.length + 1 > tempSize ∧ h.tempOk i = false then []
    else lineOf h i e :: loopLines h rest (i + 1) (max tempSize (e.name.length + 1))

/-- The report for a capacity: going through the lines in order, a line is
appended exactly when its whole length is at most the capacity left after
the lines already appended. The last argument is the report so far. -/
def report (cap : Nat) : List (Option (List Nat)) → List Nat → List Nat
  | [], acc => acc
  | none :: rest, acc => report cap rest acc
  | some l :: rest, acc =>
    if acc.length + l.length ≤ cap then report cap rest (acc ++ l) else report cap rest acc

/-- The values of the table have the widths of their C types: 64-bit sizes,
16-bit name units, 32-bit halves of a timestamp. -/
def WellTyped (db : List Entry) : Prop :=
  ∀ e ∈ db, e.size < 2 ^ 64 ∧ Units16 e.name ∧
    ∀ nt, e.mtime = some nt → nt.Low < 2 ^ 32 ∧ nt.High < 2 ^ 32

/-- No allocation fails during the walk. -/
def NoAllocFailure (h : Heap) : Prop :=
  ∀ i, h.tempOk i = true ∧ ∀ n, (h.bufAlloc i n).isSome = true

/-! ### Reference notions for the drivers -/

/-- Byte-wise lexicographic order on strings, the order of `memcmp` with a
proper prefix first: `lexLe s t` says that `s` is at most `t`. -/
def lexLe : List Nat → List Nat → Bool
  | [], _ => true
  | _ :: _, [] => false
  | a :: s, b :: t => decide (a < b) || (decide (a = b) && lexLe s t)

/-- The strict part of `lexLe`. -/
def lexLt : List Nat → List Nat → Bool
  | _, [] => false
  | [], _ :: _ => true
  | a :: s, b :: t => decide (a < b) || (decide (a = b) && lexLt s t)

/-- The part of a name after its last `'/'` (47); the whole name when it has
none. -/
def leafName (s : List Nat) : List Nat := (s.reverse.takeWhile (· ≠ 47)).reverse

/-- A name with every `'/'` replaced by the separator `sep`. -/
def hostPath (sep : Nat) (s : List Nat) : List Nat := s.map (fun c => if c = 47 then sep else c)

/-- For each `'/'` of a name, from left to right, the part of the name before
it, in which every `'/'` is replaced by `sep`. -/
def dirPrefixes (sep : Nat) (s : List Nat) : List (List Nat) :=
  ((List.range s.length).filter (fun j => s.get? j = some 47)).map
    (fun j => hostPath sep (s.take j))

/-- The decoder calls of a log, in order: entry index, cache variables passed,
and what the call gave back. -/
def decoderCalls : List Event → List (Nat × Cursor × Decoded)
  | [] => []
  | Event.extract i c d :: rest => (i, c, d) :: decoderCalls rest
  | _ :: rest => decoderCalls rest

/-- A sequence of decoder calls that starts from the cache variables `cur`,
passes to each call what the call before it left, and has no call after one
that failed. -/
def Chained : Cursor → List (Nat × Cursor × Decoded) → Prop
  | _, [] => True
  | cur, (_, c, d) :: rest =>
    c = cur ∧ (rest ≠ [] → d.res = SRes.SZ_OK) ∧ Chained d.cursor rest

/-- The indices of the entries that are not directories, in increasing order,
for a part of the table that starts at index `i`. -/
def fileIndices : List Entry → Nat → List Nat
  | [], _ => []
  | e :: rest, i => if e.isDir then fileIndices rest (i + 1) else i :: fileIndices rest (i + 1)

/-- The event is a decoder call. -/
def Event.isExtract : Event → Bool
  | Event.extract _ _ _ => true
  | _ => false

/-- The UTF-8 transcoding of a UTF-16 string by the strict reference codecs;
`none` when the string is not well-formed UTF-16. -/
def transcode (s : List Nat) : Option (List Nat) := (utf16Decode s).map utf8Encode

/-- The calls of `mkdir` for the paths `ps`, one after the other from the
moment `now` on, each with the outcome that the oracle gives it. -/
def mkdirLog (w : Collaborators) : Nat → List (List Nat) → List Event
  | _, [] => []
  | now, p :: ps => Event.createDir p (w.mkdir now p) :: mkdirLog w (now + 1) ps

/-- The event is a call of `OutFile_Open`. -/
def Event.isOpenOut : Event → Bool
  | Event.openOut _ _ => true
  | _ => false

/-- The event is a call of `mkdir`. -/
def Event.isCreateDir : Event → Bool
  | Event.createDir _ _ => true
  | _ => false

/-- The event with the outcome of a directory creation blanked. -/
def Event.forgetDir : Event → Event
  | Event.createDir name _ => Event.createDir name 0
  | ev => ev

/-- Collaborators for the examples: every allocation succeeds with
zero-filled memory, the decoder succeeds for every entry and leaves the block
`[1, 2, 3]` with the range `offset = 1`, `outSizeProcessed = 2`, every
filesystem call succeeds except `mkdir`, which gives `mkdirResult`, and the
separator is `sep`. -/
def calmWorld (mkdirResult sep : Nat) : Collaborators :=
  ⟨fun _ => true, fun _ _ => some (fun _ => 0),
    fun _ i _ => ⟨SRes.SZ_OK, ⟨i, some [1, 2, 3], 3⟩, 1, 2⟩,
    fun _ _ => mkdirResult, fun _ _ => 0, fun _ _ _ n => (0, n), fun _ => 0, sep⟩

/-- What a state of the drivers shows when the outcomes of the directory
creations are blanked in its log. -/
def DriverState.blank (st : DriverState) : SRes × Nat × Cursor × List Event :=
  (st.res, st.tempSize, st.cursor, st.log.map Event.forgetDir)

/-! ## Lemmas -/

theorem storesAt_append (dest : Bool) (a b : List Nat) (p : Nat) :
    storesAt dest p (a ++ b) = storesAt dest p a ++ storesAt dest (p + a.length) b := by
  induction a generalizing p with
  | nil => simp [storesAt]
  | cons x xs ih =>
    have e : p + (xs.length + 1) = p + 1 + xs.length := by omega
    rw [List.cons_append, storesAt, storesAt, ih, List.length_cons, e, List.append_assoc]

theorem storesAt_false (p : Nat) (bs : List Nat) : storesAt false p bs = [] := by
  induction bs generalizing p with
  | nil => rfl
  | cons x xs ih => simp [storesAt, put, ih]

theorem storesAt_true_fst (p : Nat) (bs : List Nat) :
    (storesAt true p bs).map Prod.fst = List.range' p bs.length := by
  induction bs generalizing p with
  | nil => rfl
  | cons x xs ih => simp [storesAt, put, ih, List.range'_succ]

theorem storesAt_true_snd (p : Nat) (bs : List Nat) :
    (storesAt true p bs).map Prod.snd = bs := by
  induction bs generalizing p with
  | nil => rfl
  | cons x xs ih => simp [storesAt, put, ih]

theorem and_63 (x : Nat) : x &&& 63 = x % 64 := Nat.and_pow_two_sub_one_eq_mod x 6

theorem tailLoop_one (dest : Bool) (v p : Nat) :
    tailLoop dest v 1 p = put dest p ((0x80 + ((v >>> 0) &&& 0x3F)) % 256) := by
  simp [tailLoop]

theorem tailLoop_two (dest : Bool) (v p : Nat) :
    tailLoop dest v 2 p = put dest p ((0x80 + ((v >>> 6) &&& 0x3F)) % 256)
      ++ put dest (p + 1) ((0x80 + ((v >>> 0) &&& 0x3F)) % 256) := by
  simp [tailLoop]

theorem tailLoop_three (dest : Bool) (v p : Nat) :
    tailLoop dest v 3 p = put dest p ((0x80 + ((v >>> 12) &&& 0x3F)) % 256)
      ++ (put dest (p + 1) ((0x80 + ((v >>> 6) &&& 0x3F)) % 256)
      ++ put dest (p + 1 + 1) ((0x80 + ((v >>> 0) &&& 0x3F)) % 256)) := by
  simp [tailLoop]

theorem numAddsLoop_eq (v : Nat) :
    numAddsLoop v 4 1 = if v < 2048 then 1 else if v < 65536 then 2 else if v < 2097152 then 3
      else if v < 67108864 then 4 else 5 := by
  simp [numAddsLoop, Nat.shiftLeft_eq]

theorem emitMulti_two (dest : Bool) (v p : Nat) (h1 : 0x80 ≤ v) (h2 : v < 0x800) :
    emitMulti dest v p = (1, storesAt dest p (utf8EncodeOne v)) := by
  have e1 : ¬ v < 0x80 := by omega
  have e6 : (192 + v / 64) % 256 = 192 + v / 64 := by omega
  have e7 : (128 + v % 64) % 256 = 128 + v % 64 := by omega
  simp only [emitMulti, numAddsLoop_eq, utf8EncodeOne, kUtf8Limits]
  norm_num [h2, e1, tailLoop_one, Nat.shiftRight_eq_div_pow, and_63, e6, e7, storesAt]

theorem emitMulti_three (dest : Bool) (v p : Nat) (h1 : 0x800 ≤ v) (h2 : v < 0x10000) :
    emitMulti dest v p = (2, storesAt dest p (utf8EncodeOne v)) := by
  have e1 : ¬ v < 0x80 := by omega
  have e2 : ¬ v < 0x800 := by omega
  have e6 : (224 + v / 4096) % 256 = 224 + v / 4096 := by omega
  have e7 : (128 + v % 64) % 256 = 128 + v % 64 := by omega
  have e8 : (128 + v / 64 % 64) % 256 = 128 + v / 64 % 64 := by omega
  simp only [emitMulti, numAddsLoop_eq, utf8EncodeOne, kUtf8Limits]
  norm_num [h2, e1, e2, tailLoop_two, Nat.shiftRight_eq_div_pow, and_63, e6, e7, e8, storesAt]

theorem emitMulti_four (dest : Bool) (v p : Nat) (h1 : 0x10000 ≤ v) (h2 : v < 0x110000) :
    emitMulti dest v p = (3, storesAt dest p (utf8EncodeOne v)) := by
  have e1 : ¬ v < 0x80 := by omega
  have e2 : ¬ v < 0x800 := by omega
  have e4 : ¬ v < 0x10000 := by omega
  have e5 : v < 2097152 := by omega
  have e6 : (240 + v / 262144) % 256 = 240 + v / 262144 := by omega
  have e7 : (128 + v % 64) % 256 = 128 + v % 64 := by omega
  have e8 : (128 + v / 64 % 64) % 256 = 128 + v / 64 % 64 := by omega
  have e9 : (128 + v / 4096 % 64) % 256 = 128 + v / 4096 % 64 := by omega
  simp only [emitMulti, numAddsLoop_eq, utf8EncodeOne, kUtf8Limits]
  norm_num [e1, e2, e4, e5, tailLoop_three, Nat.shiftRight_eq_div_pow, and_63, e6, e7, e8, e9, storesAt]

theorem pair_value (value c2 : Nat) (h1 : 0xD800 ≤ value) (h2 : value < 0xDC00)
    (h3 : 0xDC00 ≤ c2) (h4 : c2 < 0xE000) :
    ((((value - 0xD800) <<< 10) ||| (c2 - 0xDC00)) + 0x10000) % 2 ^ 32
      = 0x10000 + (value - 0xD800) * 1024 + (c2 - 0xDC00) := by
  have hb : c2 - 0xDC00 < 2 ^ 10 := by omega
  have h := Nat.mul_add_lt_is_or hb (value - 0xD800)
  rw [Nat.shiftLeft_eq, Nat.mul_comm, ← h]
  omega

theorem utf8EncodeOne_length (c : Nat) :
    (utf8EncodeOne c).length =
      if c < 0x80 then 1 else if c < 0x800 then 2 else if c < 0x10000 then 3 else 4 := by
  unfold utf8EncodeOne
  split_ifs <;> rfl

theorem goodLen_cons_bmp (u : Nat) (rest : List Nat) (h : u < 0xD800 ∨ 0xE000 ≤ u) :
    goodLen (u :: rest) = 1 + goodLen rest := by
  cases rest <;> simp [goodLen, h]

theorem scanned_cons_bmp (u : Nat) (rest : List Nat) (h : u < 0xD800 ∨ 0xE000 ≤ u) :
    scanned (u :: rest) = u :: scanned rest := by
  cases rest <;> simp [scanned, h]

theorem goodLen_cons_low (u : Nat) (rest : List Nat) (h : 0xDC00 ≤ u ∧ u < 0xE000) :
    goodLen (u :: rest) = 0 := by
  have e1 : ¬ (u < 0xD800 ∨ 0xE000 ≤ u) := by omega
  have e2 : ¬ u < 0xDC00 := by omega
  cases rest <;> simp [goodLen, e1, e2]

theorem scanned_cons_low (u : Nat) (rest : List Nat) (h : 0xDC00 ≤ u ∧ u < 0xE000) :
    scanned (u :: rest) = [] := by
  have e1 : ¬ (u < 0xD800 ∨ 0xE000 ≤ u) := by omega
  have e2 : ¬ u < 0xDC00 := by omega
  cases rest <;> simp [scanned, e1, e2]

theorem goodLen_high_last (u : Nat) (h : 0xD800 ≤ u ∧ u < 0xDC00) : goodLen [u] = 0 := by
  have e1 : ¬ (u < 0xD800 ∨ 0xE000 ≤ u) := by omega
  simp [goodLen, e1, h.2]

theorem scanned_high_last (u : Nat) (h : 0xD800 ≤ u ∧ u < 0xDC00) : scanned [u] = [] := by
  have e1 : ¬ (u < 0xD800 ∨ 0xE000 ≤ u) := by omega
  simp [scanned, e1, h.2]

theorem goodLen_high_bad (u c2 : Nat) (rest : List Nat) (h : 0xD800 ≤ u ∧ u < 0xDC00)
    (h2 : ¬ (0xDC00 ≤ c2 ∧ c2 < 0xE000)) : goodLen (u :: c2 :: rest) = 0 := by
  have e1 : ¬ (u < 0xD800 ∨ 0xE000 ≤ u) := by omega
  simp only [goodLen, if_neg e1, if_pos h.2, if_neg h2]

theorem scanned_high_bad (u c2 : Nat) (rest : List Nat) (h : 0xD800 ≤ u ∧ u < 0xDC00)
    (h2 : ¬ (0xDC00 ≤ c2 ∧ c2 < 0xE000)) : scanned (u :: c2 :: rest) = [] := by
  have e1 : ¬ (u < 0xD800 ∨ 0xE000 ≤ u) := by omega
  simp only [scanned, if_neg e1, if_pos h.2, if_neg h2]

theorem goodLen_pair (u c2 : Nat) (rest : List Nat) (h : 0xD800 ≤ u ∧ u < 0xDC00)
    (h2 : 0xDC00 ≤ c2 ∧ c2 < 0xE000) : goodLen (u :: c2 :: rest) = 2 + goodLen rest := by
  have e1 : ¬ (u < 0xD800 ∨ 0xE000 ≤ u) := by omega
  simp only [goodLen, if_neg e1, if_pos h.2, if_pos h2]

theorem scanned_pair (u c2 : Nat) (rest : List Nat) (h : 0xD800 ≤ u ∧ u < 0xDC00)
    (h2 : 0xDC00 ≤ c2 ∧ c2 < 0xE000) :
    scanned (u :: c2 :: rest) = (0x10000 + (u - 0xD800) * 1024 + (c2 - 0xDC00)) :: scanned rest := by
  have e1 : ¬ (u < 0xD800 ∨ 0xE000 ≤ u) := by omega
  simp only [scanned, if_neg e1, if_pos h.2, if_pos h2]

theorem loop_spec (dest : Bool) (src : List Nat) (p : Nat) (st : List (Nat × Nat))
    (hU : Units16 src) :
    Utf16_To_Utf8_loop dest src p st =
      ⟨decide (goodLen src = src.length), p + (utf8Encode (scanned src)).length,
        st ++ storesAt dest p (utf8Encode (scanned src))⟩ := by
  induction src, p, st using Utf16_To_Utf8_loop.induct dest with
  | case1 p st => simp [Utf16_To_Utf8_loop, goodLen, scanned, utf8Encode, storesAt]
  | case2 value rest p st h ih =>
    have hU2 : Units16 rest := fun u hu => hU u (List.mem_cons_of_mem _ hu)
    have e1 : value < 0xD800 ∨ 0xE000 ≤ value := by omega
    have e2 : value % 256 = value := by omega
    rw [Utf16_To_Utf8_loop.eq_def]; simp only [if_pos h]; rw [ih hU2]
    rw [goodLen_cons_bmp _ _ e1, scanned_cons_bmp _ _ e1]
    simp only [utf8Encode, utf8EncodeOne, if_pos h, e2, List.singleton_append, List.length_cons,
      storesAt, List.append_assoc]
    simp
    constructor <;> omega
  | case3 value rest p st h1 h2 h3 =>
    rw [Utf16_To_Utf8_loop.eq_def]; simp only [if_neg h1, if_pos h2, if_pos h3]
    rw [goodLen_cons_low _ _ ⟨h3, h2.2⟩, scanned_cons_low _ _ ⟨h3, h2.2⟩]
    simp [utf8Encode, storesAt]
  | case4 value p st h1 h2 h3 =>
    rw [Utf16_To_Utf8_loop.eq_def]; simp only [if_neg h1, if_pos h2, if_neg h3]
    rw [goodLen_high_last _ ⟨h2.1, by omega⟩, scanned_high_last _ ⟨h2.1, by omega⟩]
    simp [utf8Encode, storesAt]
  | case5 value p st h1 h2 h3 c2 rest2 h4 =>
    rw [Utf16_To_Utf8_loop.eq_def]; simp only [if_neg h1, if_pos h2, if_neg h3, if_pos h4]
    rw [goodLen_high_bad _ _ _ ⟨h2.1, by omega⟩ (by omega),
      scanned_high_bad _ _ _ ⟨h2.1, by omega⟩ (by omega)]
    simp [utf8Encode, storesAt]
  | case6 value p st h1 h2 h3 c2 rest2 h4 value2 e ih =>
    have hU2 : Units16 rest2 := fun u hu =>
      hU u (List.mem_cons_of_mem _ (List.mem_cons_of_mem _ hu))
    have e2 : value < 0xDC00 := by omega
    have e3 : 0xDC00 ≤ c2 ∧ c2 < 0xE000 := by omega
    have hv : value2 = 0x10000 + (value - 0xD800) * 1024 + (c2 - 0xDC00) :=
      pair_value value c2 h2.1 e2 e3.1 e3.2
    have he : e = (3, storesAt dest p (utf8EncodeOne value2)) :=
      emitMulti_four dest value2 p (by omega) (by omega)
    rw [Utf16_To_Utf8_loop.eq_def]; simp only [if_neg h1, if_pos h2, if_neg h3, if_neg h4]
    change Utf16_To_Utf8_loop dest rest2 (p + 1 + e.1) (st ++ e.2) = _
    rw [ih hU2, he, goodLen_pair _ _ _ ⟨h2.1, e2⟩ e3, scanned_pair _ _ _ ⟨h2.1, e2⟩ e3, ← hv]
    have e4 : (utf8EncodeOne value2).length = 4 := by
      rw [utf8EncodeOne_length, if_neg (by omega), if_neg (by omega), if_neg (by omega)]
    simp only [utf8Encode, storesAt_append, List.length_append, e4, List.length_cons,
      List.append_assoc]
    have e5 : p + 1 + 3 = p + 4 := by omega
    simp [e5]
    constructor <;> omega
  | case7 value rest p st h1 h2 e ih =>
    have hU2 : Units16 rest := fun u hu => hU u (List.mem_cons_of_mem _ hu)
    have hv : value < 65536 := hU value (List.mem_cons_self _ _)
    have e1 : value < 0xD800 ∨ 0xE000 ≤ value := by omega
    rw [Utf16_To_Utf8_loop.eq_def]; simp only [if_neg h1, if_neg h2]
    change Utf16_To_Utf8_loop dest rest (p + 1 + e.1) (st ++ e.2) = _
    rw [ih hU2, goodLen_cons_bmp _ _ e1, scanned_cons_bmp _ _ e1]
    by_cases h3 : value < 0x800
    · have he : e = (1, storesAt dest p (utf8EncodeOne value)) :=
        emitMulti_two dest value p (by omega) h3
      have e4 : (utf8EncodeOne value).length = 2 := by
        rw [utf8EncodeOne_length]; simp [h1, h3]
      have e5 : p + 1 + 1 = p + 2 := by omega
      simp only [utf8Encode, he, storesAt_append, List.length_append, e4, List.append_assoc]
      simp [e5]
      constructor <;> omega
    · have he : e = (2, storesAt dest p (utf8EncodeOne value)) :=
        emitMulti_three dest value p (by omega) hv
      have e4 : (utf8EncodeOne value).length = 3 := by
        rw [utf8EncodeOne_length]; simp [h1, h3, hv]
      have e5 : p + 1 + 2 = p + 3 := by omega
      simp only [utf8Encode, he, storesAt_append, List.length_append, e4, List.append_assoc]
      simp [e5]
      constructor <;> omega

theorem malformedAt_cons_succ_succ (u : Nat) (rest : List Nat) (k : Nat) :
    MalformedAt (u :: rest) (k + 2) ↔ MalformedAt rest (k + 1) := by
  simp only [MalformedAt, List.getD_cons_succ, List.length_cons, Nat.add_sub_cancel,
    show k + 2 - 1 = k + 1 from rfl, show k + 2 + 1 = (k + 1 + 1) + 1 from rfl,
    Nat.add_lt_add_iff_right, Nat.add_right_cancel_iff, Nat.succ_pos, true_and]

theorem malformedAt_cons_one (u : Nat) (rest : List Nat) (hu : ¬ isHighSurrogate u) :
    MalformedAt (u :: rest) 1 ↔ MalformedAt rest 0 := by
  simp only [MalformedAt, List.getD_cons_succ, List.length_cons, List.getD_cons_zero,
    Nat.add_lt_add_iff_right, Nat.add_right_cancel_iff]
  simp [hu]

theorem malformedAt_cons_succ (u : Nat) (rest : List Nat) (k : Nat) (hu : ¬ isHighSurrogate u) :
    MalformedAt (u :: rest) (k + 1) ↔ MalformedAt rest k := by
  cases k with
  | zero => exact malformedAt_cons_one u rest hu
  | succ k => exact malformedAt_cons_succ_succ u rest k

theorem goodLen_le (src : List Nat) : goodLen src ≤ src.length := by
  induction src using goodLen.induct with
  | case1 => simp [goodLen]
  | case2 u rest h ih => rw [goodLen_cons_bmp _ _ h]; simp; omega
  | case3 u h1 h2 => rw [goodLen_high_last _ ⟨by omega, h2⟩]; simp
  | case4 u h1 h2 l rest2 h3 ih => rw [goodLen_pair _ _ _ ⟨by omega, h2⟩ h3]; simp; omega
  | case5 u h1 h2 l rest2 h3 => rw [goodLen_high_bad _ _ _ ⟨by omega, h2⟩ h3]; simp
  | case6 u rest h1 h2 => rw [goodLen_cons_low _ _ (by omega)]; simp

theorem goodLen_first_bad (src : List Nat) (hU : Units16 src) :
    (∀ j < goodLen src, ¬ MalformedAt src j) ∧
    (goodLen src < src.length → MalformedAt src (goodLen src)) := by
  induction src using goodLen.induct with
  | case1 => simp [goodLen]
  | case2 u rest h ih =>
    have hU2 : Units16 rest := fun u hu => hU u (List.mem_cons_of_mem _ hu)
    have hu : u < 65536 := hU u (List.mem_cons_self _ _)
    have hh : ¬ isHighSurrogate u := by unfold isHighSurrogate; omega
    rw [goodLen_cons_bmp _ _ h]
    obtain ⟨ih1, ih2⟩ := ih hU2
    constructor
    · intro j hj
      cases j with
      | zero =>
        simp only [MalformedAt, List.getD_cons_zero, isLowSurrogate, isHighSurrogate]
        omega
      | succ j =>
        rw [malformedAt_cons_succ u rest j hh]
        exact ih1 j (by omega)
    · intro hlt
      rw [Nat.add_comm, malformedAt_cons_succ u rest _ hh]
      exact ih2 (by simp only [List.length_cons] at hlt; omega)
  | case3 u h1 h2 =>
    rw [goodLen_high_last _ ⟨by omega, h2⟩]
    refine ⟨fun j hj => absurd hj (Nat.not_lt_zero _), fun _ => ?_⟩
    have e : [u].length = 1 := rfl
    simp only [MalformedAt, List.getD_cons_zero, isLowSurrogate, isHighSurrogate]
    omega
  | case4 u h1 h2 l rest2 h3 ih =>
    have hU2 : Units16 rest2 := fun u hu =>
      hU u (List.mem_cons_of_mem _ (List.mem_cons_of_mem _ hu))
    have hl : ¬ isHighSurrogate l := by unfold isHighSurrogate; omega
    rw [goodLen_pair _ _ _ ⟨by omega, h2⟩ h3]
    obtain ⟨ih1, ih2⟩ := ih hU2
    constructor
    · intro j hj
      match j with
      | 0 =>
        simp only [MalformedAt, List.getD_cons_zero, List.getD_cons_succ, isLowSurrogate,
          isHighSurrogate, List.length_cons]
        omega
      | 1 =>
        simp only [MalformedAt, List.getD_cons_zero, List.getD_cons_succ, isLowSurrogate,
          isHighSurrogate, List.length_cons, Nat.sub_self,
          show (l :: rest2).getD 0 0 = l from rfl, show (rest2).getD 0 0 = rest2.getD 0 0 from rfl]
        omega
      | j + 2 =>
        rw [malformedAt_cons_succ_succ, malformedAt_cons_succ l rest2 j hl]
        exact ih1 j (by omega)
    · intro hlt
      rw [Nat.add_comm, malformedAt_cons_succ_succ, malformedAt_cons_succ l rest2 _ hl]
      exact ih2 (by simp only [List.length_cons] at hlt; omega)
  | case5 u h1 h2 l rest2 h3 =>
    rw [goodLen_high_bad _ _ _ ⟨by omega, h2⟩ h3]
    refine ⟨fun j hj => absurd hj (Nat.not_lt_zero _), fun _ => ?_⟩
    simp only [MalformedAt, List.getD_cons_zero, List.getD_cons_succ, isLowSurrogate,
      isHighSurrogate, List.length_cons]
    omega
  | case6 u rest h1 h2 =>
    have hu : u < 65536 := hU u (List.mem_cons_self _ _)
    rw [goodLen_cons_low _ _ (by omega)]
    refine ⟨fun j hj => absurd hj (Nat.not_lt_zero _), fun _ => ?_⟩
    simp only [MalformedAt, List.getD_cons_zero, isLowSurrogate, isHighSurrogate]
    omega

theorem utf8Decode_one (c : Nat) (rest : List Nat) (h : c < 0x80) :
    utf8Decode (utf8EncodeOne c ++ rest) = (utf8Decode rest).map (c :: ·) := by
  rw [utf8EncodeOne, if_pos h, List.singleton_append, utf8Decode.eq_def]
  simp only [if_pos h]

theorem utf8Decode_two (c : Nat) (rest : List Nat) (h1 : 0x80 ≤ c) (h2 : c < 0x800) :
    utf8Decode (utf8EncodeOne c ++ rest) = (utf8Decode rest).map (c :: ·) := by
  have e0 : ¬ c < 0x80 := by omega
  have e1 : ¬ 0xC0 + c / 64 < 0x80 := by omega
  have e2 : 0xC0 ≤ 0xC0 + c / 64 ∧ 0xC0 + c / 64 < 0xE0 := by omega
  have e3 : (0xC0 + c / 64 - 0xC0) * 64 + (0x80 + c % 64 - 0x80) = c := by omega
  have e4 : isCont (0x80 + c % 64) ∧ 0x80 ≤ c := by unfold isCont; omega
  rw [utf8EncodeOne, if_neg e0, if_pos h2, utf8Decode.eq_def]
  simp only [List.cons_append, List.nil_append, if_neg e1, if_pos e2, e3, if_pos e4]

theorem utf8Decode_three (c : Nat) (rest : List Nat) (h1 : 0x800 ≤ c) (h2 : c < 0x10000)
    (h3 : ¬ (0xD800 ≤ c ∧ c < 0xE000)) :
    utf8Decode (utf8EncodeOne c ++ rest) = (utf8Decode rest).map (c :: ·) := by
  have e0 : ¬ c < 0x80 := by omega
  have e0' : ¬ c < 0x800 := by omega
  have e1 : ¬ 0xE0 + c / 4096 < 0x80 := by omega
  have e2 : ¬ (0xC0 ≤ 0xE0 + c / 4096 ∧ 0xE0 + c / 4096 < 0xE0) := by omega
  have e2' : 0xE0 ≤ 0xE0 + c / 4096 ∧ 0xE0 + c / 4096 < 0xF0 := by omega
  have e3 : (0xE0 + c / 4096 - 0xE0) * 4096 + (0x80 + c / 64 % 64 - 0x80) * 64
      + (0x80 + c % 64 - 0x80) = c := by omega
  have e4 : isCont (0x80 + c / 64 % 64) ∧ isCont (0x80 + c % 64) ∧ 0x800 ≤ c
      ∧ ¬ (0xD800 ≤ c ∧ c < 0xE000) := by unfold isCont; omega
  rw [utf8EncodeOne, if_neg e0, if_neg e0', if_pos h2, utf8Decode.eq_def]
  simp only [List.cons_append, List.nil_append, if_neg e1, if_neg e2, if_pos e2', e3, if_pos e4]

theorem utf8Decode_four (c : Nat) (rest : List Nat) (h1 : 0x10000 ≤ c) (h2 : c < 0x110000) :
    utf8Decode (utf8EncodeOne c ++ rest) = (utf8Decode rest).map (c :: ·) := by
  have e0 : ¬ c < 0x80 := by omega
  have e0' : ¬ c < 0x800 := by omega
  have e0c : ¬ c < 0x10000 := by omega
  have e1 : ¬ 0xF0 + c / 262144 < 0x80 := by omega
  have e2 : ¬ (0xC0 ≤ 0xF0 + c / 262144 ∧ 0xF0 + c / 262144 < 0xE0) := by omega
  have e2' : ¬ (0xE0 ≤ 0xF0 + c / 262144 ∧ 0xF0 + c / 262144 < 0xF0) := by omega
  have e2c : 0xF0 ≤ 0xF0 + c / 262144 ∧ 0xF0 + c / 262144 < 0xF8 := by omega
  have e3 : (0xF0 + c / 262144 - 0xF0) * 262144 + (0x80 + c / 4096 % 64 - 0x80) * 4096
      + (0x80 + c / 64 % 64 - 0x80) * 64 + (0x80 + c % 64 - 0x80) = c := by omega
  have e4 : isCont (0x80 + c / 4096 % 64) ∧ isCont (0x80 + c / 64 % 64) ∧ isCont (0x80 + c % 64)
      ∧ 0x10000 ≤ c ∧ c < 0x110000 := by unfold isCont; omega
  rw [utf8EncodeOne, if_neg e0, if_neg e0', if_neg e0c, utf8Decode.eq_def]
  simp only [List.cons_append, List.nil_append, if_neg e1, if_neg e2, if_neg e2', if_pos e2c, e3,
    if_pos e4]

theorem utf8Decode_encodeOne (c : Nat) (rest : List Nat) (h : isScalar c) :
    utf8Decode (utf8EncodeOne c ++ rest) = (utf8Decode rest).map (c :: ·) := by
  obtain ⟨h1, h2⟩ := h
  by_cases a : c < 0x80
  · exact utf8Decode_one c rest a
  · by_cases b : c < 0x800
    · exact utf8Decode_two c rest (by omega) b
    · by_cases d : c < 0x10000
      · exact utf8Decode_three c rest (by omega) d h2
      · exact utf8Decode_four c rest (by omega) h1

theorem utf8Decode_encode (cps : List Nat) (h : ∀ c ∈ cps, isScalar c) :
    utf8Decode (utf8Encode cps) = some cps := by
  induction cps with
  | nil => simp [utf8Encode, utf8Decode]
  | cons c cs ih =>
    rw [utf8Encode, utf8Decode_encodeOne c _ (h c (List.mem_cons_self _ _)),
      ih (fun c hc => h c (List.mem_cons_of_mem _ hc))]
    rfl

theorem scanned_scalar (src : List Nat) (hU : Units16 src) : ∀ c ∈ scanned src, isScalar c := by
  induction src using goodLen.induct with
  | case1 => simp [scanned]
  | case2 u rest h ih =>
    have hU2 : Units16 rest := fun u hu => hU u (List.mem_cons_of_mem _ hu)
    have hu : u < 65536 := hU u (List.mem_cons_self _ _)
    rw [scanned_cons_bmp _ _ h]
    intro c hc
    rcases List.mem_cons.mp hc with hc | hc
    · rw [hc]; unfold isScalar; omega
    · exact ih hU2 c hc
  | case3 u h1 h2 => rw [scanned_high_last _ ⟨by omega, h2⟩]; simp
  | case4 u h1 h2 l rest2 h3 ih =>
    have hU2 : Units16 rest2 := fun u hu =>
      hU u (List.mem_cons_of_mem _ (List.mem_cons_of_mem _ hu))
    rw [scanned_pair _ _ _ ⟨by omega, h2⟩ h3]
    intro c hc
    rcases List.mem_cons.mp hc with hc | hc
    · have e : c < 0x110000 ∧ 0x10000 ≤ c := by rw [hc]; omega
      unfold isScalar; omega
    · exact ih hU2 c hc
  | case5 u h1 h2 l rest2 h3 => rw [scanned_high_bad _ _ _ ⟨by omega, h2⟩ h3]; simp
  | case6 u rest h1 h2 => rw [scanned_cons_low _ _ (by omega)]; simp

theorem utf16Encode_pair (u l c : Nat) (cs : List Nat) (h1 : 0xD800 ≤ u) (h2 : u < 0xDC00)
    (h3 : 0xDC00 ≤ l) (h4 : l < 0xE000) (hc : c = 0x10000 + (u - 0xD800) * 1024 + (l - 0xDC00)) :
    utf16Encode (c :: cs) = u :: l :: utf16Encode cs := by
  have e1 : ¬ c < 0x10000 := by omega
  have e2 : 0xD800 + (c - 0x10000) / 1024 = u := by omega
  have e3 : 0xDC00 + (c - 0x10000) % 1024 = l := by omega
  rw [utf16Encode, if_neg e1, e2, e3]

theorem utf16Encode_scanned (src : List Nat) (hU : Units16 src) :
    utf16Encode (scanned src) = src.take (goodLen src) := by
  induction src using goodLen.induct with
  | case1 => simp [scanned, goodLen, utf16Encode]
  | case2 u rest h ih =>
    have hU2 : Units16 rest := fun u hu => hU u (List.mem_cons_of_mem _ hu)
    have hu : u < 65536 := hU u (List.mem_cons_self _ _)
    rw [scanned_cons_bmp _ _ h, goodLen_cons_bmp _ _ h, utf16Encode, if_pos hu, ih hU2,
      Nat.add_comm, List.take_succ_cons]
  | case3 u h1 h2 =>
    rw [scanned_high_last _ ⟨by omega, h2⟩, goodLen_high_last _ ⟨by omega, h2⟩]; rfl
  | case4 u h1 h2 l rest2 h3 ih =>
    have hU2 : Units16 rest2 := fun u hu =>
      hU u (List.mem_cons_of_mem _ (List.mem_cons_of_mem _ hu))
    have e : 2 + goodLen rest2 = goodLen rest2 + 1 + 1 := by omega
    rw [scanned_pair _ _ _ ⟨by omega, h2⟩ h3, goodLen_pair _ _ _ ⟨by omega, h2⟩ h3,
      utf16Encode_pair u l _ _ (by omega) h2 h3.1 h3.2 rfl, ih hU2, e, List.take_succ_cons,
      List.take_succ_cons]
  | case5 u h1 h2 l rest2 h3 =>
    rw [scanned_high_bad _ _ _ ⟨by omega, h2⟩ h3, goodLen_high_bad _ _ _ ⟨by omega, h2⟩ h3]; rfl
  | case6 u rest h1 h2 =>
    rw [scanned_cons_low _ _ (by omega), goodLen_cons_low _ _ (by omega)]; rfl

theorem utf16Decode_take_goodLen (src : List Nat) :
    utf16Decode (src.take (goodLen src)) = some (scanned src) := by
  induction src using goodLen.induct with
  | case1 => simp [scanned, goodLen, utf16Decode]
  | case2 u rest h ih =>
    rw [scanned_cons_bmp _ _ h, goodLen_cons_bmp _ _ h, Nat.add_comm, List.take_succ_cons,
      utf16Decode.eq_def]
    simp only [if_pos h, ih, Option.map_some']
  | case3 u h1 h2 =>
    rw [scanned_high_last _ ⟨by omega, h2⟩, goodLen_high_last _ ⟨by omega, h2⟩]; rfl
  | case4 u h1 h2 l rest2 h3 ih =>
    have e : 2 + goodLen rest2 = goodLen rest2 + 1 + 1 := by omega
    rw [scanned_pair _ _ _ ⟨by omega, h2⟩ h3, goodLen_pair _ _ _ ⟨by omega, h2⟩ h3,
      e, List.take_succ_cons, List.take_succ_cons, utf16Decode.eq_def]
    simp only [if_neg h1, if_pos h2, if_pos h3, ih, Option.map_some']
  | case5 u h1 h2 l rest2 h3 =>
    rw [scanned_high_bad _ _ _ ⟨by omega, h2⟩ h3, goodLen_high_bad _ _ _ ⟨by omega, h2⟩ h3]; rfl
  | case6 u rest h1 h2 =>
    rw [scanned_cons_low _ _ (by omega), goodLen_cons_low _ _ (by omega)]; rfl

theorem goodLen_scanned_take (src : List Nat) :
    goodLen (src.take (goodLen src)) = goodLen src ∧
    scanned (src.take (goodLen src)) = scanned src := by
  induction src using goodLen.induct with
  | case1 => simp [scanned, goodLen]
  | case2 u rest h ih =>
    rw [goodLen_cons_bmp _ _ h, Nat.add_comm, List.take_succ_cons, goodLen_cons_bmp _ _ h,
      scanned_cons_bmp _ _ h, scanned_cons_bmp _ _ h, ih.1, ih.2, Nat.add_comm]
    exact ⟨rfl, rfl⟩
  | case3 u h1 h2 =>
    rw [goodLen_high_last _ ⟨by omega, h2⟩, scanned_high_last _ ⟨by omega, h2⟩]
    simp [goodLen, scanned]
  | case4 u h1 h2 l rest2 h3 ih =>
    have hh : 0xD800 ≤ u ∧ u < 0xDC00 := ⟨by omega, h2⟩
    have e : 2 + goodLen rest2 = goodLen rest2 + 1 + 1 := by omega
    rw [goodLen_pair _ _ _ hh h3, e, List.take_succ_cons, List.take_succ_cons,
      goodLen_pair _ _ _ hh h3, scanned_pair _ _ _ hh h3, scanned_pair _ _ _ hh h3, ih.1, ih.2]
    exact ⟨by omega, rfl⟩
  | case5 u h1 h2 l rest2 h3 =>
    rw [goodLen_high_bad _ _ _ ⟨by omega, h2⟩ h3, scanned_high_bad _ _ _ ⟨by omega, h2⟩ h3]
    simp [goodLen, scanned]
  | case6 u rest h1 h2 =>
    rw [goodLen_cons_low _ _ (by omega), scanned_cons_low _ _ (by omega)]
    simp [goodLen, scanned]

theorem Utf16_To_Utf8_spec (dest : Bool) (src : List Nat) (hU : Units16 src) :
    Utf16_To_Utf8 dest src =
      ⟨decide (goodLen src = src.length), (utf8Encode (scanned src)).length,
        storesAt dest 0 (utf8Encode (scanned src))⟩ := by
  rw [Utf16_To_Utf8, loop_spec dest src 0 [] hU]
  simp

theorem wellFormed_iff_not_malformed (src : List Nat) (hU : Units16 src) :
    WellFormedUtf16 src ↔ ∀ i < src.length, ¬ MalformedAt src i := by
  unfold WellFormedUtf16 MalformedAt
  constructor
  · rintro ⟨_, h⟩ i hi
    have := h i hi
    omega
  · intro h
    refine ⟨hU, fun i hi => ?_⟩
    have := h i hi
    omega

theorem goodLen_eq_length_iff (src : List Nat) (hU : Units16 src) :
    goodLen src = src.length ↔ ∀ i < src.length, ¬ MalformedAt src i := by
  obtain ⟨h1, h2⟩ := goodLen_first_bad src hU
  have h3 := goodLen_le src
  constructor
  · intro h i hi
    exact h1 i (by omega)
  · intro h
    by_contra hne
    have hlt : goodLen src < src.length := by omega
    exact h _ hlt (h2 hlt)

/-- The value left in `*destLen` is at most three times `srcLen`, so the
`size_t` counter `destPos` cannot wrap for an array that fits in memory. -/
theorem Utf16_To_Utf8_destLen_le (dest : Bool) (src : List Nat) (hU : Units16 src) :
    (Utf16_To_Utf8 dest src).destLen ≤ 3 * src.length := by
  rw [Utf16_To_Utf8_spec dest src hU]
  show (utf8Encode (scanned src)).length ≤ 3 * src.length
  induction src using goodLen.induct with
  | case1 => simp [scanned, utf8Encode]
  | case2 u rest h ih =>
    have hU2 : Units16 rest := fun u hu => hU u (List.mem_cons_of_mem _ hu)
    have hu : u < 65536 := hU u (List.mem_cons_self _ _)
    have := ih hU2
    rw [scanned_cons_bmp _ _ h, utf8Encode, List.length_append, utf8EncodeOne_length,
      List.length_cons]
    split_ifs <;> omega
  | case3 u h1 h2 => rw [scanned_high_last _ ⟨by omega, h2⟩]; simp [utf8Encode]
  | case4 u h1 h2 l rest2 h3 ih =>
    have hU2 : Units16 rest2 := fun u hu =>
      hU u (List.mem_cons_of_mem _ (List.mem_cons_of_mem _ hu))
    have := ih hU2
    rw [scanned_pair _ _ _ ⟨by omega, h2⟩ h3, utf8Encode, List.length_append,
      utf8EncodeOne_length, List.length_cons, List.length_cons]
    split_ifs <;> omega
  | case5 u h1 h2 l rest2 h3 => rw [scanned_high_bad _ _ _ ⟨by omega, h2⟩ h3]; simp [utf8Encode]
  | case6 u rest h1 h2 => rw [scanned_cons_low _ _ (by omega)]; simp [utf8Encode]

theorem pokeAll_storesAt (bs mem : List Nat) (p : Nat) (h : p + bs.length ≤ mem.length) :
    pokeAll mem (storesAt true p bs) = some (mem.take p ++ bs ++ mem.drop (p + bs.length)) := by
  induction bs generalizing mem p with
  | nil => simp [storesAt, pokeAll]
  | cons b bs ih =>
    simp only [List.length_cons] at h
    have hp : p < mem.length := by omega
    have hl : p + 1 + bs.length ≤ (mem.set p b).length := by simp; omega
    have e0 : storesAt true p (b :: bs) = (p, b) :: storesAt true (p + 1) bs := by
      simp [storesAt, put]
    rw [e0, pokeAll]
    simp only [poke, if_pos hp]
    rw [ih (mem.set p b) (p + 1) hl]
    congr 1
    rw [List.set_eq_take_cons_drop b hp]
    have hlen : (List.take p mem).length = p := by simp; omega
    have e1 : List.take (p + 1) (List.take p mem ++ b :: List.drop (p + 1) mem)
        = List.take p mem ++ [b] := by
      rw [List.take_append_eq_append_take, hlen]
      simp [List.take_of_length_le, hlen]
    have e2 : List.drop (p + 1 + bs.length) (List.take p mem ++ b :: List.drop (p + 1) mem)
        = List.drop (p + 1 + bs.length) mem := by
      rw [List.drop_append_eq_append_drop, hlen]
      have e4 : p + 1 + bs.length - p = (bs.length) + 1 := by omega
      rw [List.drop_of_length_le (by simp; omega), e4, List.drop_succ_cons, List.drop_drop]
      simp only [List.nil_append]
    have e3 : p + (bs.length + 1) = p + 1 + bs.length := by omega
    rw [e1, e2, List.length_cons, e3]
    simp

theorem Buf_EnsureSize_length (alloc : Allocator) (dest : CBuf) (size : Nat)
    (h : (Buf_EnsureSize alloc dest size).1 = true) :
    size ≤ (Buf_EnsureSize alloc dest size).2.length := by
  unfold Buf_EnsureSize at *
  split_ifs at * with h1
  · exact h1
  · unfold Buf_Create at *
    cases ha : alloc size with
    | none => simp [ha] at h
    | some fill => simp

theorem Utf16_To_Utf8Buf_spec (alloc : Allocator) (dest : CBuf) (src : List Nat)
    (hU : Units16 src) :
    Utf16_To_Utf8Buf alloc dest src =
      if (Buf_EnsureSize alloc dest ((utf8Encode (scanned src)).length + 1)).1 = true then
        some (if goodLen src = src.length then SRes.SZ_OK else SRes.SZ_ERROR_FAIL,
          utf8Encode (scanned src) ++ [0] ++
            (Buf_EnsureSize alloc dest ((utf8Encode (scanned src)).length + 1)).2.drop
              ((utf8Encode (scanned src)).length + 1))
      else some (SRes.SZ_ERROR_MEM,
        (Buf_EnsureSize alloc dest ((utf8Encode (scanned src)).length + 1)).2) := by
  unfold Utf16_To_Utf8Buf
  simp only [Utf16_To_Utf8_spec _ src hU]
  by_cases he : (Buf_EnsureSize alloc dest ((utf8Encode (scanned src)).length + 1)).1 = true
  · have hl := Buf_EnsureSize_length alloc dest _ he
    simp only [he, not_true_eq_false, if_false, if_true]
    rw [pokeAll_storesAt _ _ 0 (by omega)]
    simp only [List.take_zero, List.nil_append, Nat.zero_add]
    have hp : (utf8Encode (scanned src)).length <
        (utf8Encode (scanned src) ++ List.drop (utf8Encode (scanned src)).length
          (Buf_EnsureSize alloc dest ((utf8Encode (scanned src)).length + 1)).2).length := by
      simp; omega
    simp only [poke, if_pos hp]
    congr 2
    · simp
    · rw [List.set_append_right _ _ (Nat.le_refl _)]
      simp only [Nat.sub_self, List.append_assoc]
      congr 1
      generalize (Buf_EnsureSize alloc dest ((utf8Encode (scanned src)).length + 1)).2 = m at hl ⊢
      generalize (utf8Encode (scanned src)).length = n at hl ⊢
      rw [← List.drop_drop]
      cases hd : List.drop n m with
      | nil =>
        have := congrArg List.length hd
        simp at this; omega
      | cons x xs => simp
  · simp only [he, Bool.false_eq_true, not_false_eq_true, if_true, if_false]

theorem digitsLoop_spec (room value : Nat) (temp : List Nat) (h : value < 10 ^ room)
    (hr : 0 < room) :
    digitsLoop room value temp =
      some (temp ++ (if value = 0 then [48] else (Nat.digits 10 value).map (48 + ·))) := by
  induction room generalizing value temp with
  | zero => omega
  | succ room ih =>
    have e1 : (48 + value % 10) % 256 = 48 + value % 10 := by omega
    rw [digitsLoop]
    simp only [e1]
    by_cases hv : value / 10 = 0
    · have hlt : value < 10 := by omega
      simp only [hv, ne_eq, not_true_eq_false, if_false]
      by_cases h0 : value = 0
      · simp [h0]
      · have e2 : value % 10 = value := by omega
        simp [h0, Nat.digits_of_lt 10 value h0 hlt, e2]
    · have hpos : 0 < value := by omega
      have hr2 : 0 < room := by
        rcases Nat.eq_zero_or_pos room with h0 | h0
        · subst h0; simp at h; omega
        · exact h0
      have hlt : value / 10 < 10 ^ room := by
        rw [pow_succ] at h; omega
      have h0 : value ≠ 0 := by omega
      simp only [ne_eq, hv, not_false_eq_true, if_true, h0, if_false]
      rw [ih (value / 10) _ hlt hr2, if_neg hv, Nat.digits_def' (by norm_num) hpos]
      simp

theorem decimal_eq (value : Nat) :
    (if value = 0 then [48] else (Nat.digits 10 value).map (48 + ·)).reverse = decimal value := by
  unfold decimal
  split_ifs <;> simp

theorem UInt64ToStr_eq (value : Nat) (h : value < 2 ^ 64) :
    UInt64ToStr value = some (decimal value ++ [0]) := by
  have h2 : value < 10 ^ 32 := by omega
  rw [UInt64ToStr, digitsLoop_spec 32 value [] h2 (by norm_num)]
  simp only [List.nil_append, decimal_eq]

theorem padLoop_eq (n : Nat) : padLoop n = List.replicate n 48 := by
  induction n with
  | zero => rfl
  | succ n ih => rw [padLoop, ih]; rfl

theorem decimal_length_pos (value : Nat) : 0 < (decimal value).length := by
  unfold decimal
  split_ifs with h
  · simp
  · simp only [List.length_reverse, List.length_map]
    exact List.length_pos.2 (Nat.digits_ne_nil_iff_ne_zero.2 h)

theorem UIntToStr_eq (value : Nat) (numDigits : Int) (h : value < 2 ^ 32) :
    UIntToStr value numDigits =
      some (List.replicate (numDigits - (decimal value).length).toNat 48 ++ decimal value ++ [0],
        (List.replicate (numDigits - (decimal value).length).toNat 48 ++ decimal value).length) := by
  have h2 : value < 10 ^ 16 := by omega
  rw [UIntToStr, digitsLoop_spec 16 value [] h2 (by norm_num)]
  simp only [List.nil_append, decimal_eq, padLoop_eq]
  rw [← decimal_eq value, List.length_reverse]

theorem decimal_digits (value : Nat) : ∀ c ∈ decimal value, 48 ≤ c ∧ c ≤ 57 := by
  intro c hc
  unfold decimal at hc
  split_ifs at hc with h
  · simp at hc; omega
  · simp only [List.mem_reverse, List.mem_map] at hc
    obtain ⟨d, hd, rfl⟩ := hc
    have := Nat.digits_lt_base (by norm_num : 1 < 10) hd
    omega

theorem decimal_head (value : Nat) (h : value ≠ 0) : (decimal value).head? ≠ some 48 := by
  unfold decimal
  rw [if_neg h, List.head?_reverse, List.getLast?_map]
  have hne : Nat.digits 10 value ≠ [] := Nat.digits_ne_nil_iff_ne_zero.2 h
  rw [List.getLast?_eq_getLast _ hne]
  have := Nat.getLast_digit_ne_zero 10 h
  simp only [Option.map_some', ne_eq, Option.some.injEq]
  omega

theorem readDecimal_reverse (ds : List Nat) :
    readDecimal ((ds.map (48 + ·)).reverse) = Nat.ofDigits 10 ds := by
  unfold readDecimal
  rw [List.foldl_reverse]
  induction ds with
  | nil => simp
  | cons d ds ih =>
    simp only [List.map_cons, List.foldr_cons, Nat.ofDigits_cons]
    simp only [List.reverse_cons, List.foldl_append, List.foldl_cons, List.foldl_nil, ih] at *
    omega

theorem readDecimal_decimal (value : Nat) : readDecimal (decimal value) = value := by
  unfold decimal
  split_ifs with h
  · subst h; rfl
  · rw [readDecimal_reverse, Nat.ofDigits_digits]

theorem decimal_length_le_iff (n k : Nat) (hk : 0 < k) :
    (decimal n).length ≤ k ↔ n < 10 ^ k := by
  unfold decimal
  split_ifs with h
  · subst h; simp; omega
  · simp only [List.length_reverse, List.length_map]
    have h1 : n < 10 ^ (Nat.digits 10 n).length :=
      Nat.lt_base_pow_length_digits (by norm_num)
    have h2 := Nat.base_pow_length_digits_le 10 n (by norm_num) h
    constructor
    · intro hle
      exact lt_of_lt_of_le h1 (Nat.pow_le_pow_right (by norm_num) hle)
    · intro hlt
      by_contra hcon
      have h3 : 10 ^ (k + 1) ≤ 10 ^ (Nat.digits 10 n).length :=
        Nat.pow_le_pow_right (by norm_num) (by omega)
      rw [pow_succ] at h3
      omega

theorem decimal_lt_ten (n : Nat) (h : n < 10) : decimal n = [48 + n] := by
  unfold decimal
  split_ifs with h0
  · subst h0; rfl
  · rw [Nat.digits_of_lt 10 n h0 h]; rfl

theorem decimal_two_digits (n : Nat) (h1 : 10 ≤ n) (h2 : n < 100) :
    decimal n = [48 + n / 10, 48 + n % 10] := by
  unfold decimal
  rw [if_neg (by omega), Nat.digits_def' (by norm_num) (by omega),
    Nat.digits_of_lt 10 (n / 10) (by omega) (by omega)]
  rfl

theorem UIntToStr_2_eq (n : Nat) (h : n < 100) : UIntToStr_2 n = zeroPad 2 (decimal n) := by
  unfold UIntToStr_2 zeroPad
  have e1 : (48 + n / 10) % 256 = 48 + n / 10 := by omega
  have e2 : (48 + n % 10) % 256 = 48 + n % 10 := by omega
  rw [e1, e2]
  by_cases h1 : n < 10
  · rw [decimal_lt_ten n h1]
    have e3 : n / 10 = 0 := by omega
    have e4 : n % 10 = n := by omega
    simp [e3, e4]
  · rw [decimal_two_digits n (by omega) h]
    simp

theorem year_decomp1 (d q r t1 r1 t2 r2 t3 r3 Y : Nat)
    (hq : q = d / 146097) (hr : r = d % 146097)
    (ht1 : t1 = if r / 36524 = 4 then 3 else r / 36524) (hr1 : r1 = r - t1 * 36524)
    (ht2 : t2 = if r1 / 1461 = 25 then 24 else r1 / 1461) (hr2 : r2 = r1 - t2 * 1461)
    (ht3 : t3 = if r2 / 365 = 4 then 3 else r2 / 365) (hr3 : r3 = r2 - t3 * 365)
    (hY : Y = 400 * q + 100 * t1 + 4 * t2 + t3) :
    Y / 4 = 100 * q + 25 * t1 + t2 ∧ Y / 100 = 4 * q + t1 ∧ Y / 400 = q ∧
    d = 146097 * q + 36524 * t1 + 1461 * t2 + 365 * t3 + r3 ∧ t1 ≤ 3 ∧ t2 ≤ 24 ∧ t3 ≤ 3 ∧
    (r3 < 365 ∨ (r3 = 365 ∧ t3 = 3 ∧ (t2 < 24 ∨ t1 = 3))) := by
  have h1 : t1 ≤ 3 := by split_ifs at ht1 <;> omega
  have h2 : r1 ≤ 36524 := by split_ifs at ht1 <;> omega
  have h2' : t1 < 3 → r1 < 36524 := by split_ifs at ht1 <;> omega
  have h3 : t2 ≤ 24 := by split_ifs at ht2 <;> omega
  have h4 : r2 ≤ 1460 := by split_ifs at ht2 <;> omega
  have h4' : t2 = 24 → t1 < 3 → r2 < 1460 := by split_ifs at ht2 <;> omega
  have h5 : t3 ≤ 3 := by split_ifs at ht3 <;> omega
  have h6 : r3 ≤ 365 := by split_ifs at ht3 <;> omega
  have h6' : t3 < 3 → r3 < 365 := by split_ifs at ht3 <;> omega
  have h7 : r1 = t2 * 1461 + r2 := by split_ifs at ht2 <;> omega
  have h8 : r2 = t3 * 365 + r3 := by split_ifs at ht3 <;> omega
  have h9 : r = t1 * 36524 + r1 := by split_ifs at ht1 <;> omega
  refine ⟨by omega, by omega, by omega, by omega, h1, h3, h5, ?_⟩
  omega

theorem fileTime_halves (t : Nat) (ht : t < 2 ^ 64) :
    (t % 2 ^ 32) ||| (((t / 2 ^ 32) <<< 32) % 2 ^ 64) = t := by
  have hb : t % 2 ^ 32 < 2 ^ 32 := Nat.mod_lt _ (by norm_num)
  have h := Nat.mul_add_lt_is_or hb (t / 2 ^ 32)
  have e : ((t / 2 ^ 32) <<< 32) % 2 ^ 64 = 2 ^ 32 * (t / 2 ^ 32) := by
    rw [Nat.shiftLeft_eq]; omega
  rw [e, Nat.or_comm, ← h]
  omega

theorem splitFileTime_spec (t : Nat) (ht : t < 2 ^ 64) :
    (splitFileTime ⟨t % 2 ^ 32, t / 2 ^ 32⟩).sec = t / 10000000 % 60 ∧
    (splitFileTime ⟨t % 2 ^ 32, t / 2 ^ 32⟩).min = t / 10000000 / 60 % 60 ∧
    (splitFileTime ⟨t % 2 ^ 32, t / 2 ^ 32⟩).hour = t / 10000000 / 3600 % 24 ∧
    1601 ≤ (splitFileTime ⟨t % 2 ^ 32, t / 2 ^ 32⟩).year ∧
    (splitFileTime ⟨t % 2 ^ 32, t / 2 ^ 32⟩).year < 2 ^ 32 ∧
    daysBeforeYear (splitFileTime ⟨t % 2 ^ 32, t / 2 ^ 32⟩).year
      + (splitFileTime ⟨t % 2 ^ 32, t / 2 ^ 32⟩).v = t / 10000000 / 86400 ∧
    (splitFileTime ⟨t % 2 ^ 32, t / 2 ^ 32⟩).v <
      (if isLeapYear (splitFileTime ⟨t % 2 ^ 32, t / 2 ^ 32⟩).year then 366 else 365) := by
  have hd : t / 10000000 / 60 / 60 / 24 < 2 ^ 32 := by omega
  have hd2 : t / 10000000 / 60 / 60 / 24 = t / 10000000 / 86400 := by omega
  unfold splitFileTime
  simp only [fileTime_halves t ht, PERIOD_400, PERIOD_100, PERIOD_4, Nat.reduceMul, Nat.reduceAdd,
    Nat.reduceSub, Nat.mod_eq_of_lt hd]
  generalize hdd : t / 10000000 / 60 / 60 / 24 = d at hd hd2 ⊢
  obtain ⟨a1, a2, a3, a4, a5, a6, a7, a8⟩ := year_decomp1 d (d / 146097) (d % 146097)
    _ _ _ _ _ _ _ rfl rfl rfl rfl rfl rfl rfl rfl rfl
  generalize (if d % 146097 / 36524 = 4 then 3 else d % 146097 / 36524) = t1 at *
  generalize (if (d % 146097 - t1 * 36524) / 1461 = 25 then 24
    else (d % 146097 - t1 * 36524) / 1461) = t2 at *
  generalize (if (d % 146097 - t1 * 36524 - t2 * 1461) / 365 = 4 then 3
    else (d % 146097 - t1 * 36524 - t2 * 1461) / 365) = t3 at *
  generalize d % 146097 - t1 * 36524 - t2 * 1461 - t3 * 365 = r3 at *
  have hy : (((1601 + d / 146097 * 400) % 2 ^ 32 + t1 * 100) % 2 ^ 32 + t2 * 4) % 2 ^ 32 + t3
      = 1601 + (400 * (d / 146097) + 100 * t1 + 4 * t2 + t3) := by omega
  have hy2 : (1601 + (400 * (d / 146097) + 100 * t1 + 4 * t2 + t3)) % 2 ^ 32
      = 1601 + (400 * (d / 146097) + 100 * t1 + 4 * t2 + t3) := by omega
  simp only [hy, hy2]
  generalize 400 * (d / 146097) + 100 * t1 + 4 * t2 + t3 = Y at *
  refine ⟨by omega, by omega, by omega, by omega, by omega, ?_, ?_⟩
  · unfold daysBeforeYear
    rw [Nat.add_sub_cancel_left]
    omega
  · unfold isLeapYear
    split_ifs with hl <;> omega

theorem daysBeforeMonth_one (y : Nat) : daysBeforeMonth y 1 = 0 := rfl

theorem daysBeforeMonth_succ (y m : Nat) (hm : 1 ≤ m) :
    daysBeforeMonth y (m + 1) = daysBeforeMonth y m + daysInMonth y m := by
  unfold daysBeforeMonth
  obtain ⟨k, rfl⟩ : ∃ k, m = k + 1 := ⟨m - 1, by omega⟩
  simp [List.range_succ]

theorem daysInMonth_table (y : Nat) :
    daysInMonth y 1 = 31 ∧ daysInMonth y 2 = (if isLeapYear y then 29 else 28) ∧
    daysInMonth y 3 = 31 ∧ daysInMonth y 4 = 30 ∧ daysInMonth y 5 = 31 ∧ daysInMonth y 6 = 30 ∧
    daysInMonth y 7 = 31 ∧ daysInMonth y 8 = 31 ∧ daysInMonth y 9 = 30 ∧ daysInMonth y 10 = 31 ∧
    daysInMonth y 11 = 30 ∧ daysInMonth y 12 = 31 := by
  simp [daysInMonth]

theorem daysBeforeMonth_table (y L : Nat) (hL : L = if isLeapYear y then 29 else 28) :
    daysBeforeMonth y 1 = 0 ∧ daysBeforeMonth y 2 = 31 ∧ daysBeforeMonth y 3 = 31 + L ∧
    daysBeforeMonth y 4 = 62 + L ∧ daysBeforeMonth y 5 = 92 + L ∧ daysBeforeMonth y 6 = 123 + L ∧
    daysBeforeMonth y 7 = 153 + L ∧ daysBeforeMonth y 8 = 184 + L ∧
    daysBeforeMonth y 9 = 215 + L ∧ daysBeforeMonth y 10 = 245 + L ∧
    daysBeforeMonth y 11 = 276 + L ∧ daysBeforeMonth y 12 = 306 + L ∧
    daysBeforeMonth y 13 = 337 + L := by
  obtain ⟨m1, m2, m3, m4, m5, m6, m7, m8, m9, m10, m11, m12⟩ := daysInMonth_table y
  rw [← hL] at m2
  have b1 := daysBeforeMonth_one y
  have b2 := daysBeforeMonth_succ y 1 (by norm_num)
  have b3 := daysBeforeMonth_succ y 2 (by norm_num)
  have b4 := daysBeforeMonth_succ y 3 (by norm_num)
  have b5 := daysBeforeMonth_succ y 4 (by norm_num)
  have b6 := daysBeforeMonth_succ y 5 (by norm_num)
  have b7 := daysBeforeMonth_succ y 6 (by norm_num)
  have b8 := daysBeforeMonth_succ y 7 (by norm_num)
  have b9 := daysBeforeMonth_succ y 8 (by norm_num)
  have b10 := daysBeforeMonth_succ y 9 (by norm_num)
  have b11 := daysBeforeMonth_succ y 10 (by norm_num)
  have b12 := daysBeforeMonth_succ y 11 (by norm_num)
  have b13 := daysBeforeMonth_succ y 12 (by norm_num)
  norm_num at b2 b3 b4 b5 b6 b7 b8 b9 b10 b11 b12 b13
  refine ⟨b1, ?_, ?_, ?_, ?_, ?_, ?_, ?_, ?_, ?_, ?_, ?_, ?_⟩ <;> omega

theorem monthLoop_general (ms : List Nat) (mon v : Nat) (hv : v < ms.sum) :
    ∃ k d, monthLoop ms mon v = some (mon + k, d) ∧ k < ms.length ∧
      d < ms.getD k 0 ∧ (ms.take k).sum + d = v := by
  induction ms generalizing mon v with
  | nil => simp at hv
  | cons s rest ih =>
    rw [monthLoop]
    by_cases h : v < s
    · exact ⟨0, v, by simp [h], by simp, by simpa using h, by simp⟩
    · rw [if_neg h]
      have hv2 : v - s < rest.sum := by simp only [List.sum_cons] at hv; omega
      obtain ⟨k, d, h1, h2, h3, h4⟩ := ih (mon + 1) (v - s) hv2
      refine ⟨k + 1, d, ?_, by simpa using h2, by simpa using h3, ?_⟩
      · rw [h1]; congr 2; omega
      · simp only [List.take_succ_cons, List.sum_cons]; omega

theorem month_table_eq (y : Nat) :
    [31, if y % 4 = 0 ∧ (y % 100 ≠ 0 ∨ y % 400 = 0) then 29 else 28,
        31, 30, 31, 30, 31, 31, 30, 31, 30, 31]
      = (List.range 12).map (fun k => daysInMonth y (k + 1)) := by
  simp [List.range, List.range.loop, daysInMonth]

theorem monthLoop_spec (y v : Nat)
    (hv : v < (if isLeapYear y then 366 else 365)) :
    ∃ mon d, monthLoop [31, if y % 4 = 0 ∧ (y % 100 ≠ 0 ∨ y % 400 = 0) then 29 else 28,
        31, 30, 31, 30, 31, 31, 30, 31, 30, 31] 0 v = some (mon, d) ∧
      mon ≤ 11 ∧ d < daysInMonth y (mon + 1) ∧ daysBeforeMonth y (mon + 1) + d = v := by
  have hsum : ([31, if y % 4 = 0 ∧ (y % 100 ≠ 0 ∨ y % 400 = 0) then 29 else 28,
        31, 30, 31, 30, 31, 31, 30, 31, 30, 31] : List Nat).sum
        = (if isLeapYear y then 366 else 365) := by
    unfold isLeapYear
    split_ifs <;> rfl
  obtain ⟨k, d, h1, h2, h3, h4⟩ := monthLoop_general _ 0 v (by rw [hsum]; exact hv)
  rw [month_table_eq] at h1 h2 h3 h4
  rw [month_table_eq]
  simp only [List.length_map, List.length_range] at h2
  refine ⟨k, d, by simpa using h1, by omega, ?_, ?_⟩
  · rw [List.getD_eq_getElem _ _ (by simpa using h2)] at h3
    simpa using h3
  · rw [← List.map_take, List.take_range, min_eq_left (by omega)] at h4
    unfold daysBeforeMonth
    simpa using h4

theorem daysBeforeYear_succ_aux (Y : Nat) :
    365 * (Y + 1) + (Y + 1) / 4 - (Y + 1) / 100 + (Y + 1) / 400 =
      365 * Y + Y / 4 - Y / 100 + Y / 400 +
        (if (Y + 1601) % 4 = 0 ∧ ((Y + 1601) % 100 ≠ 0 ∨ (Y + 1601) % 400 = 0) then 366 else 365) := by
  have d4 : (Y + 1) / 4 = Y / 4 + (if (Y + 1601) % 4 = 0 then 1 else 0) := by split_ifs <;> omega
  have d100 : (Y + 1) / 100 = Y / 100 + (if (Y + 1601) % 100 = 0 then 1 else 0) := by
    split_ifs <;> omega
  have d400 : (Y + 1) / 400 = Y / 400 + (if (Y + 1601) % 400 = 0 then 1 else 0) := by
    split_ifs <;> omega
  have c1 : Y / 100 ≤ Y / 4 := by omega
  rw [d4, d100, d400]
  clear d4 d100 d400
  generalize Y / 4 = a at c1 ⊢
  generalize Y / 100 = b at c1 ⊢
  generalize Y / 400 = c
  by_cases h4 : (Y + 1601) % 4 = 0 <;> by_cases h100 : (Y + 1601) % 100 = 0 <;>
    by_cases h400 : (Y + 1601) % 400 = 0 <;>
    simp only [h4, h100, h400, if_true, if_false, true_and, false_and, not_true_eq_false,
      not_false_eq_true, or_true, or_false, false_or, ne_eq, and_self, and_true, and_false] <;>
    omega

theorem daysBeforeYear_succ (y : Nat) (hy : 1601 ≤ y) :
    daysBeforeYear (y + 1) = daysBeforeYear y + (if isLeapYear y then 366 else 365) := by
  have e1 : y + 1 - 1601 = (y - 1601) + 1 := by omega
  have e2 : y = (y - 1601) + 1601 := by omega
  have h := daysBeforeYear_succ_aux (y - 1601)
  rw [← e2] at h
  unfold daysBeforeYear isLeapYear
  rw [e1]
  exact h

theorem daysBeforeYear_mono (y1 y2 : Nat) (hy : 1601 ≤ y1) (h : y1 ≤ y2) :
    daysBeforeYear y1 ≤ daysBeforeYear y2 := by
  induction y2 with
  | zero => omega
  | succ y2 ih =>
    rcases Nat.eq_or_lt_of_le h with h1 | h1
    · rw [h1]
    · have := ih (by omega)
      rw [daysBeforeYear_succ y2 (by omega)]
      omega

theorem daysBeforeMonth_mono (y m1 m2 : Nat) (h1 : 1 ≤ m1) (h : m1 ≤ m2) :
    daysBeforeMonth y m1 ≤ daysBeforeMonth y m2 := by
  induction m2 with
  | zero => omega
  | succ m2 ih =>
    rcases Nat.eq_or_lt_of_le h with h2 | h2
    · rw [h2]
    · have := ih (by omega)
      rw [daysBeforeMonth_succ y m2 (by omega)]
      omega

theorem daysBeforeMonth_thirteen (y : Nat) :
    daysBeforeMonth y 13 = (if isLeapYear y then 366 else 365) := by
  have h := (daysBeforeMonth_table y _ rfl).2.2.2.2.2.2.2.2.2.2.2.2
  rw [h]
  split_ifs <;> rfl

theorem dayOfYear_lt (y m d : Nat) (hm1 : 1 ≤ m) (hm2 : m ≤ 12) (hd1 : 1 ≤ d)
    (hd2 : d ≤ daysInMonth y m) :
    daysBeforeMonth y m + (d - 1) < (if isLeapYear y then 366 else 365) := by
  have h1 := daysBeforeMonth_succ y m hm1
  have h2 := daysBeforeMonth_mono y (m + 1) 13 (by omega) (by omega)
  rw [daysBeforeMonth_thirteen] at h2
  omega

theorem month_day_unique (y m1 d1 m2 d2 : Nat) (hm1 : 1 ≤ m1) (hd1 : 1 ≤ d1)
    (hd1' : d1 ≤ daysInMonth y m1) (hm2 : 1 ≤ m2) (hd2 : 1 ≤ d2)
    (hd2' : d2 ≤ daysInMonth y m2)
    (h : daysBeforeMonth y m1 + (d1 - 1) = daysBeforeMonth y m2 + (d2 - 1)) :
    m1 = m2 ∧ d1 = d2 := by
  have e1 := daysBeforeMonth_succ y m1 hm1
  have e2 := daysBeforeMonth_succ y m2 hm2
  have hm : m1 = m2 := by
    rcases Nat.lt_trichotomy m1 m2 with hlt | heq | hgt
    · have := daysBeforeMonth_mono y (m1 + 1) m2 (by omega) hlt
      omega
    · exact heq
    · have := daysBeforeMonth_mono y (m2 + 1) m1 (by omega) hgt
      omega
  subst hm
  exact ⟨rfl, by omega⟩

theorem secondsOf_injective (a b : DateTime) (ha : ValidDateTime a) (hb : ValidDateTime b)
    (h : secondsOf a = secondsOf b) : a = b := by
  obtain ⟨ay, am, ad, ah, ami, as⟩ := a
  obtain ⟨bY, bm, bd, bh, bmi, bs⟩ := b
  obtain ⟨a1, a2, a3, a4, a5, a6, a7, a8⟩ := ha
  obtain ⟨c1, c2, c3, c4, c5, c6, c7, c8⟩ := hb
  simp only at a1 a2 a3 a4 a5 a6 a7 a8 c1 c2 c3 c4 c5 c6 c7 c8
  simp only [secondsOf] at h
  have ha9 := dayOfYear_lt ay am ad a2 a3 a4 a5
  have hb9 := dayOfYear_lt bY bm bd c2 c3 c4 c5
  have hD : daysBeforeYear ay + daysBeforeMonth ay am + (ad - 1)
      = daysBeforeYear bY + daysBeforeMonth bY bm + (bd - 1) := by omega
  have hy : ay = bY := by
    rcases Nat.lt_trichotomy ay bY with hlt | heq | hgt
    · have h1 := daysBeforeYear_mono (ay + 1) bY (by omega) hlt
      rw [daysBeforeYear_succ ay a1] at h1
      omega
    · exact heq
    · have h1 := daysBeforeYear_mono (bY + 1) ay (by omega) hgt
      rw [daysBeforeYear_succ bY c1] at h1
      omega
  subst hy
  obtain ⟨hm, hd⟩ := month_day_unique ay am ad bm bd a2 a4 a5 c2 c4 c5 (by omega)
  subst hm hd
  have e1 : ah = bh := by omega
  have e2 : ami = bmi := by omega
  have e3 : as = bs := by omega
  subst e1 e2 e3
  rfl

theorem daysInMonth_ge (y m : Nat) : 28 ≤ daysInMonth y m := by
  unfold daysInMonth
  split_ifs <;> omega

theorem nextSecond_step (d : DateTime) (hd : ValidDateTime d) :
    ValidDateTime (nextSecond d) ∧ secondsOf (nextSecond d) = secondsOf d + 1 := by
  obtain ⟨y, m, dd, h, mi, s⟩ := d
  obtain ⟨a1, a2, a3, a4, a5, a6, a7, a8⟩ := hd
  simp only at a1 a2 a3 a4 a5 a6 a7 a8
  unfold nextSecond
  simp only
  split_ifs with h1 h2 h3 h4 h5
  · exact ⟨⟨a1, a2, a3, a4, a5, a6, a7, by simp only; omega⟩, by simp only [secondsOf]; omega⟩
  · exact ⟨⟨a1, a2, a3, a4, a5, a6, by simp only; omega, by simp only; omega⟩,
      by simp only [secondsOf]; omega⟩
  · exact ⟨⟨a1, a2, a3, a4, a5, by simp only; omega, by simp only; omega, by simp only; omega⟩,
      by simp only [secondsOf]; omega⟩
  · exact ⟨⟨a1, a2, a3, by simp only; omega, by simp only; omega, by simp only; omega,
      by simp only; omega, by simp only; omega⟩, by simp only [secondsOf]; omega⟩
  · have e := daysBeforeMonth_succ y m a2
    have g := daysInMonth_ge y (m + 1)
    exact ⟨⟨a1, by simp only; omega, by simp only; omega, by simp only; omega,
      by simp only; omega, by simp only; omega, by simp only; omega, by simp only; omega⟩,
      by simp only [secondsOf]; omega⟩
  · have hm : m = 12 := by omega
    subst hm
    have e := daysBeforeYear_succ y a1
    obtain ⟨b1, b2, b3, b4, b5, b6, b7, b8, b9, b10, b11, b12, b13⟩ :=
      daysBeforeMonth_table y _ rfl
    obtain ⟨m1, m2, m3, m4, m5, m6, m7, m8, m9, m10, m11, m12⟩ := daysInMonth_table (y + 1)
    have m12' := (daysInMonth_table y).2.2.2.2.2.2.2.2.2.2.2
    have b1' := daysBeforeMonth_one (y + 1)
    refine ⟨⟨by simp only; omega, by simp only; omega, by simp only; omega, by simp only; omega,
      by simp only; omega, by simp only; omega, by simp only; omega, by simp only; omega⟩, ?_⟩
    simp only [secondsOf]
    split_ifs at e b3 b4 b5 b6 b7 b8 b9 b10 b11 b12 b13 <;> omega

theorem addSeconds_spec (n : Nat) :
    ValidDateTime (addSeconds n epoch1601) ∧ secondsOf (addSeconds n epoch1601) = n := by
  induction n with
  | zero => exact ⟨by unfold ValidDateTime epoch1601 addSeconds; simp [daysInMonth], rfl⟩
  | succ n ih =>
    obtain ⟨h1, h2⟩ := nextSecond_step _ ih.1
    exact ⟨h1, by rw [addSeconds, h2, ih.2]⟩

theorem UIntToStr_year (year : Nat) (h : year < 2 ^ 32) :
    ∃ y len, UIntToStr year 4 = some (y, len) ∧ y.take len = zeroPad 4 (decimal year) := by
  refine ⟨_, _, UIntToStr_eq year 4 h, ?_⟩
  have e : ((4 : Int) - ((decimal year).length : Int)).toNat = 4 - (decimal year).length := by
    omega
  rw [e, List.take_append_eq_append_take]
  simp [zeroPad]

/-- The date-time computed by `ConvertFileTimeToString` before rendering. -/
theorem ConvertFileTimeToString_fields (t : Nat) (ht : t < 2 ^ 64) :
    ∃ mon v, monthLoop [31,
        if (splitFileTime ⟨t % 2 ^ 32, t / 2 ^ 32⟩).year % 4 = 0 ∧
          ((splitFileTime ⟨t % 2 ^ 32, t / 2 ^ 32⟩).year % 100 ≠ 0 ∨
            (splitFileTime ⟨t % 2 ^ 32, t / 2 ^ 32⟩).year % 400 = 0) then 29 else 28,
        31, 30, 31, 30, 31, 31, 30, 31, 30, 31] 0 (splitFileTime ⟨t % 2 ^ 32, t / 2 ^ 32⟩).v
        = some (mon, v) ∧
      mon ≤ 11 ∧ v < daysInMonth (splitFileTime ⟨t % 2 ^ 32, t / 2 ^ 32⟩).year (mon + 1) ∧
      (splitFileTime ⟨t % 2 ^ 32, t / 2 ^ 32⟩).year < 2 ^ 32 ∧
      addSeconds (t / 10000000) epoch1601 =
        ⟨(splitFileTime ⟨t % 2 ^ 32, t / 2 ^ 32⟩).year, mon + 1, v + 1,
          (splitFileTime ⟨t % 2 ^ 32, t / 2 ^ 32⟩).hour, (splitFileTime ⟨t % 2 ^ 32, t / 2 ^ 32⟩).min,
          (splitFileTime ⟨t % 2 ^ 32, t / 2 ^ 32⟩).sec⟩ := by
  obtain ⟨h1, h2, h3, h4, h5, h6, h7⟩ := splitFileTime_spec t ht
  generalize splitFileTime ⟨t % 2 ^ 32, t / 2 ^ 32⟩ = f at *
  obtain ⟨mon, v, g1, g2, g3, g4⟩ := monthLoop_spec f.year f.v h7
  refine ⟨mon, v, g1, g2, g3, h5, ?_⟩
  obtain ⟨a1, a2⟩ := addSeconds_spec (t / 10000000)
  apply secondsOf_injective _ _ a1
  · exact ⟨h4, by simp only; omega, by simp only; omega, by simp only; omega,
      by simp only; omega, by simp only; omega, by simp only; omega, by simp only; omega⟩
  · rw [a2]
    simp only [secondsOf, Nat.add_sub_cancel]
    omega

theorem ConvertFileTimeToString_eq (t : Nat) (ht : t < 2 ^ 64) :
    ConvertFileTimeToString ⟨t % 2 ^ 32, t / 2 ^ 32⟩
      = some (renderDateTime (addSeconds (t / 10000000) epoch1601)) := by
  obtain ⟨mon, v, g1, g2, g3, g4, g5⟩ := ConvertFileTimeToString_fields t ht
  obtain ⟨h1, h2, h3, -⟩ := splitFileTime_spec t ht
  have hdim : daysInMonth (splitFileTime ⟨t % 2 ^ 32, t / 2 ^ 32⟩).year (mon + 1) ≤ 31 := by
    unfold daysInMonth; split_ifs <;> omega
  obtain ⟨y, len, hy1, hy2⟩ := UIntToStr_year _ g4
  unfold ConvertFileTimeToString
  simp only [g1, hy1, hy2]
  rw [g5]
  unfold renderDateTime
  simp only
  have e1 : (mon + 1) % 2 ^ 32 = mon + 1 := by omega
  have e2 : (v + 1) % 2 ^ 32 = v + 1 := by omega
  rw [e1, e2, UIntToStr_2_eq (mon + 1) (by omega), UIntToStr_2_eq (v + 1) (by omega),
    UIntToStr_2_eq _ (by omega), UIntToStr_2_eq _ (by omega), UIntToStr_2_eq _ (by omega)]

theorem findIdx_nulfree (xs rest : List Nat) (h : ∀ x ∈ xs, x ≠ 0) :
    (xs ++ 0 :: rest).findIdx (· == 0) = xs.length := by
  induction xs with
  | nil => simp [List.findIdx_cons]
  | cons x xs ih =>
    have hx : x ≠ 0 := h x (List.mem_cons_self _ _)
    have := ih (fun y hy => h y (List.mem_cons_of_mem _ hy))
    have hb : (x == 0) = false := by simpa using hx
    rw [List.cons_append, List.findIdx_cons, hb, this]
    rfl

theorem strlen_nulfree (xs rest : List Nat) (h : ∀ x ∈ xs, x ≠ 0) :
    strlen (xs ++ 0 :: rest) = some xs.length := by
  unfold strlen
  rw [findIdx_nulfree xs rest h, if_pos (by simp)]

theorem strnlen_nulfree (xs rest : List Nat) (n : Nat) (h : ∀ x ∈ xs, x ≠ 0) (hn : xs.length ≤ n) :
    strnlen (xs ++ 0 :: rest) n = some xs.length := by
  unfold strnlen
  rw [findIdx_nulfree xs rest h, if_pos (by simp), min_eq_left hn]

theorem cstr_nulfree (xs rest : List Nat) (h : ∀ x ∈ xs, x ≠ 0) :
    cstr (xs ++ 0 :: rest) = xs := by
  unfold cstr
  induction xs with
  | nil => simp
  | cons x xs ih =>
    have hx : x ≠ 0 := h x (List.mem_cons_self _ _)
    have hb : decide (x ≠ 0) = true := by simpa using hx
    rw [List.cons_append, List.takeWhile_cons, hb]
    simp only [if_true]
    rw [ih (fun y hy => h y (List.mem_cons_of_mem _ hy))]

theorem poke_zeros (A R : List Nat) (k v : Nat) (hk : 1 ≤ k) :
    poke (A ++ List.replicate k 0 ++ R) A.length v
      = some (A ++ [v] ++ List.replicate (k - 1) 0 ++ R) := by
  obtain ⟨k, rfl⟩ : ∃ j, k = j + 1 := ⟨k - 1, by omega⟩
  unfold poke
  rw [if_pos (by simp)]
  simp [List.replicate_succ]

theorem strncat_spec (res : SRes) (ts it : Nat) (sts : List Nat) (A R X J : List Nat) (k n : Nat)
    (hA : ∀ x ∈ A, x ≠ 0) (hX : ∀ x ∈ X, x ≠ 0) (hn : X.length ≤ n) (hk : X.length + 1 ≤ k) :
    strncat ⟨res, ts, it, A ++ List.replicate k 0 ++ R, sts⟩ (X ++ 0 :: J) n
      = some ⟨res, ts, it, (A ++ X) ++ List.replicate (k - X.length) 0 ++ R,
          sts ++ List.range' A.length (X.length + 1)⟩ := by
  obtain ⟨j, rfl⟩ : ∃ j, k = X.length + 1 + j := ⟨k - (X.length + 1), by omega⟩
  have e1 : strlen (A ++ List.replicate (X.length + 1 + j) 0 ++ R) = some A.length := by
    have : A ++ List.replicate (X.length + 1 + j) 0 ++ R
        = A ++ 0 :: (List.replicate (X.length + j) 0 ++ R) := by
      have e : X.length + 1 + j = (X.length + j) + 1 := by omega
      rw [e, List.replicate_succ]; simp
    rw [this, strlen_nulfree A _ hA]
  unfold strncat
  simp only [e1, strnlen_nulfree X J n hX hn]
  have e2 : List.take X.length (X ++ 0 :: J) = X := by simp
  rw [e2, pokeAll_storesAt _ _ _ (by simp; omega)]
  simp only [Option.some.injEq, ListState.mk.injEq, true_and, and_true]
  have e3 : List.take A.length (A ++ List.replicate (X.length + 1 + j) 0 ++ R) = A := by
    rw [List.append_assoc, List.take_left']
    rfl
  have e4 : List.drop (A.length + (X ++ [0]).length) (A ++ List.replicate (X.length + 1 + j) 0 ++ R)
      = List.replicate j 0 ++ R := by
    rw [List.append_assoc, List.drop_append, List.length_append, List.length_singleton,
      List.drop_append_eq_append_drop, List.drop_replicate]
    simp
  rw [e3, e4]
  have e5 : X.length + 1 + j - X.length = j + 1 := by omega
  rw [e5, List.replicate_succ]
  simp

theorem replicate_zero_cons (A R : List Nat) (k : Nat) (hk : 1 ≤ k) :
    A ++ [0] ++ List.replicate (k - 1) 0 ++ R = A ++ List.replicate k 0 ++ R := by
  obtain ⟨j, rfl⟩ : ∃ j, k = j + 1 := ⟨k - 1, by omega⟩
  simp [List.replicate_succ]

theorem putTab_spec (res : SRes) (ts : Nat) (sts : List Nat) (A R : List Nat) (k : Nat)
    (hk : 2 ≤ k) :
    putTab ⟨res, ts, A.length, A ++ List.replicate k 0 ++ R, sts⟩
      = some ⟨res, ts, A.length, (A ++ [9]) ++ List.replicate (k - 1) 0 ++ R,
          sts ++ [A.length, A.length + 1]⟩ := by
  unfold putTab storeList
  simp only [poke_zeros A R k 9 (by omega), Option.bind]
  have h := poke_zeros (A ++ [9]) R (k - 1) 0 (by omega)
  rw [List.length_append, List.length_singleton] at h
  simp only [h]
  rw [replicate_zero_cons (A ++ [9]) R (k - 1) (by omega)]
  simp

theorem appendLine_spec (res : SRes) (ts : Nat) (sts : List Nat) (A R T At S N J : List Nat)
    (k bufSize : Nat)
    (hA : ∀ x ∈ A, x ≠ 0) (hT : ∀ x ∈ T, x ≠ 0) (hAt : ∀ x ∈ At, x ≠ 0) (hS : ∀ x ∈ S, x ≠ 0)
    (hN : ∀ x ∈ N, x ≠ 0) (hT2 : T.length ≤ 32) (hAt2 : At.length ≤ 8) (hS2 : S.length ≤ 32)
    (hN2 : N.length ≤ bufSize)
    (hk : T.length + At.length + S.length + N.length + 4 ≤ k) :
    ∃ sts2, appendLine ⟨res, ts, A.length, A ++ List.replicate k 0 ++ R, sts⟩
        (T ++ [0]) (At ++ [0]) (S ++ [0]) (N ++ 0 :: J) bufSize
      = some ⟨res, ts, A.length + (T.length + At.length + S.length + N.length + 4),
          (A ++ (T ++ [9] ++ At ++ [9] ++ S ++ [9] ++ N ++ [10]))
            ++ List.replicate (k - (T.length + At.length + S.length + N.length + 4)) 0 ++ R,
          sts ++ sts2⟩ ∧
        ∀ i ∈ sts2, i < A.length + (T.length + At.length + S.length + N.length + 4) := by
  have n9 : ∀ (B : List Nat), (∀ x ∈ B, x ≠ 0) → ∀ x ∈ B ++ [9], x ≠ 0 := by
    intro B hB x hx
    rcases List.mem_append.mp hx with h | h
    · exact hB x h
    · simp at h; omega
  have napp : ∀ (B C : List Nat), (∀ x ∈ B, x ≠ 0) → (∀ x ∈ C, x ≠ 0) → ∀ x ∈ B ++ C, x ≠ 0 := by
    intro B C hB hC x hx
    rcases List.mem_append.mp hx with h | h
    · exact hB x h
    · exact hC x h
  unfold appendLine
  simp only [strlen_nulfree T [] hT, strlen_nulfree At [] hAt, strlen_nulfree S [] hS,
    strlen_nulfree N J hN]
  -- column 1
  rw [strncat_spec res ts A.length sts A R T [] k 32 hA hT hT2 (by omega)]
  simp only [Option.bind, advance]
  have l1 : A.length + T.length = (A ++ T).length := by simp
  rw [l1, putTab_spec res ts _ (A ++ T) R (k - T.length) (by omega)]
  simp only
  -- column 2
  have hA1 := n9 _ (napp A T hA hT)
  rw [strncat_spec res ts _ _ (A ++ T ++ [9]) R At [] _ 8 hA1 hAt hAt2 (by omega)]
  simp only
  have l2 : (A ++ T).length + (At.length + 1) = (A ++ T ++ [9] ++ At).length := by
    simp; omega
  rw [l2, putTab_spec res ts _ (A ++ T ++ [9] ++ At) R _ (by omega)]
  simp only
  -- column 3
  have hA2 := n9 _ (napp _ At hA1 hAt)
  rw [strncat_spec res ts _ _ (A ++ T ++ [9] ++ At ++ [9]) R S [] _ 32 hA2 hS hS2 (by omega)]
  simp only
  have l3 : (A ++ T ++ [9] ++ At).length + (S.length + 1)
      = (A ++ T ++ [9] ++ At ++ [9] ++ S).length := by
    simp; omega
  rw [l3, putTab_spec res ts _ (A ++ T ++ [9] ++ At ++ [9] ++ S) R _ (by omega)]
  simp only
  -- column 4
  have hA3 := n9 _ (napp _ S hA2 hS)
  rw [strncat_spec res ts _ _ (A ++ T ++ [9] ++ At ++ [9] ++ S ++ [9]) R N J _ bufSize hA3 hN hN2
    (by omega)]
  simp only
  have l4 : (A ++ T ++ [9] ++ At ++ [9] ++ S).length + (N.length + 1)
      = (A ++ T ++ [9] ++ At ++ [9] ++ S ++ [9] ++ N).length := by
    simp; omega
  rw [l4]
  unfold storeList
  rw [poke_zeros (A ++ T ++ [9] ++ At ++ [9] ++ S ++ [9] ++ N) R _ 10 (by omega)]
  simp only
  refine ⟨List.range' A.length (T.length + 1) ++ [(A ++ T).length, (A ++ T).length + 1] ++
      List.range' (A ++ T ++ [9]).length (At.length + 1) ++
      [(A ++ T ++ [9] ++ At).length, (A ++ T ++ [9] ++ At).length + 1] ++
      List.range' (A ++ T ++ [9] ++ At ++ [9]).length (S.length + 1) ++
      [(A ++ T ++ [9] ++ At ++ [9] ++ S).length, (A ++ T ++ [9] ++ At ++ [9] ++ S).length + 1] ++
      List.range' (A ++ T ++ [9] ++ At ++ [9] ++ S ++ [9]).length (N.length + 1) ++
      [(A ++ T ++ [9] ++ At ++ [9] ++ S ++ [9] ++ N).length], ?_, ?_⟩
  · have c1 : k - T.length - 1 - At.length - 1 - S.length - 1 - N.length - 1
        = k - (T.length + At.length + S.length + N.length + 4) := by omega
    have c2 : (A ++ T ++ [9] ++ At ++ [9] ++ S ++ [9] ++ N).length + 1
        = A.length + (T.length + At.length + S.length + N.length + 4) := by
      simp only [List.length_append, List.length_singleton]; omega
    rw [c1, c2]
    simp only [List.append_assoc]
  · intro i hi
    simp only [List.mem_append, List.mem_range', List.mem_cons, List.mem_singleton,
      List.length_append, List.length_singleton, List.not_mem_nil, or_false] at hi
    omega

theorem cstr_split (xs : List Nat) :
    (∀ x ∈ cstr xs, x ≠ 0) ∧ ∃ rest, xs ++ [0] = cstr xs ++ 0 :: rest := by
  induction xs with
  | nil => exact ⟨by simp [cstr], [], by simp [cstr]⟩
  | cons x xs ih =>
    obtain ⟨h1, rest, h2⟩ := ih
    by_cases hx : x = 0
    · subst hx
      exact ⟨by simp [cstr], xs ++ [0], by simp [cstr]⟩
    · have hb : decide (x ≠ 0) = true := by simpa using hx
      have e : cstr (x :: xs) = x :: cstr xs := by
        unfold cstr; rw [List.takeWhile_cons, hb]; rfl
      rw [e]
      refine ⟨?_, rest, ?_⟩
      · intro y hy
        rcases List.mem_cons.mp hy with rfl | hy
        · exact hx
        · exact h1 y hy
      · rw [List.cons_append, h2]; rfl

theorem cstr_units (xs : List Nat) (h : Units16 xs) : Units16 (cstr xs) :=
  fun u hu => h u (List.takeWhile_subset _ hu)

theorem utf8EncodeOne_nulfree (c : Nat) (hc : c ≠ 0) : ∀ b ∈ utf8EncodeOne c, b ≠ 0 := by
  intro b hb
  unfold utf8EncodeOne at hb
  split_ifs at hb <;> simp at hb <;> omega

theorem utf8Encode_scanned_nulfree (src : List Nat) (h : ∀ u ∈ src, u ≠ 0) :
    ∀ b ∈ utf8Encode (scanned src), b ≠ 0 := by
  induction src using goodLen.induct with
  | case1 => simp [scanned, utf8Encode]
  | case2 u rest hu ih =>
    rw [scanned_cons_bmp _ _ hu, utf8Encode]
    intro b hb
    rcases List.mem_append.mp hb with hb | hb
    · exact utf8EncodeOne_nulfree u (h u (List.mem_cons_self _ _)) b hb
    · exact ih (fun v hv => h v (List.mem_cons_of_mem _ hv)) b hb
  | case3 u h1 h2 => rw [scanned_high_last _ ⟨by omega, h2⟩]; simp [utf8Encode]
  | case4 u h1 h2 l rest2 h3 ih =>
    rw [scanned_pair _ _ _ ⟨by omega, h2⟩ h3, utf8Encode]
    intro b hb
    rcases List.mem_append.mp hb with hb | hb
    · exact utf8EncodeOne_nulfree _ (by omega) b hb
    · exact ih (fun v hv => h v (List.mem_cons_of_mem _ (List.mem_cons_of_mem _ hv))) b hb
  | case5 u h1 h2 l rest2 h3 => rw [scanned_high_bad _ _ _ ⟨by omega, h2⟩ h3]; simp [utf8Encode]
  | case6 u rest h1 h2 => rw [scanned_cons_low _ _ (by omega)]; simp [utf8Encode]

/-- What `Utf16_To_Char` leaves for a name held as `name ++ [0]`, starting
from an empty `CBuf`. -/
theorem Utf16_To_Char_name (alloc : Allocator) (name : List Nat) (hU : Units16 name) :
    Utf16_To_Char alloc [] (name ++ [0]) =
      match alloc ((utf8Encode (scanned (cstr name))).length + 1) with
      | none => some (SRes.SZ_ERROR_MEM, [])
      | some _ => some (if (Utf16_To_Utf8 true (cstr name)).ok then SRes.SZ_OK
          else SRes.SZ_ERROR_FAIL, (Utf16_To_Utf8 true (cstr name)).bytes ++ [0]) := by
  obtain ⟨hn, rest, hsplit⟩ := cstr_split name
  have hU2 := cstr_units name hU
  unfold Utf16_To_Char
  rw [hsplit, strlen_nulfree _ _ hn]
  simp only [List.take_left']
  rw [Utf16_To_Utf8Buf_spec alloc [] _ hU2, Utf16_To_Utf8_spec true _ hU2]
  simp only [Utf8Run.bytes, storesAt_true_snd, Buf_EnsureSize, List.length_nil, ge_iff_le,
    Nat.le_zero_eq, Nat.add_one_ne_zero, if_false, Buf_Create]
  cases alloc ((utf8Encode (scanned (cstr name))).length + 1) with
  | none => simp
  | some fill =>
    simp only [if_true, decide_eq_true_eq]
    rw [List.drop_of_length_le (by simp)]
    simp

theorem zeroPad_length (w : Nat) (ds : List Nat) : (zeroPad w ds).length = max w ds.length := by
  unfold zeroPad
  simp only [List.length_append, List.length_replicate]
  omega

theorem zeroPad_digits (w n : Nat) : ∀ c ∈ zeroPad w (decimal n), 48 ≤ c ∧ c ≤ 57 := by
  intro c hc
  unfold zeroPad at hc
  rcases List.mem_append.mp hc with h | h
  · have := List.eq_of_mem_replicate h
    omega
  · exact decimal_digits n c h

theorem zeroPad_two_length (n : Nat) (h : n < 100) : (zeroPad 2 (decimal n)).length = 2 := by
  rw [zeroPad_length]
  have h1 := (decimal_length_le_iff n 2 (by norm_num)).2 (by omega)
  omega

theorem year_digits (t : Nat) (ht : t < 2 ^ 64) :
    (zeroPad 4 (decimal (splitFileTime (CNtfsFileTime.ofTicks t)).year)).length
      = (if t < 2650467744000000000 then 4 else 5) := by
  obtain ⟨-, -, -, h4, -, h6, h7⟩ := splitFileTime_spec t ht
  unfold CNtfsFileTime.ofTicks
  generalize (splitFileTime ⟨t % 2 ^ 32, t / 2 ^ 32⟩).year = y at *
  generalize (splitFileTime ⟨t % 2 ^ 32, t / 2 ^ 32⟩).v = v at *
  have b1 : daysBeforeYear 10000 = 3067671 := by decide
  have b2 : daysBeforeYear 100000 = 35939496 := by decide
  have hnext := daysBeforeYear_succ y h4
  have hv : daysBeforeYear y + v < daysBeforeYear (y + 1) := by
    rw [hnext]; split_ifs at h7 ⊢ <;> omega
  rw [zeroPad_length]
  have hlt5 : y < 100000 := by
    by_contra hc
    have := daysBeforeYear_mono 100000 y (by norm_num) (by omega)
    omega
  have l5 := (decimal_length_le_iff y 5 (by norm_num)).2 (by omega)
  split_ifs with hB
  · have hy : y < 10000 := by
      by_contra hc
      have := daysBeforeYear_mono 10000 y (by norm_num) (by omega)
      omega
    have l4 := (decimal_length_le_iff y 4 (by norm_num)).2 (by omega)
    omega
  · have hy : 10000 ≤ y := by
      by_contra hc
      have := daysBeforeYear_mono (y + 1) 10000 (by omega) (by omega)
      omega
    have l4 : ¬ (decimal y).length ≤ 4 := fun hc =>
      absurd ((decimal_length_le_iff y 4 (by norm_num)).1 hc) (by omega)
    omega

theorem timestamp_layout (t : Nat) (ht : t < 2 ^ 64) :
    ∃ Y M D H Mi S : List Nat,
      ConvertFileTimeToString (CNtfsFileTime.ofTicks t)
        = some (Y ++ [45] ++ M ++ [45] ++ D ++ [32] ++ H ++ [58] ++ Mi ++ [58] ++ S ++ [0]) ∧
      Y.length = (if t < 2650467744000000000 then 4 else 5) ∧
      M.length = 2 ∧ D.length = 2 ∧ H.length = 2 ∧ Mi.length = 2 ∧ S.length = 2 ∧
      ∀ c ∈ Y ++ M ++ D ++ H ++ Mi ++ S, 48 ≤ c ∧ c ≤ 57 := by
  obtain ⟨mon, v, g1, g2, g3, g4, g5⟩ := ConvertFileTimeToString_fields t ht
  obtain ⟨h1, h2, h3, -⟩ := splitFileTime_spec t ht
  have hdim : daysInMonth (splitFileTime ⟨t % 2 ^ 32, t / 2 ^ 32⟩).year (mon + 1) ≤ 31 := by
    unfold daysInMonth; split_ifs <;> omega
  have hy := year_digits t ht
  have heq := ConvertFileTimeToString_eq t ht
  unfold CNtfsFileTime.ofTicks at hy ⊢
  rw [heq, g5]
  unfold renderDateTime
  simp only
  refine ⟨_, _, _, _, _, _, rfl, hy, zeroPad_two_length _ (by omega),
    zeroPad_two_length _ (by omega), zeroPad_two_length _ (by omega),
    zeroPad_two_length _ (by omega), zeroPad_two_length _ (by omega), ?_⟩
  intro c hc
  simp only [List.mem_append] at hc
  rcases hc with ((((hc | hc) | hc) | hc) | hc) | hc <;> exact zeroPad_digits _ _ c hc

theorem ofTicks_halves (nt : CNtfsFileTime) (h1 : nt.Low < 2 ^ 32) (h2 : nt.High < 2 ^ 32) :
    nt = CNtfsFileTime.ofTicks (nt.Low + nt.High * 2 ^ 32) ∧ nt.Low + nt.High * 2 ^ 32 < 2 ^ 64 := by
  obtain ⟨lo, hi⟩ := nt
  simp only at h1 h2
  show (⟨lo, hi⟩ : CNtfsFileTime) = ⟨(lo + hi * 2 ^ 32) % 2 ^ 32, (lo + hi * 2 ^ 32) / 2 ^ 32⟩
    ∧ lo + hi * 2 ^ 32 < 2 ^ 64
  refine ⟨?_, by omega⟩
  congr 1 <;> omega

theorem timeColumn_spec (mtime : Option CNtfsFileTime)
    (h : ∀ nt, mtime = some nt → nt.Low < 2 ^ 32 ∧ nt.High < 2 ^ 32) :
    ∃ T, timeColumn mtime = some (T ++ [0]) ∧ (∀ x ∈ T, x ≠ 0) ∧ T.length ≤ 32 := by
  cases mtime with
  | none =>
    refine ⟨List.replicate 19 32, rfl, ?_, by simp⟩
    intro x hx
    have := List.eq_of_mem_replicate hx
    omega
  | some nt =>
    obtain ⟨h1, h2⟩ := h nt rfl
    obtain ⟨e, ht⟩ := ofTicks_halves nt h1 h2
    obtain ⟨Y, M, D, H, Mi, S, g, gy, gm, gd, gh, gi, gs, gdig⟩ := timestamp_layout _ ht
    rw [← e] at g
    refine ⟨Y ++ [45] ++ M ++ [45] ++ D ++ [32] ++ H ++ [58] ++ Mi ++ [58] ++ S, g, ?_, ?_⟩
    · intro x hx
      simp only [List.mem_append, List.mem_singleton] at hx gdig
      have hd := gdig x
      rcases hx with ((((((((((hx | hx) | hx) | hx) | hx) | hx) | hx) | hx) | hx) | hx) | hx) <;>
        first
        | omega
        | (have hdx := hd (by tauto); omega)
    · simp only [List.length_append, List.length_singleton, gy, gm, gd, gh, gi, gs]
      split_ifs <;> omega

theorem sizeColumn_spec (size : Nat) (h : size < 2 ^ 64) :
    UInt64ToStr size = some (decimal size ++ [0]) ∧ (∀ x ∈ decimal size, x ≠ 0) ∧
      (decimal size).length ≤ 32 := by
  refine ⟨UInt64ToStr_eq size h, ?_, ?_⟩
  · intro x hx
    have := decimal_digits size x hx
    omega
  · have := (decimal_length_le_iff size 20 (by norm_num)).2 (by omega)
    omega

theorem line_nulfree (T At S N : List Nat) (hT : ∀ x ∈ T, x ≠ 0) (hAt : ∀ x ∈ At, x ≠ 0)
    (hS : ∀ x ∈ S, x ≠ 0) (hN : ∀ x ∈ N, x ≠ 0) :
    ∀ x ∈ T ++ [9] ++ At ++ [9] ++ S ++ [9] ++ N ++ [10], x ≠ 0 := by
  intro x hx
  simp only [List.mem_append, List.mem_singleton] at hx
  rcases hx with ((((((hx | hx) | hx) | hx) | hx) | hx) | hx) | hx
  · exact hT x hx
  · omega
  · exact hAt x hx
  · omega
  · exact hS x hx
  · omega
  · exact hN x hx
  · omega

/-- One turn of the loop body on a buffer that holds the report `A` followed
by zeros up to the capacity: the line of the entry is appended exactly when
it fits, and every store stays below the capacity. -/
theorem listEntry_spec (h : Heap) (cap i : Nat) (e : Entry) (res : SRes) (ts : Nat)
    (sts A R : List Nat)
    (he : e.size < 2 ^ 64 ∧ Units16 e.name ∧
      ∀ nt, e.mtime = some nt → nt.Low < 2 ^ 32 ∧ nt.High < 2 ^ 32)
    (hA : ∀ x ∈ A, x ≠ 0) (hcap : A.length ≤ cap) :
    ∃ res2 sts2,
      listEntry h cap i e ⟨res, ts, A.length, A ++ List.replicate (cap - A.length) 0 ++ R, sts⟩
        = some ⟨res2, ts, (report cap [lineOf h i e] A).length,
            report cap [lineOf h i e] A
              ++ List.replicate (cap - (report cap [lineOf h i e] A).length) 0 ++ R,
            sts ++ sts2⟩ ∧
      (∀ j ∈ sts2, j < cap) ∧ (∀ x ∈ report cap [lineOf h i e] A, x ≠ 0) ∧
      (report cap [lineOf h i e] A).length ≤ cap ∧
      (res2 = SRes.SZ_OK ↔ (lineOf h i e).isSome = true) := by
  obtain ⟨hsz, hU, htm⟩ := he
  obtain ⟨T, hT1, hT2, hT3⟩ := timeColumn_spec e.mtime htm
  obtain ⟨hS1, hS2, hS3⟩ := sizeColumn_spec e.size hsz
  have hname := Utf16_To_Char_name (h.bufAlloc i) e.name hU
  have hUc := cstr_units e.name hU
  have hNn : ∀ b ∈ (Utf16_To_Utf8 true (cstr e.name)).bytes, b ≠ 0 := by
    rw [Utf16_To_Utf8_spec true _ hUc]
    simp only [Utf8Run.bytes, storesAt_true_snd]
    exact utf8Encode_scanned_nulfree _ (cstr_split e.name).1
  unfold listEntry lineOf
  rw [hT1, hS1, hname]
  cases halloc : h.bufAlloc i ((utf8Encode (scanned (cstr e.name))).length + 1) with
  | none =>
    simp only [report]
    exact ⟨SRes.SZ_ERROR_MEM, [], by simp, by simp, hA, hcap, by simp⟩
  | some fill =>
    simp only
    by_cases hok : (Utf16_To_Utf8 true (cstr e.name)).ok = true
    · simp only [hok, if_true]
      generalize (Utf16_To_Utf8 true (cstr e.name)).bytes = N at *
      have c1 : cstr (T ++ [0]) = T := cstr_nulfree T [] hT2
      have c2 : cstr (decimal e.size ++ [0]) = decimal e.size := cstr_nulfree _ [] hS2
      have c3 : cstr (N ++ [0]) = N := cstr_nulfree _ [] hNn
      have c4 : cstr (GetAttribString (e.attrib.getD 0) e.isDir) = [] := rfl
      have c5 : GetAttribString (e.attrib.getD 0) e.isDir = [] ++ [0] := rfl
      rw [c1, c2, c3, c4]
      unfold tryAppend
      rw [c5]
      simp only [strlen_nulfree T [] hT2, strlen_nulfree (decimal e.size) [] hS2,
        strlen_nulfree N [] hNn, strlen_nulfree [] [] (by simp)]
      simp only [report, List.length_append, List.length_singleton, List.length_nil,
        List.append_nil]
      by_cases hfit : A.length + (T.length + 0 + (decimal e.size).length + N.length + 3) < cap
      · have hfit2 : A.length + (T.length + 1 + 1 + (decimal e.size).length + 1 + N.length + 1)
            ≤ cap := by omega
        rw [if_pos hfit, if_pos hfit2]
        obtain ⟨sts2, hap, hst⟩ := appendLine_spec SRes.SZ_OK ts sts A R T [] (decimal e.size) N []
          (cap - A.length) (N.length + 1) hA hT2 (by simp) hS2 hNn hT3 (by simp) hS3 (by omega)
          (by simp only [List.length_nil]; omega)
        rw [hap]
        refine ⟨SRes.SZ_OK, sts2, ?_, ?_, ?_, ?_, by simp⟩
        · simp only [List.length_nil, List.append_nil, Option.some.injEq, ListState.mk.injEq,
            true_and, and_true, List.length_append, List.length_singleton]
          refine ⟨by omega, ?_⟩
          have ek : cap - A.length - (T.length + 0 + (decimal e.size).length + N.length + 4)
              = cap - (A.length + (T.length + 1 + 1 + (decimal e.size).length + 1 + N.length + 1)) := by
            omega
          rw [ek]
        · intro j hj
          have := hst j hj
          simp only [List.length_nil] at this
          omega
        · intro x hx
          rcases List.mem_append.mp hx with hx | hx
          · exact hA x hx
          · exact line_nulfree T [] (decimal e.size) N hT2 (by simp) hS2 hNn x
              (by simpa using hx)
        · simp only [List.length_append, List.length_singleton]
          omega
      · have hfit2 : ¬ A.length + (T.length + 1 + 1 + (decimal e.size).length + 1 + N.length + 1)
            ≤ cap := by omega
        rw [if_neg hfit, if_neg hfit2]
        exact ⟨SRes.SZ_OK, [], by simp, by simp, hA, hcap, by simp⟩
    · simp only [hok, if_false, Bool.false_eq_true]
      simp only [report]
      exact ⟨SRes.SZ_ERROR_FAIL, [], by simp, by simp, hA, hcap, by simp⟩

theorem report_cons (cap : Nat) (l : Option (List Nat)) (ls : List (Option (List Nat)))
    (A : List Nat) : report cap (l :: ls) A = report cap ls (report cap [l] A) := by
  cases l with
  | none => simp [report]
  | some l =>
    simp only [report]
    split_ifs <;> rfl

/-- The loop of `SzxList` on a buffer that holds the report `A` followed by
zeros up to the capacity: it leaves the report extended by the lines that
fit, followed by zeros, and stores nowhere at or beyond the capacity. -/
theorem SzxList_loop_spec (h : Heap) (cap : Nat) (db : List Entry) (hdb : WellTyped db)
    (i : Nat) (res : SRes) (ts : Nat) (sts A R : List Nat)
    (hA : ∀ x ∈ A, x ≠ 0) (hcap : A.length ≤ cap) :
    ∃ res2 ts2 sts2,
      SzxList_loop h cap db i ⟨res, ts, A.length, A ++ List.replicate (cap - A.length) 0 ++ R, sts⟩
        = some ⟨res2, ts2, (report cap (loopLines h db i ts) A).length,
            report cap (loopLines h db i ts) A
              ++ List.replicate (cap - (report cap (loopLines h db i ts) A).length) 0 ++ R,
            sts ++ sts2⟩ ∧
      (∀ j ∈ sts2, j < cap) ∧ (report cap (loopLines h db i ts) A).length ≤ cap := by
  induction db generalizing i res ts sts A with
  | nil => exact ⟨res, ts, [], by simp [SzxList_loop, loopLines, report], by simp, hcap⟩
  | cons e rest ih =>
    have he := hdb e (List.mem_cons_self _ _)
    have hrest : WellTyped rest := fun x hx => hdb x (List.mem_cons_of_mem _ hx)
    rw [SzxList_loop, loopLines]
    by_cases hbrk : e.name.length + 1 > ts ∧ h.tempOk i = false
    · simp only [hbrk, and_self, if_true]
      exact ⟨SRes.SZ_ERROR_MEM, e.name.length + 1, [], by simp [report], by simp, hcap⟩
    · rw [if_neg hbrk, if_neg hbrk, report_cons]
      have hts : (if e.name.length + 1 > ts then
            ({ res := res, tempSize := e.name.length + 1, listIt := A.length,
               list := A ++ List.replicate (cap - A.length) 0 ++ R, stores := sts } : ListState)
          else ⟨res, ts, A.length, A ++ List.replicate (cap - A.length) 0 ++ R, sts⟩)
          = ⟨res, max ts (e.name.length + 1), A.length,
              A ++ List.replicate (cap - A.length) 0 ++ R, sts⟩ := by
        split_ifs with hc
        · rw [max_eq_right (by omega)]
        · rw [max_eq_left (by omega)]
      simp only [hts]
      obtain ⟨res2, sts2, h1, h2, h3, h4, -⟩ :=
        listEntry_spec h cap i e res (max ts (e.name.length + 1)) sts A R he hA hcap
      rw [h1]
      simp only
      obtain ⟨res3, ts3, sts3, g1, g2, g3⟩ :=
        ih hrest (i + 1) res2 (max ts (e.name.length + 1)) (sts ++ sts2) _ h3 h4
      rw [g1]
      refine ⟨res3, ts3, sts2 ++ sts3, by simp, ?_, g3⟩
      intro j hj
      rcases List.mem_append.mp hj with hj | hj
      · exact h2 j hj
      · exact g2 j hj

theorem SzxList_spec (h : Heap) (cap : Nat) (db : List Entry) (hdb : WellTyped db)
    (R : List Nat) :
    ∃ res sts,
      SzxList h true (Except.ok db) (List.replicate cap 0 ++ R) cap
        = some ⟨res, report cap (loopLines h db 0 0) []
              ++ List.replicate (cap - (report cap (loopLines h db 0 0) []).length) 0 ++ R,
            (report cap (loopLines h db 0 0) []).length, sts⟩ ∧
      (∀ j ∈ sts, j < cap) ∧ (report cap (loopLines h db 0 0) []).length ≤ cap := by
  obtain ⟨res2, ts2, sts2, h1, h2, h3⟩ :=
    SzxList_loop_spec h cap db hdb 0 SRes.SZ_OK 0 [] [] R (by simp) (by simp)
  simp only [List.length_nil, List.nil_append, Nat.sub_zero] at h1
  unfold SzxList
  simp only [not_true_eq_false, if_false, h1]
  exact ⟨res2, sts2, rfl, h2, h3⟩

theorem lineOf_eq_entryLine (h : Heap) (i : Nat) (e : Entry) (hU : Units16 e.name)
    (ha : ∀ n, (h.bufAlloc i n).isSome = true) : lineOf h i e = entryLine e := by
  have hname := Utf16_To_Char_name (h.bufAlloc i) e.name hU
  have hUc := cstr_units e.name hU
  have hNn : ∀ b ∈ (Utf16_To_Utf8 true (cstr e.name)).bytes, b ≠ 0 := by
    rw [Utf16_To_Utf8_spec true _ hUc]
    simp only [Utf8Run.bytes, storesAt_true_snd]
    exact utf8Encode_scanned_nulfree _ (cstr_split e.name).1
  unfold lineOf entryLine
  rw [hname]
  obtain ⟨fill, hf⟩ := Option.isSome_iff_exists.mp
    (ha ((utf8Encode (scanned (cstr e.name))).length + 1))
  rw [hf]
  cases timeColumn e.mtime with
  | none => rfl
  | some t =>
    cases UInt64ToStr e.size with
    | none => rfl
    | some s =>
      simp only
      by_cases hok : (Utf16_To_Utf8 true (cstr e.name)).ok = true
      · simp only [hok, if_true, cstr_nulfree _ [] hNn]
      · simp only [hok, if_false, Bool.false_eq_true]
        simp

theorem loopLines_eq_map (h : Heap) (db : List Entry) (hdb : WellTyped db)
    (ha : NoAllocFailure h) (i ts : Nat) : loopLines h db i ts = db.map entryLine := by
  induction db generalizing i ts with
  | nil => rfl
  | cons e rest ih =>
    have he := hdb e (List.mem_cons_self _ _)
    have hrest : WellTyped rest := fun x hx => hdb x (List.mem_cons_of_mem _ hx)
    rw [loopLines, if_neg (by simp [(ha i).1]), lineOf_eq_entryLine h i e he.2.1 (ha i).2,
      ih hrest, List.map_cons]

theorem readDecimal_zeroPad (w n : Nat) : readDecimal (zeroPad w (decimal n)) = n := by
  unfold zeroPad readDecimal
  rw [List.foldl_append]
  have e : List.foldl (fun a c => 10 * a + (c - 48)) 0
      (List.replicate (w - (decimal n).length) 48) = 0 := by
    generalize w - (decimal n).length = k
    induction k with
    | zero => rfl
    | succ k ih => rw [List.replicate_succ, List.foldl_cons]; simpa using ih
  rw [e]
  exact readDecimal_decimal n

theorem report_all_fit (cap : Nat) (lines : List (List Nat)) (rest : List (Option (List Nat)))
    (acc : List Nat) (h : acc.length + lines.flatten.length ≤ cap) :
    report cap (lines.map some ++ rest) acc = report cap rest (acc ++ lines.flatten) := by
  induction lines generalizing acc with
  | nil => simp
  | cons l ls ih =>
    simp only [List.flatten_cons, List.length_append] at h
    rw [List.map_cons, List.cons_append, report, if_pos (by omega),
      ih (acc ++ l) (by simp only [List.length_append]; omega)]
    simp

theorem entryLine_ne_nil (e : Entry) (l : List Nat) (h : entryLine e = some l) : l ≠ [] := by
  unfold entryLine at h
  split at h
  · split_ifs at h
    simp only [Option.some.injEq] at h
    rw [← h]
    simp
  · simp at h

theorem timeColumn_format (mtime : Option CNtfsFileTime)
    (h : ∀ nt, mtime = some nt → nt.Low < 2 ^ 32 ∧ nt.High < 2 ^ 32) :
    ∃ T, timeColumn mtime = some (T ++ [0]) ∧ (∀ x ∈ T, x ≠ 0) ∧
      (mtime = none → T = List.replicate 19 32) ∧
      (∀ nt, mtime = some nt → ConvertFileTimeToString nt = some (T ++ [0]) ∧
        T.length = if nt.Low + nt.High * 2 ^ 32 < 2650467744000000000 then 19 else 20) := by
  cases mtime with
  | none =>
    refine ⟨List.replicate 19 32, rfl, ?_, fun _ => rfl, by simp⟩
    intro x hx
    have := List.eq_of_mem_replicate hx
    omega
  | some nt =>
    obtain ⟨T, h1, h2, -⟩ := timeColumn_spec (some nt) h
    obtain ⟨a1, a2⟩ := h nt rfl
    obtain ⟨e, ht⟩ := ofTicks_halves nt a1 a2
    obtain ⟨Y, M, D, H, Mi, S, g, gy, gm, gd, gh, gi, gs, -⟩ := timestamp_layout _ ht
    rw [← e] at g
    have h1' : ConvertFileTimeToString nt = some (T ++ [0]) := h1
    refine ⟨T, h1, h2, by simp, ?_⟩
    intro nt2 hnt
    simp only [Option.some.injEq] at hnt
    subst hnt
    refine ⟨h1', ?_⟩
    rw [g] at h1'
    simp only [Option.some.injEq] at h1'
    have hT : T = Y ++ [45] ++ M ++ [45] ++ D ++ [32] ++ H ++ [58] ++ Mi ++ [58] ++ S :=
      (List.append_cancel_right h1').symm
    rw [hT]
    simp only [List.length_append, List.length_singleton, gy, gm, gd, gh, gi, gs]
    split_ifs <;> rfl

/-- The columns of the line of a well-typed entry. -/
theorem entryLine_format (e : Entry) (l : List Nat)
    (he : e.size < 2 ^ 64 ∧ Units16 e.name ∧
      ∀ nt, e.mtime = some nt → nt.Low < 2 ^ 32 ∧ nt.High < 2 ^ 32)
    (hl : entryLine e = some l) :
    ∃ T S, timeColumn e.mtime = some (T ++ [0]) ∧ UInt64ToStr e.size = some (S ++ [0]) ∧
      (Utf16_To_Utf8 true (cstr e.name)).ok = true ∧
      l = T ++ [9] ++ cstr (GetAttribString (e.attrib.getD 0) e.isDir) ++ [9] ++ S ++ [9]
        ++ (Utf16_To_Utf8 true (cstr e.name)).bytes ++ [10] ∧
      (e.mtime = none → T = List.replicate 19 32) ∧
      (∀ nt, e.mtime = some nt → ConvertFileTimeToString nt = some (T ++ [0]) ∧
        T.length = if nt.Low + nt.High * 2 ^ 32 < 2650467744000000000 then 19 else 20) := by
  obtain ⟨hsz, hU, htm⟩ := he
  obtain ⟨T, hT1, hT2, hT3, hT4⟩ := timeColumn_format e.mtime htm
  obtain ⟨hS1, hS2, -⟩ := sizeColumn_spec e.size hsz
  unfold entryLine at hl
  rw [hT1, hS1] at hl
  simp only at hl
  by_cases hok : (Utf16_To_Utf8 true (cstr e.name)).ok = true
  · rw [if_pos hok, cstr_nulfree T [] hT2, cstr_nulfree _ [] hS2] at hl
    simp only [Option.some.injEq] at hl
    exact ⟨T, decimal e.size, hT1, hS1, hok, hl.symm, hT3, hT4⟩
  · rw [if_neg hok] at hl
    cases hl

theorem lineOf_some (h : Heap) (i : Nat) (e : Entry) (l : List Nat) (hU : Units16 e.name)
    (hl : lineOf h i e = some l) : entryLine e = some l := by
  cases ha : h.bufAlloc i ((utf8Encode (scanned (cstr e.name))).length + 1) with
  | none =>
    exfalso
    have hname := Utf16_To_Char_name (h.bufAlloc i) e.name hU
    rw [ha] at hname
    unfold lineOf at hl
    rw [hname] at hl
    cases ht : timeColumn e.mtime with
    | none => rw [ht] at hl; cases hl
    | some t =>
      cases hs : UInt64ToStr e.size with
      | none => rw [ht, hs] at hl; cases hl
      | some s =>
        rw [ht, hs] at hl
        simp at hl
  | some fill =>
    have hname := Utf16_To_Char_name (h.bufAlloc i) e.name hU
    rw [ha] at hname
    have hUc := cstr_units e.name hU
    have hNn : ∀ b ∈ (Utf16_To_Utf8 true (cstr e.name)).bytes, b ≠ 0 := by
      rw [Utf16_To_Utf8_spec true _ hUc]
      simp only [Utf8Run.bytes, storesAt_true_snd]
      exact utf8Encode_scanned_nulfree _ (cstr_split e.name).1
    rw [← hl]
    unfold lineOf entryLine
    rw [hname]
    cases timeColumn e.mtime with
    | none => rfl
    | some t =>
      cases UInt64ToStr e.size with
      | none => rfl
      | some s =>
        simp only
        by_cases hok : (Utf16_To_Utf8 true (cstr e.name)).ok = true
        · simp only [hok, if_true, cstr_nulfree _ [] hNn]
        · simp only [hok, if_false, Bool.false_eq_true]
          simp

/-- The report built from the lines of the entries reached is made of the
lines of a selection of the entries, in table order. -/
theorem report_loopLines_selection (h : Heap) (cap : Nat) (db : List Entry) (hdb : WellTyped db)
    (i ts : Nat) (acc : List Nat) :
    ∃ sel : List (Entry × List Nat),
      (sel.map Prod.fst).Sublist db ∧ (∀ p ∈ sel, entryLine p.1 = some p.2) ∧
      report cap (loopLines h db i ts) acc = acc ++ (sel.map Prod.snd).flatten := by
  induction db generalizing i ts acc with
  | nil => exact ⟨[], by simp, by simp, by simp [loopLines, report]⟩
  | cons e rest ih =>
    have he := hdb e (List.mem_cons_self _ _)
    have hrest : WellTyped rest := fun x hx => hdb x (List.mem_cons_of_mem _ hx)
    rw [loopLines]
    by_cases hbrk : e.name.length + 1 > ts ∧ h.tempOk i = false
    · rw [if_pos hbrk]
      exact ⟨[], by simp, by simp, by simp [report]⟩
    · rw [if_neg hbrk]
      cases hl : lineOf h i e with
      | none =>
        obtain ⟨sel, h1, h2, h3⟩ := ih hrest (i + 1) (max ts (e.name.length + 1)) acc
        exact ⟨sel, List.Sublist.cons _ h1, h2, by simpa [report] using h3⟩
      | some l =>
        simp only [report]
        split_ifs
        · obtain ⟨sel, h1, h2, h3⟩ := ih hrest (i + 1) (max ts (e.name.length + 1)) (acc ++ l)
          refine ⟨(e, l) :: sel, by simpa using h1, ?_, ?_⟩
          · intro p hp
            rcases List.mem_cons.mp hp with rfl | hp
            · exact lineOf_some h i e l he.2.1 hl
            · exact h2 p hp
          · rw [h3]; simp
        · obtain ⟨sel, h1, h2, h3⟩ := ih hrest (i + 1) (max ts (e.name.length + 1)) acc
          exact ⟨sel, List.Sublist.cons _ h1, h2, h3⟩

/-! ### Order of the timestamp strings -/

theorem lexLt_irrefl (s : List Nat) : lexLt s s = false := by
  induction s with
  | nil => rfl
  | cons a s ih => simp [lexLt, ih]

theorem lexLt_trans (s t u : List Nat) (h1 : lexLt s t = true) (h2 : lexLt t u = true) :
    lexLt s u = true := by
  induction s generalizing t u with
  | nil =>
    cases t with
    | nil => simp [lexLt] at h1
    | cons b t =>
      cases u with
      | nil => simp [lexLt] at h2
      | cons c u => rfl
  | cons a s ih =>
    cases t with
    | nil => simp [lexLt] at h1
    | cons b t =>
      cases u with
      | nil => simp [lexLt] at h2
      | cons c u =>
        simp only [lexLt, Bool.or_eq_true, Bool.and_eq_true, decide_eq_true_eq] at h1 h2 ⊢
        rcases h1 with h1 | ⟨h1, h1'⟩
        · rcases h2 with h2 | ⟨h2, -⟩
          · left; omega
          · left; omega
        · rcases h2 with h2 | ⟨h2, h2'⟩
          · left; omega
          · right; exact ⟨by omega, ih t u h1' h2'⟩

theorem lexLt_le (s t : List Nat) (h : lexLt s t = true) : lexLe s t = true := by
  induction s generalizing t with
  | nil => cases t <;> rfl
  | cons a s ih =>
    cases t with
    | nil => simp [lexLt] at h
    | cons b t =>
      simp only [lexLt, lexLe, Bool.or_eq_true, Bool.and_eq_true, decide_eq_true_eq] at h ⊢
      rcases h with h | ⟨h, h'⟩
      · left; exact h
      · right; exact ⟨h, ih t h'⟩

theorem lexLe_refl (s : List Nat) : lexLe s s = true := by
  induction s with
  | nil => rfl
  | cons a s ih => simp [lexLe, ih]

theorem lexLt_ne (s t : List Nat) (h : lexLt s t = true) : s ≠ t := by
  intro e
  subst e
  rw [lexLt_irrefl] at h
  exact Bool.noConfusion h

theorem zeroPad_two (n : Nat) (h : n < 100) :
    zeroPad 2 (decimal n) = [48 + n / 10, 48 + n % 10] := by
  by_cases h1 : n < 10
  · rw [decimal_lt_ten n h1]
    have e1 : n / 10 = 0 := by omega
    have e2 : n % 10 = n := by omega
    rw [e1, e2]
    rfl
  · rw [decimal_two_digits n (by omega) h]
    rfl

theorem zeroPad_four (n : Nat) (h1 : 1000 ≤ n) (h2 : n < 10000) :
    zeroPad 4 (decimal n) = [48 + n / 1000, 48 + n / 100 % 10, 48 + n / 10 % 10, 48 + n % 10] := by
  unfold decimal
  rw [if_neg (by omega), Nat.digits_def' (by norm_num) (by omega),
    Nat.digits_def' (by norm_num) (by omega), Nat.digits_def' (by norm_num) (by omega),
    Nat.digits_of_lt 10 (n / 10 / 10 / 10) (by omega) (by omega)]
  have e1 : n / 10 / 10 / 10 = n / 1000 := by omega
  have e2 : n / 10 / 10 % 10 = n / 100 % 10 := by omega
  rw [e1, e2]
  rfl

theorem renderDateTime_explicit (d : DateTime) (hd : ValidDateTime d) (hy : d.year < 10000) :
    renderDateTime d = [48 + d.year / 1000, 48 + d.year / 100 % 10, 48 + d.year / 10 % 10,
      48 + d.year % 10, 45, 48 + d.month / 10, 48 + d.month % 10, 45,
      48 + d.day / 10, 48 + d.day % 10, 32, 48 + d.hour / 10, 48 + d.hour % 10, 58,
      48 + d.minute / 10, 48 + d.minute % 10, 58, 48 + d.second / 10, 48 + d.second % 10, 0] := by
  obtain ⟨a1, a2, a3, a4, a5, a6, a7, a8⟩ := hd
  have hdim : daysInMonth d.year d.month ≤ 31 := by
    unfold daysInMonth; split_ifs <;> omega
  unfold renderDateTime
  rw [zeroPad_four _ (by omega) hy, zeroPad_two _ (by omega), zeroPad_two _ (by omega),
    zeroPad_two _ (by omega), zeroPad_two _ (by omega), zeroPad_two _ (by omega)]
  rfl

theorem lexLt_cons (a b : Nat) (s t : List Nat) :
    lexLt (a :: s) (b :: t) = true ↔ a < b ∨ (a = b ∧ lexLt s t = true) := by
  simp only [lexLt, Bool.or_eq_true, Bool.and_eq_true, decide_eq_true_eq]

theorem lexLt_pair (a1 a0 b1 b0 : Nat) (s t : List Nat) (ha : a0 < 10) (hb : b0 < 10)
    (h : 10 * a1 + a0 < 10 * b1 + b0 ∨ (10 * a1 + a0 = 10 * b1 + b0 ∧ lexLt s t = true)) :
    lexLt ((48 + a1) :: (48 + a0) :: s) ((48 + b1) :: (48 + b0) :: t) = true := by
  rw [lexLt_cons, lexLt_cons]
  rcases h with h | ⟨h, h'⟩
  · by_cases e : a1 < b1
    · left; omega
    · right; refine ⟨by omega, Or.inl (by omega)⟩
  · right; refine ⟨by omega, Or.inr ⟨by omega, h'⟩⟩

theorem lexLt_sep (c : Nat) (s t : List Nat) (h : lexLt s t = true) :
    lexLt (c :: s) (c :: t) = true := by
  rw [lexLt_cons]; exact Or.inr ⟨rfl, h⟩

theorem lexLt_quad (a b : Nat) (s t : List Nat)
    (h : a < b ∨ (a = b ∧ lexLt s t = true)) :
    lexLt ((48 + a / 1000) :: (48 + a / 100 % 10) :: (48 + a / 10 % 10) :: (48 + a % 10) :: s)
      ((48 + b / 1000) :: (48 + b / 100 % 10) :: (48 + b / 10 % 10) :: (48 + b % 10) :: t)
      = true := by
  rcases h with h | ⟨h, h'⟩
  · rw [lexLt_cons]
    by_cases e1 : a / 1000 < b / 1000
    · left; omega
    · right; refine ⟨by omega, ?_⟩
      rw [lexLt_cons]
      by_cases e2 : a / 100 % 10 < b / 100 % 10
      · left; omega
      · right; refine ⟨by omega, ?_⟩
        rw [lexLt_cons]
        by_cases e3 : a / 10 % 10 < b / 10 % 10
        · left; omega
        · right; refine ⟨by omega, ?_⟩
          rw [lexLt_cons]
          left; omega
  · subst h
    exact lexLt_sep _ _ _ (lexLt_sep _ _ _ (lexLt_sep _ _ _ (lexLt_sep _ _ _ h')))

/-- Lexicographic order of two rendered date-times with four-digit years is
the order of their fields. -/
theorem renderDateTime_lt (d e : DateTime) (hd : ValidDateTime d) (he : ValidDateTime e)
    (hdy : d.year < 10000) (hey : e.year < 10000)
    (h : d.year < e.year ∨ (d.year = e.year ∧ (d.month < e.month ∨ (d.month = e.month ∧
      (d.day < e.day ∨ (d.day = e.day ∧ (d.hour < e.hour ∨ (d.hour = e.hour ∧
      (d.minute < e.minute ∨ (d.minute = e.minute ∧ d.second < e.second)))))))))) :
    lexLt (renderDateTime d) (renderDateTime e) = true := by
  rw [renderDateTime_explicit d hd hdy, renderDateTime_explicit e he hey]
  apply lexLt_quad
  refine h.imp id (fun h => ⟨h.1, ?_⟩)
  apply lexLt_sep
  apply lexLt_pair _ _ _ _ _ _ (Nat.mod_lt _ (by norm_num)) (Nat.mod_lt _ (by norm_num))
  rcases h.2 with h | ⟨h1, h⟩
  · left; omega
  right; refine ⟨by omega, ?_⟩
  apply lexLt_sep
  apply lexLt_pair _ _ _ _ _ _ (Nat.mod_lt _ (by norm_num)) (Nat.mod_lt _ (by norm_num))
  rcases h with h | ⟨h2, h⟩
  · left; omega
  right; refine ⟨by omega, ?_⟩
  apply lexLt_sep
  apply lexLt_pair _ _ _ _ _ _ (Nat.mod_lt _ (by norm_num)) (Nat.mod_lt _ (by norm_num))
  rcases h with h | ⟨h3, h⟩
  · left; omega
  right; refine ⟨by omega, ?_⟩
  apply lexLt_sep
  apply lexLt_pair _ _ _ _ _ _ (Nat.mod_lt _ (by norm_num)) (Nat.mod_lt _ (by norm_num))
  rcases h with h | ⟨h4, h⟩
  · left; omega
  right; refine ⟨by omega, ?_⟩
  apply lexLt_sep
  apply lexLt_pair _ _ _ _ _ _ (Nat.mod_lt _ (by norm_num)) (Nat.mod_lt _ (by norm_num))
  left; omega

theorem nextSecond_fields (d : DateTime) (hd : ValidDateTime d) :
    d.year < (nextSecond d).year ∨ (d.year = (nextSecond d).year ∧
      (d.month < (nextSecond d).month ∨ (d.month = (nextSecond d).month ∧
      (d.day < (nextSecond d).day ∨ (d.day = (nextSecond d).day ∧
      (d.hour < (nextSecond d).hour ∨ (d.hour = (nextSecond d).hour ∧
      (d.minute < (nextSecond d).minute ∨ (d.minute = (nextSecond d).minute ∧
        d.second < (nextSecond d).second))))))))) := by
  obtain ⟨y, m, dd, h, mi, s⟩ := d
  obtain ⟨a1, a2, a3, a4, a5, a6, a7, a8⟩ := hd
  simp only at a1 a2 a3 a4 a5 a6 a7 a8
  unfold nextSecond
  simp only
  split_ifs with h1 h2 h3 h4 h5
  · exact Or.inr ⟨rfl, Or.inr ⟨rfl, Or.inr ⟨rfl, Or.inr ⟨rfl, Or.inr ⟨rfl, Nat.lt_succ_self _⟩⟩⟩⟩⟩
  · exact Or.inr ⟨rfl, Or.inr ⟨rfl, Or.inr ⟨rfl, Or.inr ⟨rfl, Or.inl (Nat.lt_succ_self _)⟩⟩⟩⟩
  · exact Or.inr ⟨rfl, Or.inr ⟨rfl, Or.inr ⟨rfl, Or.inl (Nat.lt_succ_self _)⟩⟩⟩
  · exact Or.inr ⟨rfl, Or.inr ⟨rfl, Or.inl (Nat.lt_succ_self _)⟩⟩
  · exact Or.inr ⟨rfl, Or.inl (Nat.lt_succ_self _)⟩
  · exact Or.inl (Nat.lt_succ_self _)

theorem nextSecond_year (d : DateTime) : d.year ≤ (nextSecond d).year := by
  unfold nextSecond
  split_ifs <;> simp

theorem addSeconds_year_mono (n m : Nat) (h : n ≤ m) :
    (addSeconds n epoch1601).year ≤ (addSeconds m epoch1601).year := by
  induction m with
  | zero =>
    have : n = 0 := by omega
    subst this; exact le_refl _
  | succ m ih =>
    by_cases e : n = m + 1
    · subst e; exact le_refl _
    · exact le_trans (ih (by omega)) (by rw [addSeconds]; exact nextSecond_year _)

/-- Rendered date-times with four-digit years grow strictly with the number
of seconds. -/
theorem render_strictMono (n m : Nat) (h : n < m)
    (hy : (addSeconds m epoch1601).year < 10000) :
    lexLt (renderDateTime (addSeconds n epoch1601)) (renderDateTime (addSeconds m epoch1601))
      = true := by
  induction m with
  | zero => omega
  | succ m ih =>
    have hym : (addSeconds m epoch1601).year < 10000 :=
      lt_of_le_of_lt (addSeconds_year_mono m (m + 1) (by omega)) hy
    have hv := (addSeconds_spec m).1
    have hv2 := (addSeconds_spec (m + 1)).1
    have step : lexLt (renderDateTime (addSeconds m epoch1601))
        (renderDateTime (addSeconds (m + 1) epoch1601)) = true := by
      apply renderDateTime_lt _ _ hv hv2 hym hy
      rw [addSeconds]
      exact nextSecond_fields _ hv
    by_cases e : n = m
    · subst e; exact step
    · exact lexLt_trans _ _ _ (ih (by omega) hym) step

/-! ### Extraction and test modes -/

/-! ### The path loop of `SzxExtract` -/

theorem leafName_of_not_mem (s : List Nat) (h : 47 ∉ s) : leafName s = s := by
  unfold leafName
  rw [List.takeWhile_eq_self_iff.2, List.reverse_reverse]
  intro x hx
  have : x ≠ 47 := fun e => h (e ▸ List.mem_reverse.1 hx)
  simpa using this

theorem leafName_cons_of_mem (c : Nat) (s : List Nat) (h : 47 ∈ s) :
    leafName (c :: s) = leafName s := by
  unfold leafName
  congr 1
  rw [List.reverse_cons]
  obtain ⟨a, b, hab⟩ := List.append_of_mem (List.mem_reverse.2 h)
  rw [hab, List.append_assoc]
  have key : ∀ (a t : List Nat), List.takeWhile (· ≠ 47) (a ++ 47 :: t)
      = List.takeWhile (· ≠ 47) (a ++ [47]) := by
    intro a t
    induction a with
    | nil => simp [List.takeWhile]
    | cons x a ih =>
      simp only [List.cons_append, List.takeWhile_cons]
      split
      · rw [ih]
      · rfl
  rw [List.cons_append, key a (b ++ [c]), key a b]

theorem leafName_slash_cons (s : List Nat) (h : 47 ∉ s) : leafName (47 :: s) = s := by
  unfold leafName
  rw [List.reverse_cons]
  have key : ∀ (a : List Nat), (∀ x ∈ a, x ≠ 47) →
      List.takeWhile (· ≠ 47) (a ++ [47]) = a := by
    intro a ha
    induction a with
    | nil => simp [List.takeWhile]
    | cons x a ih =>
      have hx : x ≠ 47 := ha x (List.mem_cons_self _ _)
      simp only [List.cons_append, List.takeWhile_cons]
      rw [if_pos (by simpa using hx), ih (fun y hy => ha y (List.mem_cons_of_mem _ hy))]
  rw [key _ (fun x hx e => h (e ▸ List.mem_reverse.1 hx)), List.reverse_reverse]

theorem dirPrefixes_cons (sep c : Nat) (s : List Nat) :
    dirPrefixes sep (c :: s) = (if c = 47 then [[]] else []) ++
      (dirPrefixes sep s).map ((if c = 47 then sep else c) :: ·) := by
  unfold dirPrefixes
  rw [List.length_cons, List.range_succ_eq_map, List.filter_cons, List.filter_map]
  have e2 : ((fun j => decide ((c :: s).get? j = some 47)) ∘ Nat.succ)
      = (fun j => decide (s.get? j = some 47)) := by
    funext j; simp
  rw [e2]
  by_cases hc : c = 47
  · subst hc
    simp only [List.get?_cons_zero, decide_True, if_true, List.map_cons, List.map_map,
      List.take_zero, List.singleton_append, List.cons.injEq]
    refine ⟨rfl, ?_⟩
    apply List.map_congr_left
    intro j _
    simp [hostPath]
  · have hc2 : ¬ (some c = some 47) := fun e => hc (Option.some.inj e)
    simp only [List.get?_cons_zero, hc2, decide_False, if_false, hc, List.map_map,
      List.nil_append, Bool.false_eq_true]
    apply List.map_congr_left
    intro j _
    simp [hostPath, hc]

/-! ### The callees `MyCreateDir` and `OutFile_OpenUtf16` -/

theorem takeWhile_block (xs rest : List Nat) (hn : ∀ x ∈ xs, x ≠ 0) :
    (xs ++ 0 :: rest).takeWhile (· ≠ 0) = xs := by
  induction xs with
  | nil => simp [List.takeWhile]
  | cons x xs ih =>
    have hx : x ≠ 0 := hn x (List.mem_cons_self _ _)
    rw [List.cons_append, List.takeWhile_cons, if_pos (by simpa using hx),
      ih (fun y hy => hn y (List.mem_cons_of_mem _ hy))]

/-- What `Utf16_To_Char` leaves, from an empty `CBuf`, for the string `xs`
held in a block. -/
theorem Utf16_To_Char_block (alloc : Allocator) (xs rest : List Nat) (hn : ∀ x ∈ xs, x ≠ 0)
    (hU : Units16 xs) :
    Utf16_To_Char alloc [] (xs ++ 0 :: rest) =
      match alloc ((utf8Encode (scanned xs)).length + 1) with
      | none => some (SRes.SZ_ERROR_MEM, [])
      | some _ => some (if goodLen xs = xs.length then SRes.SZ_OK else SRes.SZ_ERROR_FAIL,
          utf8Encode (scanned xs) ++ [0]) := by
  unfold Utf16_To_Char
  rw [strlen_nulfree xs rest hn]
  simp only [List.take_left']
  rw [Utf16_To_Utf8Buf_spec alloc [] xs hU]
  simp only [Buf_EnsureSize, List.length_nil, ge_iff_le, Nat.le_zero_eq, Nat.add_one_ne_zero,
    if_false, Buf_Create]
  cases alloc ((utf8Encode (scanned xs)).length + 1) with
  | none => simp
  | some fill =>
    simp only [if_true]
    rw [List.drop_of_length_le (by simp)]
    simp

theorem good_iff_wellFormed (xs : List Nat) (hU : Units16 xs) :
    goodLen xs = xs.length ↔ WellFormedUtf16 xs := by
  rw [goodLen_eq_length_iff xs hU, wellFormed_iff_not_malformed xs hU]

theorem transcode_good (xs : List Nat) (h : goodLen xs = xs.length) :
    transcode xs = some (utf8Encode (scanned xs)) := by
  have := utf16Decode_take_goodLen xs
  rw [h, List.take_length] at this
  unfold transcode
  rw [this]
  rfl

/-- `MyCreateDir` on the string `xs` held in a block: `mkdir` is called, on the
UTF-8 transcoding of `xs`, exactly when `xs` transcodes and the buffer is
allocated; otherwise nothing is logged and the status is not 0. -/
theorem MyCreateDir_spec (w : Collaborators) (log : List Event) (xs rest : List Nat)
    (hn : ∀ x ∈ xs, x ≠ 0) (hU : Units16 xs) :
    ∃ (r : Nat) (log2 : List Event), MyCreateDir w log (xs ++ 0 :: rest) = some (r, log2) ∧
      ((goodLen xs = xs.length ∧
          (w.bufAlloc log.length ((utf8Encode (scanned xs)).length + 1)).isSome = true ∧
          r = w.mkdir log.length (utf8Encode (scanned xs)) ∧
          log2 = log ++ [Event.createDir (utf8Encode (scanned xs)) r]) ∨
       (¬ (goodLen xs = xs.length ∧
          (w.bufAlloc log.length ((utf8Encode (scanned xs)).length + 1)).isSome = true) ∧
          r ≠ 0 ∧ log2 = log)) := by
  unfold MyCreateDir
  rw [Utf16_To_Char_block _ xs rest hn hU]
  cases w.bufAlloc log.length ((utf8Encode (scanned xs)).length + 1) with
  | none => exact ⟨_, _, rfl, Or.inr ⟨by simp, by simp [SRes.code], rfl⟩⟩
  | some fill =>
    by_cases hg : goodLen xs = xs.length
    · refine ⟨_, _, ?_, Or.inl ⟨hg, rfl, rfl, rfl⟩⟩
      simp only [hg, if_true, ne_eq, not_true_eq_false, if_false]
      rw [takeWhile_block _ _ (utf8Encode_scanned_nulfree xs hn)]
    · refine ⟨SRes.SZ_ERROR_FAIL.code, log, ?_, Or.inr ⟨by simp [hg], by simp [SRes.code], rfl⟩⟩
      simp only [hg, if_false, ne_eq, not_false_eq_true, if_true, reduceCtorEq]

/-- `OutFile_OpenUtf16` on the string `xs` held in a block: `OutFile_Open` is
called, on the UTF-8 transcoding of `xs`, exactly when `xs` transcodes and the
buffer is allocated; otherwise nothing is logged and the status is not 0. -/
theorem OutFile_OpenUtf16_spec (w : Collaborators) (log : List Event) (xs rest : List Nat)
    (hn : ∀ x ∈ xs, x ≠ 0) (hU : Units16 xs) :
    ∃ (r : Nat) (log2 : List Event), OutFile_OpenUtf16 w log (xs ++ 0 :: rest) = some (r, log2) ∧
      ((goodLen xs = xs.length ∧
          (w.bufAlloc log.length ((utf8Encode (scanned xs)).length + 1)).isSome = true ∧
          r = w.outOpen log.length (utf8Encode (scanned xs)) ∧
          log2 = log ++ [Event.openOut (utf8Encode (scanned xs)) r]) ∨
       (¬ (goodLen xs = xs.length ∧
          (w.bufAlloc log.length ((utf8Encode (scanned xs)).length + 1)).isSome = true) ∧
          r ≠ 0 ∧ log2 = log)) := by
  unfold OutFile_OpenUtf16
  rw [Utf16_To_Char_block _ xs rest hn hU]
  cases w.bufAlloc log.length ((utf8Encode (scanned xs)).length + 1) with
  | none => exact ⟨_, _, rfl, Or.inr ⟨by simp, by simp [SRes.code], rfl⟩⟩
  | some fill =>
    by_cases hg : goodLen xs = xs.length
    · refine ⟨_, _, ?_, Or.inl ⟨hg, rfl, rfl, rfl⟩⟩
      simp only [hg, if_true, ne_eq, not_true_eq_false, if_false]
      rw [takeWhile_block _ _ (utf8Encode_scanned_nulfree xs hn)]
    · refine ⟨SRes.SZ_ERROR_FAIL.code, log, ?_, Or.inr ⟨by simp [hg], by simp [SRes.code], rfl⟩⟩
      simp only [hg, if_false, ne_eq, not_false_eq_true, if_true, reduceCtorEq]

/-- A unit that is no surrogate splits a string into two parts that are
scanned independently. -/
theorem goodLen_split (u : Nat) (b : List Nat) (hu : u < 0xD800 ∨ 0xE000 ≤ u) (a : List Nat) :
    goodLen (a ++ u :: b) = (a ++ u :: b).length ↔
      goodLen a = a.length ∧ goodLen b = b.length := by
  induction a using goodLen.induct with
  | case1 =>
    simp only [List.nil_append, goodLen_cons_bmp _ _ hu, List.length_cons, goodLen,
      List.length_nil, true_and]
    omega
  | case2 x rest h ih =>
    rw [List.cons_append, goodLen_cons_bmp _ _ h, goodLen_cons_bmp _ _ h]
    simp only [List.length_cons]
    have e1 : (1 + goodLen (rest ++ u :: b) = (rest ++ u :: b).length + 1) ↔
        goodLen (rest ++ u :: b) = (rest ++ u :: b).length := by omega
    have e2 : (1 + goodLen rest = rest.length + 1) ↔ goodLen rest = rest.length := by omega
    rw [e1, e2, ih]
  | case3 x h1 h2 =>
    have hb : ¬ (0xDC00 ≤ u ∧ u < 0xE000) := by omega
    rw [List.cons_append, List.nil_append, goodLen_high_bad _ _ _ ⟨by omega, h2⟩ hb,
      goodLen_high_last _ ⟨by omega, h2⟩]
    simp
  | case4 x h1 h2 l rest2 h3 ih =>
    rw [List.cons_append, List.cons_append, goodLen_pair _ _ _ ⟨by omega, h2⟩ h3,
      goodLen_pair _ _ _ ⟨by omega, h2⟩ h3]
    simp only [List.length_cons]
    have e1 : (2 + goodLen (rest2 ++ u :: b) = (rest2 ++ u :: b).length + 1 + 1) ↔
        goodLen (rest2 ++ u :: b) = (rest2 ++ u :: b).length := by omega
    have e2 : (2 + goodLen rest2 = rest2.length + 1 + 1) ↔ goodLen rest2 = rest2.length := by
      omega
    rw [e1, e2, ih]
  | case5 x h1 h2 l rest2 h3 =>
    rw [List.cons_append, List.cons_append, goodLen_high_bad _ _ _ ⟨by omega, h2⟩ h3,
      goodLen_high_bad _ _ _ ⟨by omega, h2⟩ h3]
    simp
  | case6 x rest h1 h2 =>
    rw [List.cons_append, goodLen_cons_low _ _ ⟨by omega, by omega⟩,
      goodLen_cons_low _ _ ⟨by omega, by omega⟩]
    simp

/-! ### The path loop of `SzxExtract`, continued -/

theorem leafName_subset (s : List Nat) : ∀ x ∈ leafName s, x ∈ s := by
  intro x hx
  unfold leafName at hx
  exact List.mem_reverse.1 (List.takeWhile_subset _ (List.mem_reverse.1 hx))

theorem hostPath_nulfree (sep : Nat) (hs : sep ≠ 0) (s : List Nat) (h : ∀ x ∈ s, x ≠ 0) :
    ∀ x ∈ hostPath sep s, x ≠ 0 := by
  intro x hx
  unfold hostPath at hx
  obtain ⟨y, hy, rfl⟩ := List.mem_map.1 hx
  split_ifs
  · exact hs
  · exact h y hy

theorem hostPath_units (sep : Nat) (hs : sep < 65536) (s : List Nat) (h : Units16 s) :
    Units16 (hostPath sep s) := by
  intro x hx
  unfold hostPath at hx
  obtain ⟨y, hy, rfl⟩ := List.mem_map.1 hx
  split_ifs
  · exact hs
  · exact h y hy

theorem mem_snoc_ne (done : List Nat) (c : Nat) (hd : ∀ x ∈ done, x ≠ 0) (hc : c ≠ 0) :
    ∀ x ∈ done ++ [c], x ≠ 0 := by
  intro x hx
  rcases List.mem_append.1 hx with h | h
  · exact hd x h
  · simp at h; omega

theorem units_snoc (done : List Nat) (c : Nat) (hd : Units16 done) (hc : c < 65536) :
    Units16 (done ++ [c]) := by
  intro x hx
  rcases List.mem_append.1 hx with h | h
  · exact hd x h
  · simp at h; omega

/-- The path loop with `fullPaths` set always returns: the name is rewritten
and the calls it logs are calls of `mkdir`. -/
theorem pathLoop_full (w : Collaborators) (junk : List Nat) (hs : w.pathSep ≠ 0)
    (hs16 : w.pathSep < 65536) (r : List Nat) :
    ∀ (done : List Nat) (dp : Nat) (log : List Event),
      (∀ x ∈ r, x ≠ 0) → Units16 r → (∀ x ∈ done, x ≠ 0) → Units16 done →
      ∃ evs : List Event,
        pathLoop w true done (r ++ 0 :: junk) dp log
          = some (done ++ hostPath w.pathSep r ++ 0 :: junk, dp, log ++ evs) ∧
        ∀ ev ∈ evs, ev.isCreateDir = true := by
  induction r with
  | nil =>
    intro done dp log _ _ _ _
    exact ⟨[], by simp [pathLoop, hostPath], by simp⟩
  | cons c r ih =>
    intro done dp log hr hU hd hdU
    have hc : c ≠ 0 := hr c (List.mem_cons_self _ _)
    have hr2 : ∀ x ∈ r, x ≠ 0 := fun x hx => hr x (List.mem_cons_of_mem _ hx)
    have hU2 : Units16 r := fun x hx => hU x (List.mem_cons_of_mem _ hx)
    rw [List.cons_append, pathLoop, if_neg hc]
    by_cases h47 : c = 47
    · subst h47
      obtain ⟨ρ, log2, hρ, hcase⟩ := MyCreateDir_spec w log done (r ++ 0 :: junk) hd hdU
      simp only [if_true, hρ]
      obtain ⟨evs, heq, hev⟩ := ih (done ++ [w.pathSep]) dp log2 hr2 hU2
        (mem_snoc_ne _ _ hd hs) (units_snoc _ _ hdU hs16)
      rw [heq]
      rcases hcase with ⟨-, -, -, hl⟩ | ⟨-, -, hl⟩
      · refine ⟨Event.createDir (utf8Encode (scanned done)) ρ :: evs, ?_, ?_⟩
        · simp [hl, hostPath]
        · intro ev hev2
          rcases List.mem_cons.1 hev2 with rfl | h
          · rfl
          · exact hev ev h
      · exact ⟨evs, by simp [hl, hostPath], hev⟩
    · obtain ⟨evs, heq, hev⟩ := ih (done ++ [c]) dp log hr2 hU2
        (mem_snoc_ne _ _ hd hc) (units_snoc _ _ hdU (hU c (List.mem_cons_self _ _)))
      refine ⟨evs, ?_, hev⟩
      simp only [if_neg h47, heq]
      simp [hostPath, h47]

/-- The path loop with `fullPaths` set, for a well-formed name and with every
buffer allocated: `mkdir` is called once for each `'/'`, from left to right,
on the UTF-8 transcoding of the rewritten prefix before it. -/
theorem pathLoop_full_good (w : Collaborators) (junk : List Nat) (hs : w.pathSep ≠ 0)
    (hsur : w.pathSep < 0xD800 ∨ (0xE000 ≤ w.pathSep ∧ w.pathSep < 65536))
    (halloc : ∀ now n, (w.bufAlloc now n).isSome = true) (r : List Nat) :
    ∀ (done : List Nat) (dp : Nat) (log : List Event),
      (∀ x ∈ r, x ≠ 0) → Units16 r → (∀ x ∈ done, x ≠ 0) → Units16 done →
      goodLen (done ++ r) = (done ++ r).length →
      pathLoop w true done (r ++ 0 :: junk) dp log
          = some (done ++ hostPath w.pathSep r ++ 0 :: junk, dp,
              log ++ mkdirLog w log.length ((dirPrefixes w.pathSep r).map
                (fun p => utf8Encode (scanned (done ++ p))))) ∧
        (∀ p ∈ dirPrefixes w.pathSep r, goodLen (done ++ p) = (done ++ p).length) ∧
        goodLen (done ++ hostPath w.pathSep r) = (done ++ hostPath w.pathSep r).length := by
  have hs16 : w.pathSep < 65536 := by omega
  have hsns : w.pathSep < 0xD800 ∨ 0xE000 ≤ w.pathSep := by omega
  induction r with
  | nil =>
    intro done dp log _ _ _ _ hg
    simp only [List.append_nil] at hg
    exact ⟨by simp [pathLoop, hostPath, dirPrefixes, mkdirLog], by simp [dirPrefixes],
      by simpa [hostPath] using hg⟩
  | cons c r ih =>
    intro done dp log hr hU hd hdU hg
    have hc : c ≠ 0 := hr c (List.mem_cons_self _ _)
    have hr2 : ∀ x ∈ r, x ≠ 0 := fun x hx => hr x (List.mem_cons_of_mem _ hx)
    have hU2 : Units16 r := fun x hx => hU x (List.mem_cons_of_mem _ hx)
    rw [List.cons_append, pathLoop, if_neg hc, dirPrefixes_cons]
    by_cases h47 : c = 47
    · subst h47
      obtain ⟨hgd, hgr⟩ := (goodLen_split 47 r (by omega) done).1 hg
      have hg2 : goodLen ((done ++ [w.pathSep]) ++ r) = ((done ++ [w.pathSep]) ++ r).length := by
        rw [List.append_assoc, List.singleton_append]
        exact (goodLen_split w.pathSep r hsns done).2 ⟨hgd, hgr⟩
      obtain ⟨ρ, log2, hρ, hcase⟩ := MyCreateDir_spec w log done (r ++ 0 :: junk) hd hdU
      rcases hcase with ⟨-, -, hr0, hl⟩ | ⟨hbad, -⟩
      · obtain ⟨heq, hpre, hfull⟩ := ih (done ++ [w.pathSep]) dp log2 hr2 hU2
          (mem_snoc_ne _ _ hd hs) (units_snoc _ _ hdU hs16) hg2
        simp only [if_true, hρ, heq]
        refine ⟨?_, ?_, ?_⟩
        · subst hl hr0
          simp [hostPath, mkdirLog, List.map_map, Function.comp_def]
        · intro p hp
          simp only [List.singleton_append, List.mem_cons, List.mem_map] at hp
          rcases hp with rfl | ⟨q, hq, rfl⟩
          · simpa using hgd
          · have := hpre q hq
            simpa using this
        · have := hfull
          simpa [hostPath] using this
      · exact absurd ⟨hgd, halloc _ _⟩ hbad
    · have hg2 : goodLen ((done ++ [c]) ++ r) = ((done ++ [c]) ++ r).length := by
        rw [List.append_assoc, List.singleton_append]; exact hg
      obtain ⟨heq, hpre, hfull⟩ := ih (done ++ [c]) dp log hr2 hU2
        (mem_snoc_ne _ _ hd hc) (units_snoc _ _ hdU (hU c (List.mem_cons_self _ _))) hg2
      simp only [if_neg h47, heq]
      refine ⟨?_, ?_, ?_⟩
      · simp [hostPath, h47, List.map_map, Function.comp_def]
      · intro p hp
        simp only [List.nil_append, List.mem_map] at hp
        obtain ⟨q, hq, rfl⟩ := hp
        have := hpre q hq
        simpa using this
      · have := hfull
        simpa [hostPath, h47] using this

/-- The path loop with `fullPaths` clear: nothing is requested, the block is
left as it was, and `destPath` ends just after the last `'/'`. -/
theorem pathLoop_flat (w : Collaborators) (junk : List Nat) (r : List Nat) :
    ∀ (done : List Nat) (dp : Nat) (log : List Event), (∀ x ∈ r, x ≠ 0) →
      ∃ dp2, pathLoop w false done (r ++ 0 :: junk) dp log
          = some (done ++ r ++ 0 :: junk, dp2, log) ∧
        (47 ∈ r → (done ++ r ++ 0 :: junk).drop dp2 = leafName r ++ 0 :: junk) ∧
        (47 ∉ r → dp2 = dp) := by
  induction r with
  | nil =>
    intro done dp log _
    exact ⟨dp, by simp [pathLoop], by simp, fun _ => rfl⟩
  | cons c r ih =>
    intro done dp log hr
    have hc : c ≠ 0 := hr c (List.mem_cons_self _ _)
    have hr2 : ∀ x ∈ r, x ≠ 0 := fun x hx => hr x (List.mem_cons_of_mem _ hx)
    rw [List.cons_append, pathLoop, if_neg hc]
    by_cases h47 : c = 47
    · subst h47
      obtain ⟨dp2, heq, h1, h2⟩ := ih (done ++ [47]) (done.length + 1) log hr2
      refine ⟨dp2, by simpa using heq, ?_, by simp⟩
      intro _
      by_cases hm : 47 ∈ r
      · rw [leafName_cons_of_mem _ _ hm]
        simpa using h1 hm
      · rw [leafName_slash_cons _ hm, h2 hm]
        have : done ++ 47 :: r ++ 0 :: junk = (done ++ [47]) ++ (r ++ 0 :: junk) := by simp
        rw [this, List.drop_left' (by simp)]
    · obtain ⟨dp2, heq, h1, h2⟩ := ih (done ++ [c]) dp log hr2
      refine ⟨dp2, by simpa [h47] using heq, ?_, ?_⟩
      · intro hm
        have hm2 : 47 ∈ r := by
          rcases List.mem_cons.1 hm with h | h
          · exact absurd h.symm h47
          · exact h
        rw [leafName_cons_of_mem _ _ hm2]
        simpa using h1 hm2
      · intro hm
        exact h2 (fun h => hm (List.mem_cons_of_mem _ h))

/-- What `writeOut` does, by the outcomes of the write and of the close. -/
theorem writeOut_spec (w : Collaborators) (d : Decoded) (st : DriverState) :
    ∃ wr k, ((wr ≠ 0 ∨ k ≠ d.outSizeProcessed) ∧
        writeOut w d st = (false, ⟨SRes.SZ_ERROR_FAIL, st.tempSize, st.cursor, st.log ++ [Event.write d.cursor.outBuffer d.offset d.outSizeProcessed wr k]⟩)) ∨
      (wr = 0 ∧ k = d.outSizeProcessed ∧ ∃ cl,
        (cl ≠ 0 ∧ writeOut w d st = (false, ⟨SRes.SZ_ERROR_FAIL, st.tempSize, st.cursor, st.log ++ [Event.write d.cursor.outBuffer d.offset d.outSizeProcessed wr k, Event.close cl]⟩)) ∨
        (cl = 0 ∧ writeOut w d st = (true, ⟨st.res, st.tempSize, st.cursor, st.log ++ [Event.write d.cursor.outBuffer d.offset d.outSizeProcessed wr k, Event.close cl]⟩))) := by
  refine ⟨(w.fileWrite st.log.length d.cursor.outBuffer d.offset d.outSizeProcessed).1,
    (w.fileWrite st.log.length d.cursor.outBuffer d.offset d.outSizeProcessed).2, ?_⟩
  unfold writeOut
  simp only
  split_ifs with h1 h2
  · exact Or.inl ⟨h1, rfl⟩
  · refine Or.inr ⟨by tauto, by tauto, _, Or.inl ⟨h2, ?_⟩⟩
    simp
  · refine Or.inr ⟨by tauto, by tauto, _, Or.inr ⟨by simpa using h2, ?_⟩⟩
    simp

theorem mkdirLog_length (w : Collaborators) (ps : List (List Nat)) :
    ∀ now, (mkdirLog w now ps).length = ps.length := by
  induction ps with
  | nil => intro now; rfl
  | cons p ps ih => intro now; simp [mkdirLog, ih]

theorem mkdirLog_isCreateDir (w : Collaborators) (ps : List (List Nat)) :
    ∀ now, ∀ ev ∈ mkdirLog w now ps, ev.isCreateDir = true := by
  induction ps with
  | nil => intro now ev h; simp [mkdirLog] at h
  | cons p ps ih =>
    intro now ev h
    simp only [mkdirLog, List.mem_cons] at h
    rcases h with rfl | h
    · rfl
    · exact ih _ ev h

/-- The path loop and the open of `placeEntry`, for a file entry: the calls of
`mkdir` of the path loop, then `OutFile_Open` on the UTF-8 transcoding of the
destination when that transcodes and its buffer is allocated, and no call at
all, with a status that is not 0, when it does not. -/
theorem placeEntry_file (w : Collaborators) (fullPaths : Bool) (e : Entry) (d : Decoded)
    (st : DriverState) (hf : e.isDir = false) (hU : Units16 e.name)
    (hsep : fullPaths = true → w.pathSep ≠ 0 ∧ w.pathSep < 65536) :
    ∃ (dirs : List Event) (name : List Nat) (r : Nat) (opens : List Event),
      placeEntry w fullPaths e d st =
        some (if r ≠ 0 then (false, ⟨SRes.SZ_ERROR_FAIL, st.tempSize, st.cursor,
            st.log ++ dirs ++ opens⟩)
          else writeOut w d ⟨st.res, st.tempSize, st.cursor, st.log ++ dirs ++ opens⟩) ∧
      (∀ ev ∈ dirs, ev.isCreateDir = true) ∧
      (fullPaths = false → dirs = [] ∧ name = leafName (cstr e.name)) ∧
      (fullPaths = true → name = hostPath w.pathSep (cstr e.name)) ∧
      (fullPaths = true → goodLen (cstr e.name) = (cstr e.name).length →
        (∀ now n, (w.bufAlloc now n).isSome = true) →
        (w.pathSep < 0xD800 ∨ 0xE000 ≤ w.pathSep) →
        dirs = mkdirLog w st.log.length ((dirPrefixes w.pathSep (cstr e.name)).map
            (fun p => utf8Encode (scanned p))) ∧
          (∀ p ∈ dirPrefixes w.pathSep (cstr e.name), goodLen p = p.length) ∧
          goodLen name = name.length) ∧
      ((goodLen name = name.length ∧
          (w.bufAlloc (st.log ++ dirs).length ((utf8Encode (scanned name)).length + 1)).isSome
            = true ∧
          r = w.outOpen (st.log ++ dirs).length (utf8Encode (scanned name)) ∧
          opens = [Event.openOut (utf8Encode (scanned name)) r]) ∨
       (¬ (goodLen name = name.length ∧
          (w.bufAlloc (st.log ++ dirs).length ((utf8Encode (scanned name)).length + 1)).isSome
            = true) ∧ r ≠ 0 ∧ opens = [])) := by
  obtain ⟨hn, junk, hsplit⟩ := cstr_split e.name
  have hU2 := cstr_units e.name hU
  unfold placeEntry
  rw [hsplit]
  cases fullPaths with
  | false =>
    obtain ⟨dp2, heq, h1, h2⟩ := pathLoop_flat w junk (cstr e.name) [] 0 st.log hn
    rw [heq]
    have hdrop : ([] ++ cstr e.name ++ 0 :: junk).drop dp2
        = leafName (cstr e.name) ++ 0 :: junk := by
      by_cases hm : 47 ∈ cstr e.name
      · exact h1 hm
      · rw [h2 hm, leafName_of_not_mem _ hm]; rfl
    have hln : ∀ x ∈ leafName (cstr e.name), x ≠ 0 := fun x hx => hn x (leafName_subset _ x hx)
    have hlU : Units16 (leafName (cstr e.name)) := fun x hx => hU2 x (leafName_subset _ x hx)
    obtain ⟨r, log2, hr, hcase⟩ := OutFile_OpenUtf16_spec w st.log _ junk hln hlU
    have hlog2 : ∃ opens, log2 = st.log ++ opens ∧
        ((goodLen (leafName (cstr e.name)) = (leafName (cstr e.name)).length ∧
          (w.bufAlloc st.log.length
            ((utf8Encode (scanned (leafName (cstr e.name)))).length + 1)).isSome = true ∧
          r = w.outOpen st.log.length (utf8Encode (scanned (leafName (cstr e.name)))) ∧
          opens = [Event.openOut (utf8Encode (scanned (leafName (cstr e.name)))) r]) ∨
         (¬ (goodLen (leafName (cstr e.name)) = (leafName (cstr e.name)).length ∧
          (w.bufAlloc st.log.length
            ((utf8Encode (scanned (leafName (cstr e.name)))).length + 1)).isSome = true) ∧
          r ≠ 0 ∧ opens = [])) := by
      rcases hcase with ⟨a, b, c, hl⟩ | ⟨a, b, hl⟩
      · exact ⟨_, hl, Or.inl ⟨a, b, c, rfl⟩⟩
      · exact ⟨[], by simp [hl], Or.inr ⟨a, b, rfl⟩⟩
    obtain ⟨opens, hl, hopen⟩ := hlog2
    refine ⟨[], leafName (cstr e.name), r, opens, ?_, by simp, fun _ => ⟨rfl, rfl⟩,
      fun h => Bool.noConfusion h, fun h => Bool.noConfusion h, by simpa using hopen⟩
    simp only [hf, Bool.false_eq_true, if_false, hdrop, hr, List.append_nil, hl]
    split_ifs <;> rfl
  | true =>
    obtain ⟨hs, hs16⟩ := hsep rfl
    obtain ⟨evs, heq, hev⟩ := pathLoop_full w junk hs hs16 (cstr e.name) [] 0 st.log hn hU2
      (by simp) (by intro x hx; simp at hx)
    have hpn := hostPath_nulfree w.pathSep hs _ hn
    have hpU := hostPath_units w.pathSep hs16 _ hU2
    obtain ⟨r, log2, hr, hcase⟩ := OutFile_OpenUtf16_spec w (st.log ++ evs) _ junk hpn hpU
    have hlog2 : ∃ opens, log2 = st.log ++ evs ++ opens ∧
        ((goodLen (hostPath w.pathSep (cstr e.name)) = (hostPath w.pathSep (cstr e.name)).length ∧
          (w.bufAlloc (st.log ++ evs).length
            ((utf8Encode (scanned (hostPath w.pathSep (cstr e.name)))).length + 1)).isSome
              = true ∧
          r = w.outOpen (st.log ++ evs).length
            (utf8Encode (scanned (hostPath w.pathSep (cstr e.name)))) ∧
          opens = [Event.openOut (utf8Encode (scanned (hostPath w.pathSep (cstr e.name)))) r]) ∨
         (¬ (goodLen (hostPath w.pathSep (cstr e.name))
              = (hostPath w.pathSep (cstr e.name)).length ∧
          (w.bufAlloc (st.log ++ evs).length
            ((utf8Encode (scanned (hostPath w.pathSep (cstr e.name)))).length + 1)).isSome
              = true) ∧
          r ≠ 0 ∧ opens = [])) := by
      rcases hcase with ⟨a, b, c, hl⟩ | ⟨a, b, hl⟩
      · exact ⟨_, hl, Or.inl ⟨a, b, c, rfl⟩⟩
      · exact ⟨[], by simp [hl], Or.inr ⟨a, b, rfl⟩⟩
    obtain ⟨opens, hl, hopen⟩ := hlog2
    refine ⟨evs, hostPath w.pathSep (cstr e.name), r, opens, ?_, hev,
      fun h => Bool.noConfusion h, fun _ => rfl, ?_, hopen⟩
    · rw [heq]
      simp only [List.nil_append, List.drop_zero] at hr ⊢
      simp only [hf, Bool.false_eq_true, if_false, hr, hl]
      split_ifs <;> rfl
    · intro _ hg halloc hsns
      obtain ⟨heq2, hpre, hfull⟩ := pathLoop_full_good w junk hs (by omega) halloc (cstr e.name)
        [] 0 st.log hn hU2 (by simp) (by intro x hx; simp at hx) (by simpa using hg)
      rw [heq] at heq2
      simp only [List.nil_append, Option.some.injEq, Prod.mk.injEq, List.append_cancel_left_eq,
        true_and] at heq2
      exact ⟨heq2, by simpa using hpre, by simpa using hfull⟩

/-- The path loop and the directory creation of `placeEntry`, for a directory
entry with `fullPaths` set: only calls of `mkdir` are logged and nothing else
changes; for a well-formed name with every buffer allocated, the calls are
those for the prefixes and then the one for the whole rewritten name. -/
theorem placeEntry_dir (w : Collaborators) (e : Entry) (d : Decoded)
    (st : DriverState) (hf : e.isDir = true) (hU : Units16 e.name)
    (hs : w.pathSep ≠ 0) (hs16 : w.pathSep < 65536) :
    ∃ (evs : List Event),
      placeEntry w true e d st = some (true, ⟨st.res, st.tempSize, st.cursor, st.log ++ evs⟩) ∧
      (∀ ev ∈ evs, ev.isCreateDir = true) ∧
      (goodLen (cstr e.name) = (cstr e.name).length →
        (∀ now n, (w.bufAlloc now n).isSome = true) →
        (w.pathSep < 0xD800 ∨ 0xE000 ≤ w.pathSep) →
        evs = mkdirLog w st.log.length ((dirPrefixes w.pathSep (cstr e.name)).map
            (fun p => utf8Encode (scanned p))) ++
          [Event.createDir (utf8Encode (scanned (hostPath w.pathSep (cstr e.name))))
            (w.mkdir (st.log.length + (dirPrefixes w.pathSep (cstr e.name)).length)
              (utf8Encode (scanned (hostPath w.pathSep (cstr e.name)))))] ∧
          (∀ p ∈ dirPrefixes w.pathSep (cstr e.name), goodLen p = p.length) ∧
          goodLen (hostPath w.pathSep (cstr e.name))
            = (hostPath w.pathSep (cstr e.name)).length) := by
  obtain ⟨hn, junk, hsplit⟩ := cstr_split e.name
  have hU2 := cstr_units e.name hU
  obtain ⟨evs, heq, hev⟩ := pathLoop_full w junk hs hs16 (cstr e.name) [] 0 st.log hn hU2
    (by simp) (by intro x hx; simp at hx)
  have hpn := hostPath_nulfree w.pathSep hs _ hn
  have hpU := hostPath_units w.pathSep hs16 _ hU2
  obtain ⟨r, log2, hr, hcase⟩ := MyCreateDir_spec w (st.log ++ evs) _ junk hpn hpU
  have hplace : placeEntry w true e d st = some (true, ⟨st.res, st.tempSize, st.cursor, log2⟩) := by
    unfold placeEntry
    rw [hsplit, heq]
    simp only [List.nil_append, List.drop_zero] at hr ⊢
    simp only [hf, if_true, hr]
  rcases hcase with ⟨a, b, c, hl⟩ | ⟨a, b, hl⟩
  · refine ⟨evs ++ [Event.createDir (utf8Encode (scanned (hostPath w.pathSep (cstr e.name)))) r],
      by rw [hplace, hl, List.append_assoc], ?_, ?_⟩
    · intro ev hev2
      rcases List.mem_append.1 hev2 with h | h
      · exact hev ev h
      · simp only [List.mem_singleton] at h; subst h; rfl
    · intro hg halloc hsns
      obtain ⟨heq2, hpre, hfull⟩ := pathLoop_full_good w junk hs (by omega) halloc (cstr e.name)
        [] 0 st.log hn hU2 (by simp) (by intro x hx; simp at hx) (by simpa using hg)
      rw [heq] at heq2
      simp only [List.nil_append, Option.some.injEq, Prod.mk.injEq, List.append_cancel_left_eq,
        true_and] at heq2
      refine ⟨?_, by simpa using hpre, by simpa using hfull⟩
      rw [c, heq2]
      simp [mkdirLog_length]
  · refine ⟨evs, by rw [hplace, hl], hev, ?_⟩
    intro hg halloc hsns
    obtain ⟨-, -, hfull⟩ := pathLoop_full_good w junk hs (by omega) halloc (cstr e.name)
      [] 0 st.log hn hU2 (by simp) (by intro x hx; simp at hx) (by simpa using hg)
    exact absurd ⟨by simpa using hfull, halloc _ _⟩ a

/-- The body of the loop of `SzxExtract` for a file entry whose `temp` is
allocated: the decoder call, then `placeEntry` when it succeeds. -/
theorem extractEntry_file (w : Collaborators) (fullPaths : Bool) (i : Nat) (e : Entry)
    (st : DriverState) (hf : e.isDir = false)
    (htemp : ¬ (e.name.length + 1 > st.tempSize ∧ w.tempOk i = false)) :
    extractEntry w fullPaths i e st =
      if (w.decode st.log.length i st.cursor).res ≠ SRes.SZ_OK then
        some (false, ⟨(w.decode st.log.length i st.cursor).res,
          if e.name.length + 1 > st.tempSize then e.name.length + 1 else st.tempSize,
          (w.decode st.log.length i st.cursor).cursor,
          st.log ++ [Event.extract i st.cursor (w.decode st.log.length i st.cursor)]⟩)
      else placeEntry w fullPaths e (w.decode st.log.length i st.cursor)
        ⟨(w.decode st.log.length i st.cursor).res,
          if e.name.length + 1 > st.tempSize then e.name.length + 1 else st.tempSize,
          (w.decode st.log.length i st.cursor).cursor,
          st.log ++ [Event.extract i st.cursor (w.decode st.log.length i st.cursor)]⟩ := by
  unfold extractEntry
  simp only [hf, Bool.false_eq_true, false_and, if_false, htemp]
  by_cases hl : e.name.length + 1 > st.tempSize
  · simp only [hl, if_true]
  · simp only [hl, if_false]

/-- The body of the loop of `SzxExtract` for a directory entry with
`fullPaths` set, when `temp` is allocated: only `placeEntry` acts. -/
theorem extractEntry_dir (w : Collaborators) (i : Nat) (e : Entry) (st : DriverState)
    (hdir : e.isDir = true)
    (htemp : ¬ (e.name.length + 1 > st.tempSize ∧ w.tempOk i = false)) :
    extractEntry w true i e st = placeEntry w true e ⟨st.res, st.cursor, 0, 0⟩
      ⟨st.res, if e.name.length + 1 > st.tempSize then e.name.length + 1 else st.tempSize,
        st.cursor, st.log⟩ := by
  unfold extractEntry
  simp only [hdir, Bool.true_eq_false, and_false, if_false, htemp, if_true]
  by_cases hl : e.name.length + 1 > st.tempSize
  · simp only [hl, if_true]
  · simp only [hl, if_false]

/-- Everything the body of the loop of `SzxExtract` does for a file entry
that is decoded: the calls it logs, with what is handed to `mkdir` and to
`OutFile_Open`, and how it ends. -/
theorem extractEntry_file_log (w : Collaborators) (fullPaths : Bool) (i : Nat) (e : Entry)
    (st : DriverState) (hf : e.isDir = false) (hU : Units16 e.name)
    (htemp : ¬ (e.name.length + 1 > st.tempSize ∧ w.tempOk i = false))
    (hd : (w.decode st.log.length i st.cursor).res = SRes.SZ_OK)
    (hsep : fullPaths = true → w.pathSep ≠ 0 ∧ w.pathSep < 65536) :
    ∃ (go : Bool) (st2 : DriverState) (dirs : List Event) (name : List Nat) (r : Nat)
      (opens tail : List Event),
      extractEntry w fullPaths i e st = some (go, st2) ∧
      st2.log = st.log ++ [Event.extract i st.cursor (w.decode st.log.length i st.cursor)]
        ++ dirs ++ opens ++ tail ∧
      st2.cursor = (w.decode st.log.length i st.cursor).cursor ∧
      (∀ ev ∈ dirs, ev.isCreateDir = true) ∧
      (fullPaths = false → dirs = [] ∧ name = leafName (cstr e.name)) ∧
      (fullPaths = true → name = hostPath w.pathSep (cstr e.name)) ∧
      (fullPaths = true → goodLen (cstr e.name) = (cstr e.name).length →
        (∀ now n, (w.bufAlloc now n).isSome = true) →
        (w.pathSep < 0xD800 ∨ 0xE000 ≤ w.pathSep) →
        dirs = mkdirLog w (st.log.length + 1) ((dirPrefixes w.pathSep (cstr e.name)).map
            (fun p => utf8Encode (scanned p))) ∧
          (∀ p ∈ dirPrefixes w.pathSep (cstr e.name), goodLen p = p.length) ∧
          goodLen name = name.length) ∧
      ((goodLen name = name.length ∧
          (w.bufAlloc (st.log.length + 1 + dirs.length)
            ((utf8Encode (scanned name)).length + 1)).isSome = true ∧
          r = w.outOpen (st.log.length + 1 + dirs.length) (utf8Encode (scanned name)) ∧
          opens = [Event.openOut (utf8Encode (scanned name)) r]) ∨
       (¬ (goodLen name = name.length ∧
          (w.bufAlloc (st.log.length + 1 + dirs.length)
            ((utf8Encode (scanned name)).length + 1)).isSome = true) ∧ r ≠ 0 ∧ opens = [])) ∧
      ((r ≠ 0 ∧ tail = [] ∧ go = false ∧ st2.res = SRes.SZ_ERROR_FAIL) ∨
       (r = 0 ∧ ∃ wr k, (wr ≠ 0 ∨ k ≠ (w.decode st.log.length i st.cursor).outSizeProcessed) ∧
          tail = [Event.write (w.decode st.log.length i st.cursor).cursor.outBuffer
            (w.decode st.log.length i st.cursor).offset
            (w.decode st.log.length i st.cursor).outSizeProcessed wr k] ∧
          go = false ∧ st2.res = SRes.SZ_ERROR_FAIL) ∨
       (r = 0 ∧ ∃ cl, cl ≠ 0 ∧
          tail = [Event.write (w.decode st.log.length i st.cursor).cursor.outBuffer
            (w.decode st.log.length i st.cursor).offset
            (w.decode st.log.length i st.cursor).outSizeProcessed 0
            (w.decode st.log.length i st.cursor).outSizeProcessed, Event.close cl] ∧
          go = false ∧ st2.res = SRes.SZ_ERROR_FAIL) ∨
       (r = 0 ∧
          tail = [Event.write (w.decode st.log.length i st.cursor).cursor.outBuffer
            (w.decode st.log.length i st.cursor).offset
            (w.decode st.log.length i st.cursor).outSizeProcessed 0
            (w.decode st.log.length i st.cursor).outSizeProcessed, Event.close 0] ∧
          go = true ∧ st2.res = SRes.SZ_OK)) := by
  rw [extractEntry_file w fullPaths i e st hf htemp, if_neg (by simp [hd])]
  generalize hdd : w.decode st.log.length i st.cursor = d at *
  generalize hst1 : (⟨d.res, if e.name.length + 1 > st.tempSize then e.name.length + 1
    else st.tempSize, d.cursor, st.log ++ [Event.extract i st.cursor d]⟩ : DriverState) = st1
  have hl1 : st1.log = st.log ++ [Event.extract i st.cursor d] := by rw [← hst1]
  have hr1 : st1.res = SRes.SZ_OK := by rw [← hst1]; exact hd
  have hc1 : st1.cursor = d.cursor := by rw [← hst1]
  obtain ⟨dirs, name, r, opens, heq, hdirs, hflat, hfull, hgood, hopen⟩ :=
    placeEntry_file w fullPaths e d st1 hf hU hsep
  have hlen : (st1.log ++ dirs).length = st.log.length + 1 + dirs.length := by
    rw [hl1]; simp only [List.length_append, List.length_singleton]
  have hlen1 : st1.log.length = st.log.length + 1 := by rw [hl1]; simp
  rw [hlen] at hopen
  rw [hlen1] at hgood
  rw [heq]
  by_cases hr : r ≠ 0
  · rw [if_pos hr]
    exact ⟨_, _, dirs, name, r, opens, [], rfl, by simp [hl1], hc1, hdirs, hflat, hfull, hgood,
      hopen, Or.inl ⟨hr, rfl, rfl, rfl⟩⟩
  · rw [if_neg hr]
    have hr0 : r = 0 := by omega
    obtain ⟨wr, k, hw | ⟨hw1, hw2, cl, hc | hc⟩⟩ := writeOut_spec w d
      ⟨st1.res, st1.tempSize, st1.cursor, st1.log ++ dirs ++ opens⟩
    · rw [hw.2]
      exact ⟨_, _, dirs, name, r, opens, _, rfl, by simp [hl1], hc1, hdirs, hflat, hfull, hgood,
        hopen, Or.inr (Or.inl ⟨hr0, wr, k, hw.1, rfl, rfl, rfl⟩)⟩
    · rw [hc.2]
      subst hw1 hw2
      exact ⟨_, _, dirs, name, r, opens, _, rfl, by simp [hl1], hc1, hdirs, hflat, hfull, hgood,
        hopen, Or.inr (Or.inr (Or.inl ⟨hr0, cl, hc.1, rfl, rfl, rfl⟩))⟩
    · rw [hc.2]
      subst hw1 hw2
      obtain ⟨hc0, -⟩ := hc
      subst hc0
      exact ⟨_, _, dirs, name, r, opens, _, rfl, by simp [hl1], hc1, hdirs, hflat, hfull, hgood,
        hopen, Or.inr (Or.inr (Or.inr ⟨hr0, rfl, rfl, hr1⟩))⟩

/-- The body of the loop of `SzxExtract` for a directory entry with
`fullPaths` set, when `temp` is allocated: only calls of `mkdir` are logged,
`res` and the cache variables stay, and the loop goes on. -/
theorem extractEntry_dir_log (w : Collaborators) (i : Nat) (e : Entry) (st : DriverState)
    (hdir : e.isDir = true) (hU : Units16 e.name)
    (htemp : ¬ (e.name.length + 1 > st.tempSize ∧ w.tempOk i = false))
    (hs : w.pathSep ≠ 0) (hs16 : w.pathSep < 65536) :
    ∃ (evs : List Event),
      extractEntry w true i e st = some (true, ⟨st.res,
        if e.name.length + 1 > st.tempSize then e.name.length + 1 else st.tempSize, st.cursor,
        st.log ++ evs⟩) ∧
      (∀ ev ∈ evs, ev.isCreateDir = true) ∧
      (goodLen (cstr e.name) = (cstr e.name).length →
        (∀ now n, (w.bufAlloc now n).isSome = true) →
        (w.pathSep < 0xD800 ∨ 0xE000 ≤ w.pathSep) →
        evs = mkdirLog w st.log.length ((dirPrefixes w.pathSep (cstr e.name)).map
            (fun p => utf8Encode (scanned p))) ++
          [Event.createDir (utf8Encode (scanned (hostPath w.pathSep (cstr e.name))))
            (w.mkdir (st.log.length + (dirPrefixes w.pathSep (cstr e.name)).length)
              (utf8Encode (scanned (hostPath w.pathSep (cstr e.name)))))] ∧
          (∀ p ∈ dirPrefixes w.pathSep (cstr e.name), goodLen p = p.length) ∧
          goodLen (hostPath w.pathSep (cstr e.name))
            = (hostPath w.pathSep (cstr e.name)).length) := by
  rw [extractEntry_dir w i e st hdir htemp]
  exact placeEntry_dir w e ⟨st.res, st.cursor, 0, 0⟩
    ⟨st.res, if e.name.length + 1 > st.tempSize then e.name.length + 1 else st.tempSize,
      st.cursor, st.log⟩ hdir hU hs hs16

theorem decoderCalls_append (a b : List Event) :
    decoderCalls (a ++ b) = decoderCalls a ++ decoderCalls b := by
  induction a with
  | nil => rfl
  | cons ev a ih =>
    cases ev <;> simp [decoderCalls, ih]

/-- The body of the loop of `SzxTest` for a file entry whose `temp` is
allocated: the decoder call and the test of its status. -/
theorem testEntry_file (w : Collaborators) (i : Nat) (e : Entry)
    (st : DriverState) (hf : e.isDir = false)
    (htemp : ¬ (e.name.length + 1 > st.tempSize ∧ w.tempOk i = false)) :
    testEntry w i e st =
      if (w.decode st.log.length i st.cursor).res ≠ SRes.SZ_OK then
        (false, ⟨(w.decode st.log.length i st.cursor).res,
          if e.name.length + 1 > st.tempSize then e.name.length + 1 else st.tempSize,
          (w.decode st.log.length i st.cursor).cursor,
          st.log ++ [Event.extract i st.cursor (w.decode st.log.length i st.cursor)]⟩)
      else (true, ⟨(w.decode st.log.length i st.cursor).res,
          if e.name.length + 1 > st.tempSize then e.name.length + 1 else st.tempSize,
          (w.decode st.log.length i st.cursor).cursor,
          st.log ++ [Event.extract i st.cursor (w.decode st.log.length i st.cursor)]⟩) := by
  unfold testEntry
  simp only [hf, Bool.false_eq_true, if_false, htemp]
  by_cases hl : e.name.length + 1 > st.tempSize
  · simp only [hl, if_true]
  · simp only [hl, if_false]

/-- The body of the loop of `SzxTest`, as far as the decoder is concerned;
the only calls it logs are decoder calls. -/
theorem testEntry_calls (w : Collaborators) (i : Nat) (e : Entry) (st : DriverState) :
    ∃ (go : Bool) (st2 : DriverState), testEntry w i e st = (go, st2) ∧
      (∃ evs, st2.log = st.log ++ evs ∧ ∀ ev ∈ evs, ev.isExtract = true) ∧
      ((decoderCalls st2.log = decoderCalls st.log ∧ st2.cursor = st.cursor ∧
          (go = true → e.isDir = true ∧ st2.res = st.res) ∧
          (go = false → st2.res ≠ SRes.SZ_OK)) ∨
       (e.isDir = false ∧ ∃ d : Decoded, (∃ now, d = w.decode now i st.cursor) ∧
          decoderCalls st2.log = decoderCalls st.log ++ [(i, st.cursor, d)] ∧
          st2.cursor = d.cursor ∧
          (go = true → d.res = SRes.SZ_OK ∧ st2.res = SRes.SZ_OK) ∧
          (go = false → st2.res ≠ SRes.SZ_OK ∧ (d.res ≠ SRes.SZ_OK → st2.res = d.res)))) := by
  cases hdir : e.isDir with
  | true =>
    exact ⟨true, st, by simp [testEntry, hdir], ⟨[], by simp, by simp⟩,
      Or.inl ⟨rfl, rfl, fun _ => ⟨rfl, rfl⟩, fun h => Bool.noConfusion h⟩⟩
  | false =>
    by_cases htemp : e.name.length + 1 > st.tempSize ∧ w.tempOk i = false
    · exact ⟨false, ⟨SRes.SZ_ERROR_MEM, e.name.length + 1, st.cursor, st.log⟩,
        by simp only [testEntry, hdir, htemp, and_self, if_true, Bool.false_eq_true, if_false],
        ⟨[], by simp, by simp⟩,
        Or.inl ⟨rfl, rfl, fun h => Bool.noConfusion h, fun _ => by simp⟩⟩
    · have heq := testEntry_file w i e st hdir htemp
      by_cases hd : (w.decode st.log.length i st.cursor).res = SRes.SZ_OK
      · rw [if_neg (by simp [hd])] at heq
        refine ⟨true, _, heq, ⟨[_], rfl, by simp [Event.isExtract]⟩,
          Or.inr ⟨rfl, w.decode st.log.length i st.cursor, ⟨st.log.length, rfl⟩, ?_, rfl,
            fun _ => ⟨hd, hd⟩, fun h => Bool.noConfusion h⟩⟩
        simp [decoderCalls_append, decoderCalls]
      · rw [if_pos hd] at heq
        refine ⟨false, _, heq, ⟨[_], rfl, by simp [Event.isExtract]⟩,
          Or.inr ⟨rfl, w.decode st.log.length i st.cursor, ⟨st.log.length, rfl⟩, ?_, rfl,
            fun h => Bool.noConfusion h, fun _ => ⟨hd, fun _ => rfl⟩⟩⟩
        simp [decoderCalls_append, decoderCalls]

/-- The loop of `SzxTest`: the calls it logs are decoder calls only, one per
file entry in table order up to the point where the loop is left, each with
the cache variables left by the call before; the status left is that of a
failed call when there is one. -/
theorem SzxTest_loop_spec (w : Collaborators) (db : List Entry) :
    ∀ (i : Nat) (st : DriverState), ∃ (calls : List (Nat × Cursor × Decoded)) (evs : List Event),
      (SzxTest_loop w db i st).log = st.log ++ evs ∧ (∀ ev ∈ evs, ev.isExtract = true) ∧
      decoderCalls (SzxTest_loop w db i st).log = decoderCalls st.log ++ calls ∧
      Chained st.cursor calls ∧
      calls.map (·.1) <+: fileIndices db i ∧
      ((SzxTest_loop w db i st).res = SRes.SZ_OK →
        calls.map (·.1) = fileIndices db i ∧ ∀ c ∈ calls, c.2.2.res = SRes.SZ_OK) ∧
      (∀ c ∈ calls, c.2.2.res ≠ SRes.SZ_OK → (SzxTest_loop w db i st).res = c.2.2.res) ∧
      (∀ c ∈ calls, ∃ now cur, c.2.2 = w.decode now c.1 cur) := by
  induction db with
  | nil =>
    intro i st
    exact ⟨[], [], by simp [SzxTest_loop], by simp, by simp [SzxTest_loop], trivial,
      by simp [fileIndices], fun _ => ⟨rfl, by simp⟩, by simp, by simp⟩
  | cons e rest ih =>
    intro i st
    obtain ⟨go, st1, heq, ⟨evs1, hlog1, hev1⟩, hcase⟩ := testEntry_calls w i e st
    cases go with
    | false =>
      have hloop : SzxTest_loop w (e :: rest) i st = st1 := by
        rw [SzxTest_loop, heq]
      rw [hloop]
      rcases hcase with ⟨h1, -, -, h4⟩ | ⟨hf, d, hnow, h1, -, -, h4⟩
      · exact ⟨[], evs1, hlog1, hev1, by simpa using h1, trivial, List.nil_prefix,
          fun h => absurd h (h4 rfl), by simp, by simp⟩
      · obtain ⟨now, hnow⟩ := hnow
        refine ⟨[(i, st.cursor, d)], evs1, hlog1, hev1, h1, ⟨rfl, by simp, trivial⟩, ?_,
          fun h => absurd h (h4 rfl).1, ?_, ?_⟩
        · simp [fileIndices, hf]
        · intro c hc hne
          simp only [List.mem_singleton] at hc
          subst hc
          exact (h4 rfl).2 hne
        · intro c hc
          simp only [List.mem_singleton] at hc
          subst hc
          exact ⟨now, st.cursor, hnow⟩
    | true =>
      have hloop : SzxTest_loop w (e :: rest) i st = SzxTest_loop w rest (i + 1) st1 := by
        rw [SzxTest_loop, heq]
      rw [hloop]
      obtain ⟨calls, evs, g1, g2, g3, g4, g5, g6, g7, g8⟩ := ih (i + 1) st1
      have hlogs : (SzxTest_loop w rest (i + 1) st1).log = st.log ++ (evs1 ++ evs) := by
        rw [g1, hlog1, List.append_assoc]
      have hevs : ∀ ev ∈ evs1 ++ evs, ev.isExtract = true := by
        intro ev hev
        rcases List.mem_append.1 hev with h | h
        · exact hev1 ev h
        · exact g2 ev h
      rcases hcase with ⟨h1, h2, h3, -⟩ | ⟨hf, d, hnow, h1, h2, h3, -⟩
      · obtain ⟨hdir, -⟩ := h3 rfl
        refine ⟨calls, evs1 ++ evs, hlogs, hevs, by rw [g3, h1], by rw [← h2]; exact g4, ?_, ?_,
          g7, g8⟩
        · simpa [fileIndices, hdir] using g5
        · simpa [fileIndices, hdir] using g6
      · obtain ⟨hdok, -⟩ := h3 rfl
        obtain ⟨now, hnow⟩ := hnow
        refine ⟨(i, st.cursor, d) :: calls, evs1 ++ evs, hlogs, hevs, by rw [g3, h1]; simp,
          ⟨rfl, fun _ => hdok, by rw [← h2]; exact g4⟩, ?_, ?_, ?_, ?_⟩
        · simpa [fileIndices, hf] using g5
        · intro hres
          obtain ⟨a, b⟩ := g6 hres
          refine ⟨by simp [fileIndices, hf, a], ?_⟩
          intro c hc
          rcases List.mem_cons.1 hc with rfl | hc
          · exact hdok
          · exact b c hc
        · intro c hc hne
          rcases List.mem_cons.1 hc with rfl | hc
          · exact absurd hdok hne
          · exact g7 c hc hne
        · intro c hc
          rcases List.mem_cons.1 hc with rfl | hc
          · exact ⟨now, st.cursor, hnow⟩
          · exact g8 c hc

theorem blank_length (st st2 : DriverState) (h : st2.blank = st.blank) :
    st2.log.length = st.log.length := by
  have := congrArg (fun x => x.2.2.2.length) h
  simpa [DriverState.blank] using this

theorem MyCreateDir_mkdir (w : Collaborators) (mk : Nat → List Nat → Nat)
    (log log2 : List Event) (name : List Nat)
    (h : log2.map Event.forgetDir = log.map Event.forgetDir) :
    (MyCreateDir { w with mkdir := mk } log2 name = none ∧ MyCreateDir w log name = none) ∨
    ∃ r r2 l l2, MyCreateDir { w with mkdir := mk } log2 name = some (r2, l2) ∧
      MyCreateDir w log name = some (r, l) ∧
      l2.map Event.forgetDir = l.map Event.forgetDir := by
  have hlen : log2.length = log.length := by
    have := congrArg List.length h
    simpa using this
  unfold MyCreateDir
  simp only [hlen]
  cases Utf16_To_Char (w.bufAlloc log.length) [] name with
  | none => exact Or.inl ⟨rfl, rfl⟩
  | some p =>
    right
    simp only
    split_ifs
    · exact ⟨_, _, _, _, rfl, rfl, h⟩
    · exact ⟨_, _, _, _, rfl, rfl, by simp [h, Event.forgetDir]⟩

theorem OutFile_OpenUtf16_mkdir (w : Collaborators) (mk : Nat → List Nat → Nat)
    (log log2 : List Event) (name : List Nat)
    (h : log2.map Event.forgetDir = log.map Event.forgetDir) :
    (OutFile_OpenUtf16 { w with mkdir := mk } log2 name).map
        (fun x => (x.1, x.2.map Event.forgetDir))
      = (OutFile_OpenUtf16 w log name).map (fun x => (x.1, x.2.map Event.forgetDir)) := by
  have hlen : log2.length = log.length := by
    have := congrArg List.length h
    simpa using this
  unfold OutFile_OpenUtf16
  simp only [hlen]
  cases Utf16_To_Char (w.bufAlloc log.length) [] name with
  | none => rfl
  | some p =>
    simp only
    split_ifs
    · simp [h]
    · simp [h, Event.forgetDir]

theorem pathLoop_mkdir (w : Collaborators) (mk : Nat → List Nat → Nat) (fullPaths : Bool)
    (rest : List Nat) :
    ∀ (done : List Nat) (dp : Nat) (log log2 : List Event),
      log2.map Event.forgetDir = log.map Event.forgetDir →
      (pathLoop { w with mkdir := mk } fullPaths done rest dp log2).map
          (fun x => (x.1, x.2.1, x.2.2.map Event.forgetDir))
        = (pathLoop w fullPaths done rest dp log).map
          (fun x => (x.1, x.2.1, x.2.2.map Event.forgetDir)) := by
  induction rest with
  | nil => intro done dp log log2 _; rfl
  | cons c rest ih =>
    intro done dp log log2 hl
    rw [pathLoop, pathLoop]
    by_cases hc : c = 0
    · simp only [hc, if_true, Option.map_some', hl]
    · simp only [hc, if_false]
      by_cases h47 : c = 47
      · simp only [h47, if_true]
        cases fullPaths with
        | false =>
          simp only [Bool.false_eq_true, if_false]
          exact ih _ _ _ _ hl
        | true =>
          simp only [if_true]
          rcases MyCreateDir_mkdir w mk log log2 (done ++ 0 :: rest) hl with ⟨h1, h2⟩ |
            ⟨r, r2, l, l2, h1, h2, h3⟩
          · rw [h1, h2]
          · rw [h1, h2]
            exact ih _ _ _ _ h3
      · simp only [h47, if_false]
        exact ih _ _ _ _ hl

theorem writeOut_mkdir (w : Collaborators) (mk : Nat → List Nat → Nat) (d : Decoded)
    (st st2 : DriverState) (h : st2.blank = st.blank) :
    ((writeOut { w with mkdir := mk } d st2).1, (writeOut { w with mkdir := mk } d st2).2.blank)
      = ((writeOut w d st).1, (writeOut w d st).2.blank) := by
  have hlen := blank_length st st2 h
  obtain ⟨r, t, c, l⟩ := st
  obtain ⟨r2, t2, c2, l2⟩ := st2
  simp only [DriverState.blank, Prod.mk.injEq] at h hlen
  obtain ⟨h1, h2, h3, h4⟩ := h
  subst h1 h2 h3
  unfold writeOut
  simp only [hlen, List.length_append, List.length_singleton]
  split_ifs <;> simp [DriverState.blank, h4, Event.forgetDir]

theorem placeEntry_mkdir (w : Collaborators) (mk : Nat → List Nat → Nat) (fullPaths : Bool)
    (e : Entry) (d : Decoded) (st st2 : DriverState) (h : st2.blank = st.blank) :
    (placeEntry { w with mkdir := mk } fullPaths e d st2).map (fun x => (x.1, x.2.blank))
      = (placeEntry w fullPaths e d st).map (fun x => (x.1, x.2.blank)) := by
  obtain ⟨r, t, c, l⟩ := st
  obtain ⟨r2, t2, c2, l2⟩ := st2
  simp only [DriverState.blank, Prod.mk.injEq] at h
  obtain ⟨h1, h2, h3, h4⟩ := h
  subst h1 h2 h3
  have hp := pathLoop_mkdir w mk fullPaths (e.name ++ [0]) [] 0 l l2 h4
  unfold placeEntry
  simp only
  cases hA : pathLoop { w with mkdir := mk } fullPaths [] (e.name ++ [0]) 0 l2 with
  | none =>
    rw [hA] at hp
    cases hB : pathLoop w fullPaths [] (e.name ++ [0]) 0 l with
    | none => rfl
    | some q => rw [hB] at hp; simp at hp
  | some p =>
    rw [hA] at hp
    cases hB : pathLoop w fullPaths [] (e.name ++ [0]) 0 l with
    | none => rw [hB] at hp; simp at hp
    | some q =>
      rw [hB] at hp
      obtain ⟨n2, dp2, g2⟩ := p
      obtain ⟨n, dp, g⟩ := q
      simp only [Option.map_some', Option.some.injEq, Prod.mk.injEq] at hp
      obtain ⟨e1, e2, e3⟩ := hp
      subst e1 e2
      cases e.isDir with
      | true =>
        simp only [if_true]
        rcases MyCreateDir_mkdir w mk g g2 (List.drop dp2 n2) e3 with ⟨a1, a2⟩ |
          ⟨ρ, ρ2, k, k2, a1, a2, a3⟩
        · rw [a1, a2]
        · rw [a1, a2]
          simp [DriverState.blank, a3]
      | false =>
        simp only [Bool.false_eq_true, if_false]
        have ho := OutFile_OpenUtf16_mkdir w mk g g2 (List.drop dp2 n2) e3
        cases hC : OutFile_OpenUtf16 { w with mkdir := mk } g2 (List.drop dp2 n2) with
        | none =>
          rw [hC] at ho
          cases hD : OutFile_OpenUtf16 w g (List.drop dp2 n2) with
          | none => rfl
          | some q => rw [hD] at ho; simp at ho
        | some p =>
          rw [hC] at ho
          cases hD : OutFile_OpenUtf16 w g (List.drop dp2 n2) with
          | none => rw [hD] at ho; simp at ho
          | some q =>
            rw [hD] at ho
            obtain ⟨ρ2, k2⟩ := p
            obtain ⟨ρ, k⟩ := q
            simp only [Option.map_some', Option.some.injEq, Prod.mk.injEq] at ho
            obtain ⟨o1, o2⟩ := ho
            subst o1
            simp only
            by_cases hρ : ρ2 ≠ 0
            · rw [if_pos hρ, if_pos hρ]
              simp [DriverState.blank, o2]
            · rw [if_neg hρ, if_neg hρ]
              simp only [Option.map_some', Option.some.injEq]
              apply writeOut_mkdir
              simp [DriverState.blank, o2]

theorem extractEntry_mkdir (w : Collaborators) (mk : Nat → List Nat → Nat) (fullPaths : Bool)
    (i : Nat) (e : Entry) (st st2 : DriverState) (h : st2.blank = st.blank) :
    (extractEntry { w with mkdir := mk } fullPaths i e st2).map (fun x => (x.1, x.2.blank))
      = (extractEntry w fullPaths i e st).map (fun x => (x.1, x.2.blank)) := by
  have hb := h
  obtain ⟨r, t, c, l⟩ := st
  obtain ⟨r2, t2, c2, l2⟩ := st2
  simp only [DriverState.blank, Prod.mk.injEq] at h
  obtain ⟨h1, h2, h3, h4⟩ := h
  subst h1 h2 h3
  have hlen : l2.length = l.length := by
    have := congrArg List.length h4
    simpa using this
  unfold extractEntry
  by_cases hl : e.name.length + 1 > t2
  · simp only [hl, if_true, hlen, true_and]
    split_ifs
    all_goals first
      | (apply placeEntry_mkdir; simp [DriverState.blank, h4, Event.forgetDir])
      | (simp [DriverState.blank, h4, Event.forgetDir])
  · simp only [hl, if_false, hlen, false_and]
    split_ifs
    all_goals first
      | (apply placeEntry_mkdir; simp [DriverState.blank, h4, Event.forgetDir])
      | (simp [DriverState.blank, h4, Event.forgetDir])

theorem SzxExtract_loop_mkdir (w : Collaborators) (mk : Nat → List Nat → Nat) (fullPaths : Bool)
    (db : List Entry) :
    ∀ (i : Nat) (st st2 : DriverState), st2.blank = st.blank →
      (SzxExtract_loop { w with mkdir := mk } fullPaths db i st2).map DriverState.blank
        = (SzxExtract_loop w fullPaths db i st).map DriverState.blank := by
  induction db with
  | nil =>
    intro i st st2 h
    simp [SzxExtract_loop, h]
  | cons e rest ih =>
    intro i st st2 h
    have hb := extractEntry_mkdir w mk fullPaths i e st st2 h
    rw [SzxExtract_loop, SzxExtract_loop]
    cases hA : extractEntry { w with mkdir := mk } fullPaths i e st2 with
    | none =>
      rw [hA] at hb
      cases hB : extractEntry w fullPaths i e st with
      | none => rfl
      | some q => rw [hB] at hb; simp at hb
    | some p =>
      rw [hA] at hb
      cases hB : extractEntry w fullPaths i e st with
      | none => rw [hB] at hb; simp at hb
      | some q =>
        rw [hB] at hb
        obtain ⟨go2, s2⟩ := p
        obtain ⟨go, s⟩ := q
        simp only [Option.map_some', Option.some.injEq, Prod.mk.injEq] at hb
        obtain ⟨e1, e2⟩ := hb
        subst e1
        cases go2 with
        | true => exact ih (i + 1) s s2 e2
        | false => simp [e2]

theorem fileIndices_mem (db : List Entry) :
    ∀ (i k : Nat) (e : Entry), db.get? k = some e → e.isDir = false → i + k ∈ fileIndices db i := by
  induction db with
  | nil => intro i k e h; simp at h
  | cons x rest ih =>
    intro i k e h hf
    cases k with
    | zero =>
      simp only [List.get?_cons_zero, Option.some.injEq] at h
      subst h
      simp [fileIndices, hf]
    | succ k =>
      simp only [List.get?_cons_succ] at h
      have := ih (i + 1) k e h hf
      have e2 : i + (k + 1) = i + 1 + k := by omega
      rw [e2]
      unfold fileIndices
      split_ifs
      · exact this
      · exact List.mem_cons_of_mem _ this

/-- What `SzxTest` leaves, from `SzxTest_loop_spec`. -/
theorem SzxTest_spec (w : Collaborators) (fileOpen : Bool) (opened : Except SRes (List Entry)) :
    (∀ ev ∈ (SzxTest w fileOpen opened).log, ev.isExtract = true) ∧
    Chained ⟨0xFFFFFFFF, none, 0⟩ (decoderCalls (SzxTest w fileOpen opened).log) ∧
    (∀ c ∈ decoderCalls (SzxTest w fileOpen opened).log, c.2.2.res ≠ SRes.SZ_OK →
      (SzxTest w fileOpen opened).res = c.2.2.res) ∧
    (∀ c ∈ decoderCalls (SzxTest w fileOpen opened).log, ∃ now cur, c.2.2 = w.decode now c.1 cur) ∧
    (∀ db, opened = Except.ok db →
      (decoderCalls (SzxTest w fileOpen opened).log).map (·.1) <+: fileIndices db 0 ∧
      (fileOpen = true → (SzxTest w fileOpen opened).res = SRes.SZ_OK →
        (decoderCalls (SzxTest w fileOpen opened).log).map (·.1) = fileIndices db 0 ∧
        ∀ c ∈ decoderCalls (SzxTest w fileOpen opened).log, c.2.2.res = SRes.SZ_OK)) := by
  cases fileOpen with
  | false =>
    simp only [SzxTest, Bool.false_eq_true, not_false_eq_true, if_true, decoderCalls]
    exact ⟨by simp, trivial, by simp, by simp, fun db _ => ⟨ List.nil_prefix, by simp⟩⟩
  | true =>
    cases opened with
    | error res =>
      simp only [SzxTest, not_true_eq_false, if_false, decoderCalls]
      exact ⟨by simp, trivial, by simp, by simp, fun db h => by cases h⟩
    | ok db =>
      obtain ⟨calls, evs, g1, g2, g3, g4, g5, g6, g7, g8⟩ :=
        SzxTest_loop_spec w db 0 ⟨SRes.SZ_OK, 0, ⟨0xFFFFFFFF, none, 0⟩, []⟩
      simp only [List.nil_append, decoderCalls] at g1 g3
      simp only [SzxTest, not_true_eq_false, if_false, g1, g3]
      rw [g1] at g3
      rw [g3]
      refine ⟨g2, g4, g7, g8, ?_⟩
      intro db2 h
      cases h
      exact ⟨g5, fun _ => g6⟩

theorem SzxExtract_mkdir (w : Collaborators) (mk : Nat → List Nat → Nat) (fileOpen : Bool)
    (opened : Except SRes (List Entry)) (fullPaths : Bool) :
    (SzxExtract { w with mkdir := mk } fileOpen opened fullPaths).map
        (fun r => (r.res, r.log.map Event.forgetDir))
      = (SzxExtract w fileOpen opened fullPaths).map
        (fun r => (r.res, r.log.map Event.forgetDir)) := by
  cases fileOpen with
  | false => simp [SzxExtract]
  | true =>
    cases opened with
    | error res => simp [SzxExtract]
    | ok db =>
      have h := SzxExtract_loop_mkdir w mk fullPaths db 0
        ⟨SRes.SZ_OK, 0, ⟨0xFFFFFFFF, none, 0⟩, []⟩ ⟨SRes.SZ_OK, 0, ⟨0xFFFFFFFF, none, 0⟩, []⟩ rfl
      simp only [SzxExtract, not_true_eq_false, if_false]
      cases hA : SzxExtract_loop { w with mkdir := mk } fullPaths db 0
          ⟨SRes.SZ_OK, 0, ⟨0xFFFFFFFF, none, 0⟩, []⟩ with
      | none =>
        rw [hA] at h
        cases hB : SzxExtract_loop w fullPaths db 0 ⟨SRes.SZ_OK, 0, ⟨0xFFFFFFFF, none, 0⟩, []⟩ with
        | none => rfl
        | some q => rw [hB] at h; simp at h
      | some p =>
        rw [hA] at h
        cases hB : SzxExtract_loop w fullPaths db 0 ⟨SRes.SZ_OK, 0, ⟨0xFFFFFFFF, none, 0⟩, []⟩ with
        | none => rw [hB] at h; simp at h
        | some q =>
          rw [hB] at h
          simp only [Option.map_some', Option.some.injEq, DriverState.blank, Prod.mk.injEq] at h
          simp [h.1, h.2.2.2]

theorem prefixes_transcode (sep : Nat) (s : List Nat)
    (h : ∀ p ∈ dirPrefixes sep s, goodLen p = p.length) :
    (dirPrefixes sep s).map transcode
      = ((dirPrefixes sep s).map (fun p => utf8Encode (scanned p))).map some := by
  rw [List.map_map]
  apply List.map_congr_left
  intro p hp
  exact transcode_good p (h p hp)

/-! ## The claims -/

/-- C1. For every well-formed UTF-16 sequence, the measuring pass (null
destination) and the writing pass of `Utf16_To_Utf8` both succeed with the
same length, the writing pass stores its bytes at indices 0 .. length-1, and
those bytes, decoded by the reference UTF-8 decoder and re-encoded as
UTF-16, give back exactly the original sequence. -/
theorem Utf16_To_Utf8_roundtrip (src : List Nat) (h : WellFormedUtf16 src) :
    (Utf16_To_Utf8 false src).ok = true ∧
    (Utf16_To_Utf8 true src).ok = true ∧
    (Utf16_To_Utf8 true src).destLen = (Utf16_To_Utf8 false src).destLen ∧
    (Utf16_To_Utf8 true src).stores.map Prod.fst = List.range (Utf16_To_Utf8 true src).destLen ∧
    ∃ cps, utf8Decode (Utf16_To_Utf8 true src).bytes = some cps ∧ utf16Encode cps = src := by
  have hU : Units16 src := h.1
  have hg : goodLen src = src.length :=
    (goodLen_eq_length_iff src hU).2 ((wellFormed_iff_not_malformed src hU).1 h)
  simp only [Utf16_To_Utf8_spec _ src hU, Utf8Run.bytes, storesAt_true_fst, storesAt_true_snd,
    List.range_eq_range', hg, decide_True, true_and]
  refine ⟨scanned src, utf8Decode_encode _ (scanned_scalar src hU), ?_⟩
  rw [utf16Encode_scanned src hU, hg, List.take_length]

/-- Witness for C1 on the units of "Aé€😀". -/
theorem Utf16_To_Utf8_roundtrip_witness :
    WellFormedUtf16 [0x41, 0xE9, 0x20AC, 0xD83D, 0xDE00] ∧
    ∃ cps, utf8Decode (Utf16_To_Utf8 true [0x41, 0xE9, 0x20AC, 0xD83D, 0xDE00]).bytes = some cps ∧
      utf16Encode cps = [0x41, 0xE9, 0x20AC, 0xD83D, 0xDE00] :=
  ⟨by decide, (Utf16_To_Utf8_roundtrip [0x41, 0xE9, 0x20AC, 0xD83D, 0xDE00] (by decide)).2.2.2.2⟩

/-- C2. For every sequence of 16-bit units, `Utf16_To_Utf8` (either pass)
reports failure exactly when some unit is a malformed surrogate; and on
failure, with `i` the index of the first malformed surrogate, the length
reported and the bytes written (at indices 0 .. length-1) are exactly the
UTF-8 encoding of the units before index `i`, which is also what a run on
those units alone writes, successfully. -/
theorem Utf16_To_Utf8_failure_iff_malformed (dest : Bool) (src : List Nat) (hU : Units16 src) :
    ((Utf16_To_Utf8 dest src).ok = false ↔ ∃ i < src.length, MalformedAt src i) ∧
    ((Utf16_To_Utf8 dest src).ok = false →
      ∃ i < src.length, MalformedAt src i ∧ (∀ j < i, ¬ MalformedAt src j) ∧
        ∃ cps, utf16Decode (src.take i) = some cps ∧
          (Utf16_To_Utf8 dest src).destLen = (utf8Encode cps).length ∧
          (Utf16_To_Utf8 true src).bytes = utf8Encode cps ∧
          (Utf16_To_Utf8 true src).stores.map Prod.fst = List.range (utf8Encode cps).length ∧
          Utf16_To_Utf8 dest (src.take i) =
            ⟨true, (Utf16_To_Utf8 dest src).destLen, (Utf16_To_Utf8 dest src).stores⟩) := by
  have hiff := goodLen_eq_length_iff src hU
  obtain ⟨hb1, hb2⟩ := goodLen_first_bad src hU
  have hle := goodLen_le src
  have hU2 : Units16 (src.take (goodLen src)) := fun u hu => hU u (List.mem_of_mem_take hu)
  have hok : (Utf16_To_Utf8 dest src).ok = false ↔ goodLen src ≠ src.length := by
    simp [Utf16_To_Utf8_spec _ src hU]
  constructor
  · rw [hok, ne_eq, hiff]
    push_neg
    rfl
  · intro hf
    have hne := hok.1 hf
    have hlt : goodLen src < src.length := by omega
    refine ⟨goodLen src, hlt, hb2 hlt, hb1, scanned src, utf16Decode_take_goodLen src, ?_, ?_, ?_, ?_⟩
    · simp [Utf16_To_Utf8_spec _ src hU]
    · simp [Utf16_To_Utf8_spec _ src hU, Utf8Run.bytes, storesAt_true_snd]
    · simp [Utf16_To_Utf8_spec _ src hU, storesAt_true_fst, List.range_eq_range']
    · rw [Utf16_To_Utf8_spec _ _ hU2, Utf16_To_Utf8_spec _ src hU, (goodLen_scanned_take src).1,
        (goodLen_scanned_take src).2]
      simp [List.length_take, hle]

/-- Witness for C2 on a sequence with an unpaired high surrogate. -/
theorem Utf16_To_Utf8_failure_iff_malformed_witness :
    Units16 [0x41, 0xD83D, 0x42] ∧
    ((Utf16_To_Utf8 true [0x41, 0xD83D, 0x42]).ok = false ↔
      ∃ i < [0x41, 0xD83D, 0x42].length, MalformedAt [0x41, 0xD83D, 0x42] i) :=
  ⟨by decide, (Utf16_To_Utf8_failure_iff_malformed true [0x41, 0xD83D, 0x42] (by decide)).1⟩

/-- C3. For every sequence of 16-bit units, well-formed or not, the measuring
pass of `Utf16_To_Utf8` returns the same flag and the same length as the
writing pass and stores nothing, the writing pass stores to exactly the
indices 0 .. length-1, and `Utf16_To_Utf8Buf` never stores outside the buffer
it sized to the measured length plus one: unless the allocation fails, it
leaves the written bytes followed by the NUL at index length. -/
theorem Utf16_To_Utf8_measure_eq_write (src : List Nat) (hU : Units16 src) :
    (Utf16_To_Utf8 false src).ok = (Utf16_To_Utf8 true src).ok ∧
    (Utf16_To_Utf8 false src).destLen = (Utf16_To_Utf8 true src).destLen ∧
    (Utf16_To_Utf8 false src).stores = [] ∧
    (Utf16_To_Utf8 true src).stores.map Prod.fst = List.range (Utf16_To_Utf8 true src).destLen ∧
    ∀ (alloc : Allocator) (dest : CBuf),
      ∃ res buf, Utf16_To_Utf8Buf alloc dest src = some (res, buf) ∧
        (res = SRes.SZ_ERROR_MEM ↔ (Buf_EnsureSize alloc dest
          ((Utf16_To_Utf8 false src).destLen + 1)).1 = false) ∧
        (res ≠ SRes.SZ_ERROR_MEM →
          (Utf16_To_Utf8 false src).destLen + 1 ≤ buf.length ∧
          buf.take ((Utf16_To_Utf8 false src).destLen + 1)
            = (Utf16_To_Utf8 true src).bytes ++ [0]) := by
  refine ⟨?_, ?_, ?_, ?_, ?_⟩
  · simp [Utf16_To_Utf8_spec _ src hU]
  · simp [Utf16_To_Utf8_spec _ src hU]
  · simp [Utf16_To_Utf8_spec _ src hU, storesAt_false]
  · simp [Utf16_To_Utf8_spec _ src hU, storesAt_true_fst, List.range_eq_range']
  · intro alloc dest
    rw [Utf16_To_Utf8Buf_spec alloc dest src hU]
    simp only [Utf16_To_Utf8_spec _ src hU, Utf8Run.bytes, storesAt_true_snd]
    by_cases he : (Buf_EnsureSize alloc dest ((utf8Encode (scanned src)).length + 1)).1 = true
    · have hl := Buf_EnsureSize_length alloc dest _ he
      simp only [he, if_true]
      refine ⟨_, _, rfl, ?_, fun _ => ⟨?_, ?_⟩⟩
      · split_ifs <;> simp
      · simp only [List.length_append, List.length_drop, List.length_singleton]
        omega
      · rw [List.take_append_eq_append_take]
        simp
    · simp only [he, if_false]
      refine ⟨_, _, rfl, ?_, fun h => absurd rfl h⟩
      simp [he]

/-- Witness for C3 on a sequence that ends in an unpaired high surrogate. -/
theorem Utf16_To_Utf8_measure_eq_write_witness :
    Units16 [0x41, 0x20AC, 0xD83D] ∧
    (Utf16_To_Utf8 false [0x41, 0x20AC, 0xD83D]).destLen
      = (Utf16_To_Utf8 true [0x41, 0x20AC, 0xD83D]).destLen :=
  ⟨by decide, (Utf16_To_Utf8_measure_eq_write [0x41, 0x20AC, 0xD83D] (by decide)).2.1⟩

/-- C4. For every 64-bit tick count `t`, the string of
`ConvertFileTimeToString` is the rendering of the reference date-time
obtained by adding `t / 10^7` seconds, one at a time, to 1601-01-01 00:00:00
in the proleptic Gregorian calendar: it consists of six digit fields with
the separators `-`, `-`, space, `:`, `:` between them, and the fields read
back as the year, month, day, hour, minute and second of that date-time. -/
theorem ConvertFileTimeToString_calendar (t : Nat) (ht : t < 2 ^ 64) :
    ConvertFileTimeToString (CNtfsFileTime.ofTicks t)
      = some (renderDateTime (addSeconds (t / 10000000) epoch1601)) ∧
    ∃ Y M D H Mi S : List Nat,
      ConvertFileTimeToString (CNtfsFileTime.ofTicks t)
        = some (Y ++ ascii "-" ++ M ++ ascii "-" ++ D ++ ascii " " ++ H ++ ascii ":" ++ Mi
            ++ ascii ":" ++ S ++ [0]) ∧
      (∀ c ∈ Y ++ M ++ D ++ H ++ Mi ++ S, 48 ≤ c ∧ c ≤ 57) ∧
      readDecimal Y = (addSeconds (t / 10000000) epoch1601).year ∧
      readDecimal M = (addSeconds (t / 10000000) epoch1601).month ∧
      readDecimal D = (addSeconds (t / 10000000) epoch1601).day ∧
      readDecimal H = (addSeconds (t / 10000000) epoch1601).hour ∧
      readDecimal Mi = (addSeconds (t / 10000000) epoch1601).minute ∧
      readDecimal S = (addSeconds (t / 10000000) epoch1601).second := by
  have heq := ConvertFileTimeToString_eq t ht
  refine ⟨heq, _, _, _, _, _, _, heq, ?_, readDecimal_zeroPad _ _, readDecimal_zeroPad _ _,
    readDecimal_zeroPad _ _, readDecimal_zeroPad _ _, readDecimal_zeroPad _ _,
    readDecimal_zeroPad _ _⟩
  intro c hc
  simp only [List.mem_append] at hc
  rcases hc with ((((hc | hc) | hc) | hc) | hc) | hc <;> exact zeroPad_digits _ _ c hc

/-- Witness for C4 at the last tick of 2000-02-29. -/
theorem ConvertFileTimeToString_calendar_witness :
    ConvertFileTimeToString (CNtfsFileTime.ofTicks 125963423999999999)
      = some (renderDateTime (addSeconds (125963423999999999 / 10000000) epoch1601)) :=
  (ConvertFileTimeToString_calendar 125963423999999999 (by norm_num)).1

set_option maxRecDepth 100000 in
/-- Counterexample to C5 as stated: at the first tick of year 10000 the
string is `10000-01-01 00:00:00`, which has 20 characters, not 19. -/
theorem ConvertFileTimeToString_year_10000 :
    ConvertFileTimeToString (CNtfsFileTime.ofTicks 2650467744000000000)
      = some (ascii "10000-01-01 00:00:00" ++ [0]) ∧
    (ascii "10000-01-01 00:00:00").length ≠ 19 := by
  decide

/-- C5, amended. For every 64-bit tick count the string of
`ConvertFileTimeToString` is a year, `-`, month, `-`, day, space, hour, `:`,
minute, `:`, second, NUL, all fields made of digits, the five fields after
the year two digits wide; the year is four digits wide, so the string has
the 19 characters of `YYYY-MM-DD HH:MM:SS` like the 19 blanks of an absent
timestamp, exactly when the date falls before year 10000, that is for tick
counts below 2650467744000000000, and five digits wide from there on. -/
theorem ConvertFileTimeToString_layout (t : Nat) (ht : t < 2 ^ 64) :
    ∃ Y M D H Mi S : List Nat,
      ConvertFileTimeToString (CNtfsFileTime.ofTicks t)
        = some (Y ++ ascii "-" ++ M ++ ascii "-" ++ D ++ ascii " " ++ H ++ ascii ":" ++ Mi
            ++ ascii ":" ++ S ++ [0]) ∧
      Y.length = (if t < 2650467744000000000 then 4 else 5) ∧
      M.length = 2 ∧ D.length = 2 ∧ H.length = 2 ∧ Mi.length = 2 ∧ S.length = 2 ∧
      (∀ c ∈ Y ++ M ++ D ++ H ++ Mi ++ S, 48 ≤ c ∧ c ≤ 57) ∧
      (t < 2650467744000000000 →
        (Y ++ ascii "-" ++ M ++ ascii "-" ++ D ++ ascii " " ++ H ++ ascii ":" ++ Mi
            ++ ascii ":" ++ S).length = 19 ∧
        blankTime = List.replicate 19 32 ++ [0]) := by
  obtain ⟨Y, M, D, H, Mi, S, g, gy, gm, gd, gh, gi, gs, gdig⟩ := timestamp_layout t ht
  refine ⟨Y, M, D, H, Mi, S, g, gy, gm, gd, gh, gi, gs, gdig, fun hB => ⟨?_, rfl⟩⟩
  rw [if_pos hB] at gy
  simp only [List.length_append, gy, gm, gd, gh, gi, gs]
  rfl

/-- Witness for C5, amended, at tick 0. -/
theorem ConvertFileTimeToString_layout_witness :
    ∃ Y M D H Mi S : List Nat,
      ConvertFileTimeToString (CNtfsFileTime.ofTicks 0)
        = some (Y ++ ascii "-" ++ M ++ ascii "-" ++ D ++ ascii " " ++ H ++ ascii ":" ++ Mi
            ++ ascii ":" ++ S ++ [0]) ∧ Y.length = 4 := by
  obtain ⟨Y, M, D, H, Mi, S, g, gy, -⟩ := ConvertFileTimeToString_layout 0 (by norm_num)
  exact ⟨Y, M, D, H, Mi, S, g, gy⟩

/-- C6. For every unsigned 64-bit value, `UInt64ToStr` writes the canonical
decimal representation followed by NUL: the digits are those of
`Nat.digits 10`, most significant first, all in '0'-'9', with no leading
zero unless the value is 0 (rendered as "0"), and reading them back gives
the value. -/
theorem UInt64ToStr_canonical (value : Nat) (h : value < 2 ^ 64) :
    ∃ ds, UInt64ToStr value = some (ds ++ [0]) ∧
      ds = decimal value ∧
      (∀ c ∈ ds, 48 ≤ c ∧ c ≤ 57) ∧
      (value = 0 → ds = ascii "0") ∧
      (value ≠ 0 → ds.head? ≠ some 48) ∧
      readDecimal ds = value := by
  refine ⟨decimal value, UInt64ToStr_eq value h, rfl, decimal_digits value, ?_,
    decimal_head value, readDecimal_decimal value⟩
  rintro rfl
  rfl

/-- Witness for C6 at the largest 64-bit value. -/
theorem UInt64ToStr_canonical_witness :
    ∃ ds, UInt64ToStr 18446744073709551615 = some (ds ++ [0]) ∧
      readDecimal ds = 18446744073709551615 := by
  obtain ⟨ds, h1, _, _, _, _, h2⟩ := UInt64ToStr_canonical 18446744073709551615 (by norm_num)
  exact ⟨ds, h1, h2⟩

/-- C7. For every unsigned 32-bit value and every minimum width `numDigits`
(a C `int`), `UIntToStr` writes the decimal digits of the value left-padded
with '0' to a total length of max(numDigits, number of digits), followed by
NUL, drops no digit, and returns the position just after the last digit; a
4-digit value with width 5 gives "0" followed by its digits and 0 with
width 2 gives "00". -/
theorem UIntToStr_padded (value : Nat) (numDigits : Int) (h : value < 2 ^ 32) :
    ∃ out, UIntToStr value numDigits = some (out ++ [0], out.length) ∧
      out = List.replicate (numDigits - (decimal value).length).toNat 48 ++ decimal value ∧
      (out.length : Int) = max numDigits (decimal value).length ∧
      readDecimal out = value ∧
      (1000 ≤ value → value ≤ 9999 → numDigits = 5 → out = 48 :: decimal value) ∧
      (value = 0 → numDigits = 2 → out = ascii "00") := by
  refine ⟨_, UIntToStr_eq value numDigits h, rfl, ?_, ?_, ?_, ?_⟩
  · simp only [List.length_append, List.length_replicate, Nat.cast_add]
    omega
  · unfold readDecimal
    rw [List.foldl_append]
    have e : List.foldl (fun a c => 10 * a + (c - 48)) 0
        (List.replicate (numDigits - ((decimal value).length : Int)).toNat 48) = 0 := by
      generalize (numDigits - ((decimal value).length : Int)).toNat = k
      induction k with
      | zero => rfl
      | succ k ih => rw [List.replicate_succ, List.foldl_cons]; simpa using ih
    rw [e]
    exact readDecimal_decimal value
  · intro h1 h2 h3
    have e4 : (decimal value).length ≤ 4 := (decimal_length_le_iff value 4 (by norm_num)).2 (by omega)
    have e3 : ¬ (decimal value).length ≤ 3 := fun hc =>
      absurd ((decimal_length_le_iff value 3 (by norm_num)).1 hc) (by omega)
    have e : (numDigits - ((decimal value).length : Int)).toNat = 1 := by omega
    rw [e]
    rfl
  · rintro rfl rfl
    rfl

/-- Witness for C7 with a 4-digit value and width 5. -/
theorem UIntToStr_padded_witness :
    ∃ out, UIntToStr 2015 5 = some (out ++ [0], out.length) ∧ out = 48 :: decimal 2015 := by
  obtain ⟨out, h1, _, _, _, h2, _⟩ := UIntToStr_padded 2015 5 (by norm_num)
  exact ⟨out, h1, h2 (by norm_num) (by norm_num) rfl⟩

set_option maxRecDepth 100000 in
/-- C8, the code at the failing inputs. With a capacity of 30 and a buffer
whose first 20 bytes are non-zero, listing one entry (name "b", size 0, no
timestamp) makes `strncat` append the 19 blanks and their NUL at indices
20 to 39, so bytes are stored at indices 30 to 39, beyond the capacity. With
a capacity of 60 and a buffer that holds the empty C string (a zero byte, then
non-zero bytes), listing the entries "a" and "b" returns `SZ_OK` and the first
column of the second line is stored at indices 60 to 79: no NUL is stored
after the newline of the first line, so `strncat` appends at the first zero
byte behind the buffer. -/
theorem SzxList_stores_past_capacity :
    ((SzxList ⟨fun _ => true, fun _ _ => some (fun _ => 0)⟩ true
      (Except.ok [⟨[0x62], false, 0, none, none⟩])
      (List.replicate 20 65 ++ List.replicate 20 0) 30).map (fun r => r.stores)
    = some [20, 21, 22, 23, 24, 25, 26, 27, 28, 29, 30, 31, 32, 33, 34, 35, 36, 37, 38, 39,
        19, 20, 20, 20, 21, 21, 22, 22, 23, 23, 24, 24] ∧
    ¬ (∀ j ∈ [20, 21, 22, 23, 24, 25, 26, 27, 28, 29, 30, 31, 32, 33, 34, 35, 36, 37, 38, 39,
        19, 20, 20, 20, 21, 21, 22, 22, 23, 23, 24, 24], j < 30)) ∧
    (SzxList ⟨fun _ => true, fun _ _ => some (fun _ => 0)⟩ true
      (Except.ok [⟨[0x61], false, 0, none, none⟩, ⟨[0x62], false, 0, none, none⟩])
      (0 :: List.replicate 59 65 ++ List.replicate 40 0) 60).map
        (fun r => (r.res, r.stores.filter (fun j => decide (60 ≤ j))))
    = some (SRes.SZ_OK, [60, 61, 62, 63, 64, 65, 66, 67, 68, 69, 70, 71, 72, 73, 74, 75, 76, 77,
        78, 79]) := by
  decide

/-- Where the stores of `SzxList` do stay inside the buffer: for every file
table, every capacity and every outcome of the allocations, when the report
buffer is zero-filled on entry (whatever lies behind it in memory), no byte is
stored at an index greater than or equal to the capacity, and the byte count
returned in `*size` is at most the capacity; when the archive cannot be opened
nothing is stored and `*size` is left as it was. -/
theorem SzxList_within_capacity (h : Heap) (fileOpen : Bool) (opened : Except SRes (List Entry))
    (cap : Nat) (R : List Nat) (hdb : ∀ db, opened = Except.ok db → WellTyped db) :
    ∃ r, SzxList h fileOpen opened (List.replicate cap 0 ++ R) cap = some r ∧
      (∀ j ∈ r.stores, j < cap) ∧ r.size ≤ cap := by
  cases fileOpen with
  | false =>
    exact ⟨⟨SRes.SZ_ERROR_FAIL, List.replicate cap 0 ++ R, cap, []⟩, by simp [SzxList],
      by simp, le_refl _⟩
  | true =>
    cases opened with
    | error e =>
      exact ⟨⟨e, List.replicate cap 0 ++ R, cap, []⟩, by simp [SzxList], by simp, le_refl _⟩
    | ok db =>
      obtain ⟨res, sts, h1, h2, h3⟩ := SzxList_spec h cap db (hdb db rfl) R
      exact ⟨_, h1, h2, h3⟩

/-- An instance of `SzxList_within_capacity`: two entries and a capacity that
holds one line. -/
theorem SzxList_within_capacity_witness :
    ∃ r, SzxList ⟨fun _ => true, fun _ _ => some (fun _ => 0)⟩ true
        (Except.ok [⟨[0x62], false, 0, none, none⟩, ⟨[0x63], true, 7, none, some ⟨0, 0⟩⟩])
        (List.replicate 30 0 ++ [1, 2, 3]) 30 = some r ∧
      (∀ j ∈ r.stores, j < 30) ∧ r.size ≤ 30 :=
  SzxList_within_capacity _ true _ 30 [1, 2, 3] (by
    intro db hdb
    cases hdb
    intro e he
    simp only [List.mem_cons, List.mem_singleton, List.not_mem_nil, or_false] at he
    rcases he with rfl | rfl
    · exact ⟨by norm_num, by decide, by simp⟩
    · exact ⟨by norm_num, by decide, by
        intro nt hnt
        simp only [Option.some.injEq] at hnt
        subst hnt
        exact ⟨by norm_num, by norm_num⟩⟩)

/-- C9. Given a report buffer that is zero-filled on entry, `SzxList` leaves
in the buffer exactly the report in which, going through the entries it
reaches, an entry's line is appended if and only if its complete length
(four columns, three tabs, newline) is at most the capacity remaining after
the lines already appended, followed by the untouched zeros; the byte count
returned in `*size` is the total length of the appended lines, which occupy
indices 0 .. count-1. When no allocation fails every entry is reached and
its line is `entryLine`; then, for a table of N+1 entries with lines and a
capacity equal to the total length of the first N lines, exactly those N
lines appear. -/
theorem SzxList_appends_iff_fits (h : Heap) (db : List Entry) (cap : Nat) (R : List Nat)
    (hdb : WellTyped db) :
    ∃ r, SzxList h true (Except.ok db) (List.replicate cap 0 ++ R) cap = some r ∧
      r.size = (report cap (loopLines h db 0 0) []).length ∧
      r.list.take r.size = report cap (loopLines h db 0 0) [] ∧
      r.list = report cap (loopLines h db 0 0) [] ++ List.replicate (cap - r.size) 0 ++ R ∧
      r.size ≤ cap ∧
      (NoAllocFailure h →
        loopLines h db 0 0 = db.map entryLine ∧
        ∀ (lines : List (List Nat)) (last : List Nat),
          db.map entryLine = lines.map some ++ [some last] → lines.flatten.length = cap →
          r.list.take r.size = lines.flatten ∧ r.size = cap) := by
  obtain ⟨res, sts, h1, h2, h3⟩ := SzxList_spec h cap db hdb R
  refine ⟨_, h1, rfl, ?_, rfl, h3, ?_⟩
  · simp only [List.append_assoc, List.take_left']
  · intro ha
    have hmap := loopLines_eq_map h db hdb ha 0 0
    refine ⟨hmap, ?_⟩
    intro lines last hl hlen
    have hlast : last ≠ [] := by
      have hm : some last ∈ db.map entryLine := by rw [hl]; simp
      obtain ⟨e, -, he⟩ := List.mem_map.mp hm
      exact entryLine_ne_nil e last he
    have hpos : 0 < last.length := List.length_pos.2 hlast
    have hrep : report cap (loopLines h db 0 0) [] = lines.flatten := by
      rw [hmap, hl, report_all_fit cap lines _ [] (by simp [hlen])]
      simp only [List.nil_append, report]
      rw [if_neg (by omega)]
    simp only [hrep, List.append_assoc, List.take_left']
    exact ⟨trivial, hlen⟩

/-- Witness for C9: two entries and a capacity that holds one line. -/
theorem SzxList_appends_iff_fits_witness :
    ∃ r, SzxList ⟨fun _ => true, fun _ _ => some (fun _ => 0)⟩ true
        (Except.ok [⟨[0x62], false, 0, none, none⟩, ⟨[0x63], true, 7, none, some ⟨0, 0⟩⟩])
        (List.replicate 30 0 ++ [1, 2, 3]) 30 = some r ∧
      r.size = (report 30 (loopLines ⟨fun _ => true, fun _ _ => some (fun _ => 0)⟩
        [⟨[0x62], false, 0, none, none⟩, ⟨[0x63], true, 7, none, some ⟨0, 0⟩⟩] 0 0) []).length := by
  obtain ⟨r, h1, h2, -⟩ := SzxList_appends_iff_fits ⟨fun _ => true, fun _ _ => some (fun _ => 0)⟩
    [⟨[0x62], false, 0, none, none⟩, ⟨[0x63], true, 7, none, some ⟨0, 0⟩⟩] 30 [1, 2, 3]
    (by
      intro e he
      simp only [List.mem_cons, List.mem_singleton, List.not_mem_nil, or_false] at he
      rcases he with rfl | rfl
      · exact ⟨by norm_num, by decide, by simp⟩
      · exact ⟨by norm_num, by decide, by
          intro nt hnt
          simp only [Option.some.injEq] at hnt
          subst hnt
          exact ⟨by norm_num, by norm_num⟩⟩)
  exact ⟨r, h1, h2⟩

set_option maxRecDepth 100000 in
/-- Counterexample to C10 as stated: for an entry whose modification time is
the first tick of year 10000 the appended line is
`10000-01-01 00:00:00<tab><tab>0<tab>a<newline>`; its timestamp has 20
characters, so the line is not a 19-character timestamp followed by a tab.
The last part shows the run on a buffer that is not zero-filled: the bytes
counted in `*size` then begin with 19 bytes of the old content in place of the
19 blanks, which `strncat` has appended further on. -/
theorem SzxList_line_year_10000 :
    (SzxList ⟨fun _ => true, fun _ _ => some (fun _ => 0)⟩ true
      (Except.ok [⟨[0x61], false, 0, none, some (CNtfsFileTime.ofTicks 2650467744000000000)⟩])
      (List.replicate 32 0) 32).map (fun r => r.list.take r.size)
      = some (ascii "10000-01-01 00:00:00\t\t0\ta\n") ∧
    (¬ ∃ T rest : List Nat, T.length = 19 ∧
      ascii "10000-01-01 00:00:00\t\t0\ta\n" = T ++ [9] ++ rest) ∧
    (SzxList ⟨fun _ => true, fun _ _ => some (fun _ => 0)⟩ true
      (Except.ok [⟨[0x62], false, 0, none, none⟩])
      (List.replicate 20 65 ++ List.replicate 20 0) 30).map (fun r => r.list.take r.size)
      = some (List.replicate 19 65 ++ ascii "\t\t0\tb\n") := by
  refine ⟨by decide, ?_, by decide⟩
  rintro ⟨T, rest, hl, he⟩
  have h1 : (T ++ [9] ++ rest)[19]? = some 9 := by
    rw [List.append_assoc, List.getElem?_append_right (by omega), hl]
    simp
  have h2 : (ascii "10000-01-01 00:00:00\t\t0\ta\n")[19]? = some 48 := by decide
  rw [he, h1] at h2
  cases h2

/-- C10, amended. Given a zero-filled report buffer, the bytes that
`SzxList` leaves at indices 0 .. count-1 are the lines of a selection of the
entries, files and directories alike, in table order, with nothing before,
between or after them; and the line of each such entry is exactly: the
timestamp string of `ConvertFileTimeToString` (19 characters for a date
before year 10000, 20 from year 10000 on) or 19 spaces when the entry has no
modification time, a tab, the attribute string, a tab, the decimal size as
produced by `UInt64ToStr`, a tab, the name transcoded by `Utf16_To_Utf8`,
and a single newline. -/
theorem SzxList_line_format (h : Heap) (db : List Entry) (cap : Nat) (R : List Nat)
    (hdb : WellTyped db) :
    ∃ r, ∃ sel : List (Entry × List Nat),
      SzxList h true (Except.ok db) (List.replicate cap 0 ++ R) cap = some r ∧
      (sel.map Prod.fst).Sublist db ∧
      r.list.take r.size = (sel.map Prod.snd).flatten ∧
      ∀ p ∈ sel, ∃ T S,
        timeColumn p.1.mtime = some (T ++ [0]) ∧ UInt64ToStr p.1.size = some (S ++ [0]) ∧
        (Utf16_To_Utf8 true (cstr p.1.name)).ok = true ∧
        p.2 = T ++ ascii "\t" ++ cstr (GetAttribString (p.1.attrib.getD 0) p.1.isDir)
          ++ ascii "\t" ++ S ++ ascii "\t" ++ (Utf16_To_Utf8 true (cstr p.1.name)).bytes
          ++ ascii "\n" ∧
        (p.1.mtime = none → T = List.replicate 19 32) ∧
        (∀ nt, p.1.mtime = some nt → ConvertFileTimeToString nt = some (T ++ [0]) ∧
          T.length = if nt.Low + nt.High * 2 ^ 32 < 2650467744000000000 then 19 else 20) := by
  obtain ⟨res, sts, h1, -, -⟩ := SzxList_spec h cap db hdb R
  obtain ⟨sel, s1, s2, s3⟩ := report_loopLines_selection h cap db hdb 0 0 []
  refine ⟨_, sel, h1, s1, ?_, ?_⟩
  · simp only [List.append_assoc, List.take_left', s3, List.nil_append]
  · intro p hp
    have hmem : p.1 ∈ db := s1.subset (List.mem_map_of_mem Prod.fst hp)
    exact entryLine_format p.1 p.2 (hdb p.1 hmem) (s2 p hp)

/-- Witness for C10, amended: a file and a directory. -/
theorem SzxList_line_format_witness :
    ∃ r, ∃ sel : List (Entry × List Nat),
      SzxList ⟨fun _ => true, fun _ _ => some (fun _ => 0)⟩ true
        (Except.ok [⟨[0x62], false, 0, none, none⟩, ⟨[0x63], true, 7, none, some ⟨0, 0⟩⟩])
        (List.replicate 64 0) 64 = some r ∧
      r.list.take r.size = (sel.map Prod.snd).flatten := by
  obtain ⟨r, sel, h1, -, h2, -⟩ := SzxList_line_format
    ⟨fun _ => true, fun _ _ => some (fun _ => 0)⟩
    [⟨[0x62], false, 0, none, none⟩, ⟨[0x63], true, 7, none, some ⟨0, 0⟩⟩] 64 []
    (by
      intro e he
      simp only [List.mem_cons, List.mem_singleton, List.not_mem_nil, or_false] at he
      rcases he with rfl | rfl
      · exact ⟨by norm_num, by decide, by simp⟩
      · exact ⟨by norm_num, by decide, by
          intro nt hnt
          simp only [Option.some.injEq] at hnt
          subst hnt
          exact ⟨by norm_num, by norm_num⟩⟩)
  exact ⟨r, sel, by simpa using h1, h2⟩

set_option maxRecDepth 100000 in
/-- C11, the code at the failing input: for a table of two files, the first
with the malformed name `[0xD800]` and the second named `b`, `SzxList`
returns `SZ_OK` and the report holds the line of `b`; the failure of the first
entry is reported only when no entry follows it, as the second run shows,
where `SzxList` returns `SZ_ERROR_FAIL`. -/
theorem SzxList_continues_after_bad_name :
    (SzxList ⟨fun _ => true, fun _ _ => some (fun _ => 0)⟩ true
      (Except.ok [⟨[0xD800], false, 0, none, none⟩, ⟨[0x62], false, 0, none, none⟩])
      (List.replicate 32 0) 32).map (fun r => (r.res, r.list.take r.size))
      = some (SRes.SZ_OK, ascii "                   \t\t0\tb\n") ∧
    (SzxList ⟨fun _ => true, fun _ _ => some (fun _ => 0)⟩ true
      (Except.ok [⟨[0xD800], false, 0, none, none⟩])
      (List.replicate 32 0) 32).map (fun r => (r.res, r.list.take r.size))
      = some (SRes.SZ_ERROR_FAIL, []) := by
  decide

/-- C12. In `SzxExtract` with `fullPaths` false, for every file entry that is
reached and decoded: no call of `mkdir` is made for the entry; the only call
of `OutFile_Open` that can be made for it comes right after the decoder call
and is handed the UTF-8 transcoding of exactly the part of the name after its
last `'/'`, its outcome being what the filesystem answers; that call is made
whenever this part is well-formed UTF-16 and its buffer is allocated, and
otherwise nothing is opened and the loop is left with `SZ_ERROR_FAIL`. The
last part ties the body to the loop of `SzxExtract`. -/
theorem SzxExtract_flat_destination (w : Collaborators) (i : Nat) (e : Entry) (st : DriverState)
    (hf : e.isDir = false) (hU : Units16 e.name)
    (htemp : ¬ (e.name.length + 1 > st.tempSize ∧ w.tempOk i = false))
    (hd : (w.decode st.log.length i st.cursor).res = SRes.SZ_OK) :
    ∃ (go : Bool) (st2 : DriverState) (opens tail : List Event),
      extractEntry w false i e st = some (go, st2) ∧
      st2.log = st.log ++ [Event.extract i st.cursor (w.decode st.log.length i st.cursor)]
        ++ opens ++ tail ∧
      (∀ ev ∈ st2.log.drop st.log.length, ev.isCreateDir = false) ∧
      (∀ ev ∈ tail, ev.isOpenOut = false) ∧
      ((∃ path, transcode (leafName (cstr e.name)) = some path ∧
          opens = [Event.openOut path (w.outOpen (st.log.length + 1) path)]) ∨
        (opens = [] ∧ tail = [] ∧ go = false ∧ st2.res = SRes.SZ_ERROR_FAIL)) ∧
      (WellFormedUtf16 (leafName (cstr e.name)) →
        (∀ n, (w.bufAlloc (st.log.length + 1) n).isSome = true) →
        ∃ path, transcode (leafName (cstr e.name)) = some path ∧
          opens = [Event.openOut path (w.outOpen (st.log.length + 1) path)]) ∧
      (∀ rest, SzxExtract_loop w false (e :: rest) i st =
        if go = true then SzxExtract_loop w false rest (i + 1) st2 else some st2) := by
  obtain ⟨go, st2, dirs, name, r, opens, tail, h1, h2, -, -, h3, -, -, hopen, h5⟩ :=
    extractEntry_file_log w false i e st hf hU htemp hd (fun h => Bool.noConfusion h)
  obtain ⟨hdirs, hname⟩ := h3 rfl
  subst hdirs hname
  simp only [List.length_nil, Nat.add_zero, List.append_nil] at hopen h2
  have htail : ∀ ev ∈ tail, ev.isCreateDir = false ∧ ev.isOpenOut = false := by
    intro ev hev
    rcases h5 with ⟨-, ht, -⟩ | ⟨-, wr, k, -, ht, -⟩ | ⟨-, cl, -, ht, -⟩ | ⟨-, ht, -⟩ <;>
      rw [ht] at hev <;> simp at hev
    · subst hev; exact ⟨rfl, rfl⟩
    · rcases hev with rfl | rfl <;> exact ⟨rfl, rfl⟩
    · rcases hev with rfl | rfl <;> exact ⟨rfl, rfl⟩
  have hU3 : Units16 (leafName (cstr e.name)) :=
    fun x hx => cstr_units e.name hU x (leafName_subset _ x hx)
  refine ⟨go, st2, opens, tail, h1, h2, ?_, fun ev hev => (htail ev hev).2, ?_, ?_, ?_⟩
  · rw [h2, List.append_assoc, List.append_assoc, List.drop_left]
    intro ev hev
    simp only [List.singleton_append, List.mem_cons, List.mem_append] at hev
    rcases hev with rfl | hev | hev
    · rfl
    · rcases hopen with ⟨-, -, -, ho⟩ | ⟨-, -, ho⟩
      · rw [ho] at hev; simp only [List.mem_singleton] at hev; subst hev; rfl
      · rw [ho] at hev; simp at hev
    · exact (htail ev hev).1
  · rcases hopen with ⟨hg, -, hr, ho⟩ | ⟨-, hr, ho⟩
    · exact Or.inl ⟨_, transcode_good _ hg, by rw [ho, hr]⟩
    · rcases h5 with ⟨-, ht, hg, hres⟩ | ⟨h0, -⟩ | ⟨h0, -⟩ | ⟨h0, -⟩
      · exact Or.inr ⟨ho, ht, hg, hres⟩
      · exact absurd h0 hr
      · exact absurd h0 hr
      · exact absurd h0 hr
  · intro hwf halloc
    have hg := (good_iff_wellFormed _ hU3).2 hwf
    rcases hopen with ⟨-, -, hr, ho⟩ | ⟨hbad, -⟩
    · exact ⟨_, transcode_good _ hg, by rw [ho, hr]⟩
    · exact absurd ⟨hg, halloc _⟩ hbad
  · intro rest
    rw [SzxExtract_loop, h1]
    cases go <;> rfl

/-- Witness for C12: the file `a/é` is opened as the two bytes of `é`. -/
theorem SzxExtract_flat_destination_witness :
    transcode (leafName (cstr [97, 47, 0xE9])) = some [0xC3, 0xA9] ∧
    ∃ (go : Bool) (st2 : DriverState) (opens tail : List Event),
      extractEntry (calmWorld 0 47) false 0 ⟨[97, 47, 0xE9], false, 0, none, none⟩
        ⟨SRes.SZ_OK, 0, ⟨0xFFFFFFFF, none, 0⟩, []⟩ = some (go, st2) ∧
      st2.log = [] ++ [Event.extract 0 ⟨0xFFFFFFFF, none, 0⟩
          ((calmWorld 0 47).decode 0 0 ⟨0xFFFFFFFF, none, 0⟩)] ++ opens ++ tail ∧
      (∀ ev ∈ st2.log.drop 0, ev.isCreateDir = false) ∧
      (∀ ev ∈ tail, ev.isOpenOut = false) ∧
      ((∃ path, transcode (leafName (cstr [97, 47, 0xE9])) = some path ∧
          opens = [Event.openOut path ((calmWorld 0 47).outOpen (0 + 1) path)]) ∨
        (opens = [] ∧ tail = [] ∧ go = false ∧ st2.res = SRes.SZ_ERROR_FAIL)) ∧
      (WellFormedUtf16 (leafName (cstr [97, 47, 0xE9])) →
        (∀ n, ((calmWorld 0 47).bufAlloc (0 + 1) n).isSome = true) →
        ∃ path, transcode (leafName (cstr [97, 47, 0xE9])) = some path ∧
          opens = [Event.openOut path ((calmWorld 0 47).outOpen (0 + 1) path)]) ∧
      (∀ rest, SzxExtract_loop (calmWorld 0 47) false
          (⟨[97, 47, 0xE9], false, 0, none, none⟩ :: rest) 0
          ⟨SRes.SZ_OK, 0, ⟨0xFFFFFFFF, none, 0⟩, []⟩ =
        if go = true then SzxExtract_loop (calmWorld 0 47) false rest (0 + 1) st2
        else some st2) :=
  ⟨by decide,
    SzxExtract_flat_destination (calmWorld 0 47) 0 ⟨[97, 47, 0xE9], false, 0, none, none⟩
      ⟨SRes.SZ_OK, 0, ⟨0xFFFFFFFF, none, 0⟩, []⟩ rfl (by decide) (by decide) rfl⟩

set_option maxRecDepth 100000 in
/-- Counterexample to C14 as stated: every `mkdir` fails with `EACCES` (13),
which is not "already exists"; for the directory `d` and the file `d/f`,
`SzxExtract` with `fullPaths` set logs the two failed requests for `d`, goes
on to decode, open, write and close the file, and returns `SZ_OK`. -/
theorem SzxExtract_continues_after_mkdir_failure :
    (SzxExtract (calmWorld 13 47) true
      (Except.ok [⟨[100], true, 0, none, none⟩, ⟨[100, 47, 102], false, 0, none, none⟩])
      true).map (fun r => (r.res, r.log))
      = some (SRes.SZ_OK, [Event.createDir [100] 13,
          Event.extract 1 ⟨0xFFFFFFFF, none, 0⟩ ⟨SRes.SZ_OK, ⟨1, some [1, 2, 3], 3⟩, 1, 2⟩,
          Event.createDir [100] 13, Event.openOut [100, 47, 102] 0,
          Event.write (some [1, 2, 3]) 1 2 0 2, Event.close 0]) := by
  decide

/-- C14, amended. In `SzxExtract` the outcome of a directory-creation request
is not inspected: replacing the outcomes of `mkdir` by any others, "already
exists" or not, changes neither the status returned nor any call made, apart
from the outcomes recorded for the requests themselves; so "already exists" is
no error, and neither is any other outcome. -/
theorem SzxExtract_mkdir_outcome_ignored (w : Collaborators) (mk : Nat → List Nat → Nat)
    (fileOpen : Bool) (opened : Except SRes (List Entry)) (fullPaths : Bool) :
    (SzxExtract { w with mkdir := mk } fileOpen opened fullPaths).map
        (fun r => (r.res, r.log.map Event.forgetDir))
      = (SzxExtract w fileOpen opened fullPaths).map
        (fun r => (r.res, r.log.map Event.forgetDir)) :=
  SzxExtract_mkdir w mk fileOpen opened fullPaths

/-- C15. `SzxTest` makes no filesystem call: every call it logs is a decoder
call. When a decoder call of the run reports a failure, `SzxTest` returns the
status of that call, which is not `SZ_OK`, and that call is the last one, all
calls before it having succeeded; and for an archive with a file entry whose
decoding fails however it is called, `SzxTest` does not return `SZ_OK`. -/
theorem SzxTest_reports_decoder_failure (w : Collaborators) (fileOpen : Bool)
    (opened : Except SRes (List Entry)) :
    (∀ ev ∈ (SzxTest w fileOpen opened).log, ev.isExtract = true) ∧
    Chained ⟨0xFFFFFFFF, none, 0⟩ (decoderCalls (SzxTest w fileOpen opened).log) ∧
    (∀ c ∈ decoderCalls (SzxTest w fileOpen opened).log, c.2.2.res ≠ SRes.SZ_OK →
      (SzxTest w fileOpen opened).res = c.2.2.res ∧
      (SzxTest w fileOpen opened).res ≠ SRes.SZ_OK) ∧
    (∀ db k e, opened = Except.ok db → db.get? k = some e → e.isDir = false →
      (∀ now cur, (w.decode now k cur).res ≠ SRes.SZ_OK) →
      (SzxTest w fileOpen opened).res ≠ SRes.SZ_OK) := by
  obtain ⟨h1, h2, h3, h4, h5⟩ := SzxTest_spec w fileOpen opened
  refine ⟨h1, h2, fun c hc hne => ⟨h3 c hc hne, by rw [h3 c hc hne]; exact hne⟩, ?_⟩
  intro db k e hop hk hf hbad hres
  cases fileOpen with
  | false => simp [SzxTest] at hres
  | true =>
    obtain ⟨-, h6⟩ := h5 db hop
    obtain ⟨h7, h8⟩ := h6 rfl hres
    have hmem : 0 + k ∈ fileIndices db 0 := fileIndices_mem db 0 k e hk hf
    rw [Nat.zero_add, ← h7] at hmem
    obtain ⟨c, hc, hck⟩ := List.mem_map.1 hmem
    obtain ⟨now, cur, hd⟩ := h4 c hc
    have := h8 c hc
    rw [hd, hck] at this
    exact hbad now cur this

set_option maxRecDepth 100000 in
/-- An example of test mode: the decoder fails with code 16 at entry 1; `SzxTest`
returns that code after two decoder calls and nothing else. -/
theorem SzxTest_stops_at_failed_decode :
    ((SzxTest { calmWorld 0 47 with decode := fun _ i _ =>
        ⟨if i = 1 then SRes.other 16 else SRes.SZ_OK, ⟨i, none, 0⟩, 0, 0⟩ } true
      (Except.ok [⟨[97], false, 0, none, none⟩, ⟨[98], false, 0, none, none⟩,
        ⟨[99], false, 0, none, none⟩])).res,
     (SzxTest { calmWorld 0 47 with decode := fun _ i _ =>
        ⟨if i = 1 then SRes.other 16 else SRes.SZ_OK, ⟨i, none, 0⟩, 0, 0⟩ } true
      (Except.ok [⟨[97], false, 0, none, none⟩, ⟨[98], false, 0, none, none⟩,
        ⟨[99], false, 0, none, none⟩])).log.length) = (SRes.other 16, 2) := by
  decide

set_option maxRecDepth 100000 in
/-- Counterexample to C17 as stated: with `fullPaths` false, `SzxExtract` on a
table holding the single directory `d` makes no call at all, so `mkdir` is not
called, and returns `SZ_OK`. With `fullPaths` true the same happens for a
directory whose name is an unpaired surrogate, since `MyCreateDir` returns at
line 160 when the name does not transcode, and for the directory `d` when the
transcoding buffer cannot be allocated. -/
theorem SzxExtract_flat_skips_directory :
    (SzxExtract (calmWorld 0 47) true (Except.ok [⟨[100], true, 0, none, none⟩]) false).map
      (fun r => (r.res, r.log)) = some (SRes.SZ_OK, []) ∧
    (SzxExtract (calmWorld 0 47) true (Except.ok [⟨[0xD800], true, 0, none, none⟩]) true).map
      (fun r => (r.res, r.log)) = some (SRes.SZ_OK, []) ∧
    (SzxExtract { calmWorld 0 47 with bufAlloc := fun _ _ => none } true
      (Except.ok [⟨[100], true, 0, none, none⟩]) true).map
      (fun r => (r.res, r.log)) = some (SRes.SZ_OK, []) := by
  decide

/-- C17, amended. In `SzxExtract` with `fullPaths` false a directory entry is
skipped without any call. With `fullPaths` true, for every directory entry
that is reached, the body of the loop logs calls of `mkdir` only, so neither
the decoder nor an open or a write is invoked, leaves `res` and the cache
variables as they were, and the loop goes on; and when the name is well-formed
UTF-16 and every transcoding buffer is allocated, these calls are exactly: one
for each `'/'` of the name, on the UTF-8 transcoding of the rewritten prefix
before it, and then one on the UTF-8 transcoding of the complete resolved
path, each with the outcome that the filesystem answers. The last parts tie
the body to the loop of `SzxExtract`. -/
theorem SzxExtract_directory_entry (w : Collaborators) (i : Nat) (e : Entry) (st : DriverState)
    (hdir : e.isDir = true) (hU : Units16 e.name)
    (htemp : ¬ (e.name.length + 1 > st.tempSize ∧ w.tempOk i = false))
    (hs : w.pathSep ≠ 0)
    (hsur : w.pathSep < 0xD800 ∨ (0xE000 ≤ w.pathSep ∧ w.pathSep < 65536)) :
    extractEntry w false i e st = some (true, st) ∧
    (∀ rest, SzxExtract_loop w false (e :: rest) i st = SzxExtract_loop w false rest (i + 1) st) ∧
    ∃ (st2 : DriverState) (evs : List Event),
      extractEntry w true i e st = some (true, st2) ∧
      (∀ rest, SzxExtract_loop w true (e :: rest) i st
        = SzxExtract_loop w true rest (i + 1) st2) ∧
      st2.log = st.log ++ evs ∧ (∀ ev ∈ evs, ev.isCreateDir = true) ∧
      st2.res = st.res ∧ st2.cursor = st.cursor ∧
      (WellFormedUtf16 (cstr e.name) → (∀ now n, (w.bufAlloc now n).isSome = true) →
        ∃ (paths : List (List Nat)) (full : List Nat),
          (dirPrefixes w.pathSep (cstr e.name)).map transcode = paths.map some ∧
          transcode (hostPath w.pathSep (cstr e.name)) = some full ∧
          evs = mkdirLog w st.log.length paths
            ++ [Event.createDir full (w.mkdir (st.log.length + paths.length) full)]) := by
  have hflat : extractEntry w false i e st = some (true, st) := by simp [extractEntry, hdir]
  refine ⟨hflat, fun rest => by rw [SzxExtract_loop, hflat], ?_⟩
  obtain ⟨evs, heq, hev, hgood⟩ := extractEntry_dir_log w i e st hdir hU htemp hs (by omega)
  refine ⟨_, evs, heq, fun rest => by rw [SzxExtract_loop, heq], rfl, hev, rfl, rfl, ?_⟩
  intro hwf halloc
  have hg := (good_iff_wellFormed _ (cstr_units e.name hU)).2 hwf
  obtain ⟨hevs, hpre, hfull⟩ := hgood hg halloc (by omega)
  refine ⟨(dirPrefixes w.pathSep (cstr e.name)).map (fun p => utf8Encode (scanned p)),
    utf8Encode (scanned (hostPath w.pathSep (cstr e.name))),
    prefixes_transcode _ _ hpre, transcode_good _ hfull, ?_⟩
  rw [hevs]
  simp

/-- Witness for C17, amended: the directory `é/d` with the separator `'\\'`;
`mkdir` is called on the bytes of `é` and then on those of `é\d`. -/
theorem SzxExtract_directory_entry_witness :
    ((dirPrefixes 92 (cstr [0xE9, 47, 100])).map transcode = [some [0xC3, 0xA9]] ∧
      transcode (hostPath 92 (cstr [0xE9, 47, 100])) = some [0xC3, 0xA9, 92, 100]) ∧
    ∃ (st2 : DriverState) (evs : List Event),
      extractEntry (calmWorld 0 92) true 0 ⟨[0xE9, 47, 100], true, 0, none, none⟩
        ⟨SRes.SZ_OK, 0, ⟨0xFFFFFFFF, none, 0⟩, []⟩ = some (true, st2) ∧
      st2.log = [] ++ evs ∧ (∀ ev ∈ evs, ev.isCreateDir = true) ∧
      (WellFormedUtf16 (cstr [0xE9, 47, 100]) →
        (∀ now n, ((calmWorld 0 92).bufAlloc now n).isSome = true) →
        ∃ (paths : List (List Nat)) (full : List Nat),
          (dirPrefixes 92 (cstr [0xE9, 47, 100])).map transcode = paths.map some ∧
          transcode (hostPath 92 (cstr [0xE9, 47, 100])) = some full ∧
          evs = mkdirLog (calmWorld 0 92) 0 paths
            ++ [Event.createDir full ((calmWorld 0 92).mkdir (0 + paths.length) full)]) :=
  ⟨by decide,
    (SzxExtract_directory_entry (calmWorld 0 92) 0 ⟨[0xE9, 47, 100], true, 0, none, none⟩
      ⟨SRes.SZ_OK, 0, ⟨0xFFFFFFFF, none, 0⟩, []⟩ rfl (by decide) (by decide) (by decide)
      (by decide)).2.2.imp (fun _ h => h.imp
        (fun _ h => ⟨h.1, h.2.2.1, h.2.2.2.1, h.2.2.2.2.2.2⟩))⟩

/-- C19. For every 64-bit tick count the day-of-year left by the
400/100/4/1-year decomposition is below the length of its year, so the month
scan stops at an index of at most 11 inside the 12-entry table, with a
remainder below that month's table entry; the rendered month is `mon + 1` in
1..12 and the rendered day is `day + 1` in 1..(length of the month). -/
theorem ConvertFileTimeToString_month_scan (t : Nat) (ht : t < 2 ^ 64) :
    (splitFileTime (CNtfsFileTime.ofTicks t)).v <
      (if (splitFileTime (CNtfsFileTime.ofTicks t)).year % 4 = 0 ∧
          ((splitFileTime (CNtfsFileTime.ofTicks t)).year % 100 ≠ 0 ∨
            (splitFileTime (CNtfsFileTime.ofTicks t)).year % 400 = 0) then 366 else 365) ∧
    ∃ mon day len,
      monthLoop [31,
          if (splitFileTime (CNtfsFileTime.ofTicks t)).year % 4 = 0 ∧
            ((splitFileTime (CNtfsFileTime.ofTicks t)).year % 100 ≠ 0 ∨
              (splitFileTime (CNtfsFileTime.ofTicks t)).year % 400 = 0) then 29 else 28,
          31, 30, 31, 30, 31, 31, 30, 31, 30, 31] 0 (splitFileTime (CNtfsFileTime.ofTicks t)).v
        = some (mon, day) ∧
      mon ≤ 11 ∧
      [31,
          if (splitFileTime (CNtfsFileTime.ofTicks t)).year % 4 = 0 ∧
            ((splitFileTime (CNtfsFileTime.ofTicks t)).year % 100 ≠ 0 ∨
              (splitFileTime (CNtfsFileTime.ofTicks t)).year % 400 = 0) then 29 else 28,
          31, 30, 31, 30, 31, 31, 30, 31, 30, 31].get? mon = some len ∧
      day < len ∧ 1 ≤ mon + 1 ∧ mon + 1 ≤ 12 ∧ 1 ≤ day + 1 ∧ day + 1 ≤ len ∧
      ConvertFileTimeToString (CNtfsFileTime.ofTicks t)
        = some (renderDateTime ⟨(splitFileTime (CNtfsFileTime.ofTicks t)).year, mon + 1, day + 1,
            (splitFileTime (CNtfsFileTime.ofTicks t)).hour,
            (splitFileTime (CNtfsFileTime.ofTicks t)).min,
            (splitFileTime (CNtfsFileTime.ofTicks t)).sec⟩) := by
  obtain ⟨mon, v, g1, g2, g3, g4, g5⟩ := ConvertFileTimeToString_fields t ht
  obtain ⟨-, -, -, -, -, -, h7⟩ := splitFileTime_spec t ht
  have heq := ConvertFileTimeToString_eq t ht
  rw [g5] at heq
  unfold CNtfsFileTime.ofTicks
  generalize splitFileTime ⟨t % 2 ^ 32, t / 2 ^ 32⟩ = f at *
  refine ⟨?_, mon, v, daysInMonth f.year (mon + 1), g1, g2, ?_, g3, by omega, by omega,
    by omega, by omega, heq⟩
  · unfold isLeapYear at h7
    simpa using h7
  · rw [month_table_eq, List.get?_eq_getElem?, List.getElem?_map,
      List.getElem?_range (by omega)]
    rfl

/-- Witness for C19: one tick before 1601-03-01 of the epoch year. -/
theorem ConvertFileTimeToString_month_scan_witness :
    (50976000000000 : Nat) < 2 ^ 64 ∧
    ∃ mon day len,
      monthLoop [31,
          if (splitFileTime (CNtfsFileTime.ofTicks 50976000000000)).year % 4 = 0 ∧
            ((splitFileTime (CNtfsFileTime.ofTicks 50976000000000)).year % 100 ≠ 0 ∨
              (splitFileTime (CNtfsFileTime.ofTicks 50976000000000)).year % 400 = 0)
          then 29 else 28,
          31, 30, 31, 30, 31, 31, 30, 31, 30, 31] 0
          (splitFileTime (CNtfsFileTime.ofTicks 50976000000000)).v
        = some (mon, day) ∧ mon ≤ 11 ∧ day < len :=
  ⟨by norm_num,
    (ConvertFileTimeToString_month_scan 50976000000000 (by norm_num)).2.imp
      (fun _ h => h.imp (fun _ h => h.imp (fun _ h => ⟨h.1, h.2.1, h.2.2.2.1⟩)))⟩

/-- C20. `ConvertFileTimeToString` preserves order: for tick counts `a ≤ b`
with the year of `b`, and so that of `a`, below 10000 the string of `a` is at most the string of
`b` in byte-wise lexicographic order, and the two strings are equal exactly
when `a` and `b` lie in the same whole second. -/
theorem ConvertFileTimeToString_monotone (a b : Nat) (hab : a ≤ b) (hb : b < 2 ^ 64)
    (hyb : (splitFileTime (CNtfsFileTime.ofTicks b)).year < 10000) :
    ∃ sa sb, ConvertFileTimeToString (CNtfsFileTime.ofTicks a) = some sa ∧
      ConvertFileTimeToString (CNtfsFileTime.ofTicks b) = some sb ∧
      lexLe sa sb = true ∧ (sa = sb ↔ a / 10000000 = b / 10000000) := by
  have ha : a < 2 ^ 64 := lt_of_le_of_lt hab hb
  refine ⟨_, _, ConvertFileTimeToString_eq a ha, ConvertFileTimeToString_eq b hb, ?_, ?_⟩
  all_goals
    obtain ⟨mon, v, -, -, -, -, g5⟩ := ConvertFileTimeToString_fields b hb
    have hy : (addSeconds (b / 10000000) epoch1601).year < 10000 := by
      rw [g5]; exact hyb
    have hle : a / 10000000 ≤ b / 10000000 := Nat.div_le_div_right hab
    by_cases e : a / 10000000 = b / 10000000
  · rw [e]; exact lexLe_refl _
  · exact lexLt_le _ _ (render_strictMono _ _ (by omega) hy)
  · rw [e]; simp
  · exact ⟨fun h => absurd h (lexLt_ne _ _ (render_strictMono _ _ (by omega) hy)),
      fun h => absurd h e⟩

/-- Witness for C20: two instants of 1601-01-01, one second apart. -/
theorem ConvertFileTimeToString_monotone_witness :
    ∃ sa sb, ConvertFileTimeToString (CNtfsFileTime.ofTicks 5) = some sa ∧
      ConvertFileTimeToString (CNtfsFileTime.ofTicks 10000005) = some sb ∧
      lexLe sa sb = true ∧ (sa = sb ↔ 5 / 10000000 = 10000005 / 10000000) :=
  ConvertFileTimeToString_monotone 5 10000005 (by norm_num) (by norm_num) (by decide)

end SevenZx
